import Mathlib

/-!
# Verification of the KLL quantile sketch (`velox/functions/lib/KllSketch-inl.h`)

This file gives a shallow embedding of the KLL sketch implementation and
proves properties of it.  Raw `T*` buffers are modelled as total functions
`Nat → α` (a store), element writes as pointwise function update, and the
`std::vector` members of the sketch as Lean lists.  Machine integers
(`uint32_t`, `uint64_t`) are modelled as `Nat`; all index arithmetic in the
algorithm stays far below `2^32` whenever the sketch invariants hold, so no
wrap-around is modelled.

The helper functions `levelCapacity`, `computeTotalCapacity`, `floorLog2`
and `sumSampleWeights` are declared but not defined in the header; they are
modelled from the specification (section 4.1) and marked as such.
-/

set_option linter.unusedSectionVars false

namespace Kll

universe u v

variable {α : Type u} {β : Type v}

/-! ## Buffers modelled as stores -/

/-- Pointwise update of a buffer: `buf[i] = v`. -/
def upd (f : Nat → α) (i : Nat) (v : α) : Nat → α :=
  fun j => if j = i then v else f j

/-- The list of values held in buffer positions `[start, start+len)`. -/
def seg (f : Nat → α) (start len : Nat) : List α :=
  (List.range len).map fun j => f (start + j)

/-- Write the elements of `l` to consecutive buffer positions from `start`. -/
def writeSeg (f : Nat → α) (start : Nat) : List α → Nat → α
  | [] => f
  | x :: xs => writeSeg (upd f start x) (start + 1) xs

theorem upd_self (f : Nat → α) (i : Nat) (v : α) : upd f i v i = v := by
  simp [upd]

theorem upd_other (f : Nat → α) {i j : Nat} (v : α) (h : j ≠ i) :
    upd f i v j = f j := by
  simp [upd, h]

@[simp]
theorem seg_zero (f : Nat → α) (s : Nat) : seg f s 0 = [] := by
  simp [seg]

theorem seg_succ (f : Nat → α) (s n : Nat) :
    seg f s (n + 1) = f s :: seg f (s + 1) n := by
  simp only [seg, List.range_succ_eq_map, List.map_cons, List.map_map]
  refine congrArg₂ (· :: ·) rfl ?_
  apply List.map_congr_left
  intro j _
  simp only [Function.comp_apply]
  congr 1
  omega

theorem seg_snoc (f : Nat → α) (s n : Nat) :
    seg f s (n + 1) = seg f s n ++ [f (s + n)] := by
  simp [seg, List.range_succ]

theorem seg_length (f : Nat → α) (s n : Nat) : (seg f s n).length = n := by
  simp [seg]

/-- A segment only depends on the values of the buffer inside it. -/
theorem seg_congr {f g : Nat → α} {s n : Nat}
    (h : ∀ j, s ≤ j → j < s + n → f j = g j) : seg f s n = seg g s n := by
  apply List.map_congr_left
  intro j hj
  exact h (s + j) (Nat.le_add_right _ _) (by simp at hj; omega)

/-- Updating the buffer outside a segment does not change the segment. -/
theorem seg_upd_out (f : Nat → α) (s n i : Nat) (v : α)
    (h : i < s ∨ s + n ≤ i) : seg (upd f i v) s n = seg f s n := by
  apply seg_congr
  intro j h1 h2
  apply upd_other
  omega

theorem writeSeg_out (f : Nat → α) (s : Nat) (l : List α) {j : Nat}
    (h : j < s ∨ s + l.length ≤ j) : writeSeg f s l j = f j := by
  induction l generalizing f s with
  | nil => rfl
  | cons x xs ih =>
      show writeSeg (upd f s x) (s + 1) xs j = f j
      rw [ih (upd f s x) (s + 1) (by simp at h ⊢; omega)]
      apply upd_other
      simp at h
      omega

theorem writeSeg_in (f : Nat → α) (s : Nat) (l : List α) (d : α) {j : Nat}
    (h1 : s ≤ j) (h2 : j < s + l.length) :
    writeSeg f s l j = l.getD (j - s) d := by
  induction l generalizing f s with
  | nil => simp at h2; omega
  | cons x xs ih =>
      show writeSeg (upd f s x) (s + 1) xs j = _
      rcases Nat.eq_or_lt_of_le h1 with h | h
      · subst h
        rw [writeSeg_out _ _ _ (Or.inl (by omega))]
        simp [upd]
      · rw [ih (upd f s x) (s + 1) h (by simp at h2 ⊢; omega)]
        have : j - s = (j - (s + 1)) + 1 := by omega
        simp [this]

/-- Reading back a just-written segment gives the written list. -/
theorem seg_writeSeg (f : Nat → α) (s : Nat) (l : List α) :
    seg (writeSeg f s l) s l.length = l := by
  induction l generalizing f s with
  | nil => simp
  | cons x xs ih =>
      show seg (writeSeg (upd f s x) (s + 1) xs) s (xs.length + 1) = x :: xs
      rw [seg_succ]
      rw [writeSeg_out _ _ _ (Or.inl (by omega)), upd_self, ih]

/-! ## `detail::mergeOverlap`

Merges the two sorted sub-ranges `buf[startA..startA+lenA)` and
`buf[startB..startB+lenB)` into the range starting at `buf[startC]`.  The
source uses a main loop running both read cursors followed by two drain
loops; the recursion below performs exactly the same sequence of reads and
writes. -/

namespace detail

def mergeOverlapGo (cmp : α → α → Bool) (f : Nat → α)
    (a limA b limB c : Nat) : Nat → α :=
  if _ : a < limA then
    if _ : b < limB then
      if cmp (f a) (f b) then
        mergeOverlapGo cmp (upd f c (f a)) (a + 1) limA b limB (c + 1)
      else
        mergeOverlapGo cmp (upd f c (f b)) a limA (b + 1) limB (c + 1)
    else
      mergeOverlapGo cmp (upd f c (f a)) (a + 1) limA b limB (c + 1)
  else
    if _ : b < limB then
      mergeOverlapGo cmp (upd f c (f b)) a limA (b + 1) limB (c + 1)
    else
      f
termination_by (limA - a) + (limB - b)
decreasing_by all_goals omega

def mergeOverlap (f : Nat → α) (startA lenA startB lenB startC : Nat)
    (cmp : α → α → Bool) : Nat → α :=
  mergeOverlapGo cmp f startA (startA + lenA) startB (startB + lenB) startC

/-- The merge loop writes, starting at `c`, exactly `List.merge` of the two
unread segments, provided writes can overtake neither unread `A` elements
(`limA ≤ c`) nor unread `B` elements (`c + (limA - a) ≤ b`). -/
theorem mergeOverlapGo_spec (cmp : α → α → Bool) (f : Nat → α)
    (a limA b limB c : Nat) (ha : a ≤ limA) (hb : b ≤ limB) (hc : limA ≤ c)
    (hcb : c + (limA - a) ≤ b) :
    mergeOverlapGo cmp f a limA b limB c =
      writeSeg f c ((seg f a (limA - a)).merge (seg f b (limB - b)) cmp) := by
  revert ha hb hc hcb
  induction f, a, limA, b, limB, c using mergeOverlapGo.induct cmp with
  | case1 f a limA b limB c hA hB hab ih =>
      intro ha hb hc hcb
      rw [mergeOverlapGo, dif_pos hA, dif_pos hB, if_pos hab]
      rw [ih (by omega) hb (by omega) (by omega)]
      rw [seg_upd_out f (a + 1) (limA - (a + 1)) c (f a) (Or.inr (by omega)),
        seg_upd_out f b (limB - b) c (f a) (Or.inl (by omega))]
      have h1 : limA - a = (limA - (a + 1)) + 1 := by omega
      have h2 : limB - b = (limB - (b + 1)) + 1 := by omega
      rw [h1, seg_succ, h2, seg_succ, List.cons_merge_cons, if_pos hab]
      rfl
  | case2 f a limA b limB c hA hB hab ih =>
      intro ha hb hc hcb
      rw [mergeOverlapGo, dif_pos hA, dif_pos hB, if_neg hab]
      rw [ih ha (by omega) (by omega) (by omega)]
      rw [seg_upd_out f a (limA - a) c (f b) (Or.inr (by omega)),
        seg_upd_out f (b + 1) (limB - (b + 1)) c (f b) (Or.inl (by omega))]
      have h1 : limA - a = (limA - (a + 1)) + 1 := by omega
      have h2 : limB - b = (limB - (b + 1)) + 1 := by omega
      rw [h1, seg_succ, h2, seg_succ, List.cons_merge_cons, if_neg hab]
      rw [← seg_succ, ← h1]
      rfl
  | case3 f a limA b limB c hA hB ih =>
      intro ha hb hc hcb
      rw [mergeOverlapGo, dif_pos hA, dif_neg hB]
      rw [ih (by omega) hb (by omega) (by omega)]
      rw [seg_upd_out f (a + 1) (limA - (a + 1)) c (f a) (Or.inr (by omega)),
        seg_upd_out f b (limB - b) c (f a) (Or.inl (by omega))]
      have h1 : limA - a = (limA - (a + 1)) + 1 := by omega
      have h3 : limB - b = 0 := by omega
      rw [h1, h3, seg_succ]
      simp only [seg_zero, List.merge_right]
      rfl
  | case4 f a limA b limB c hA hB ih =>
      intro ha hb hc hcb
      rw [mergeOverlapGo, dif_neg hA, dif_pos hB]
      rw [ih ha (by omega) (by omega) (by omega)]
      rw [seg_upd_out f a (limA - a) c (f b) (Or.inr (by omega)),
        seg_upd_out f (b + 1) (limB - (b + 1)) c (f b) (Or.inl (by omega))]
      have h1 : limA - a = 0 := by omega
      have h2 : limB - b = (limB - (b + 1)) + 1 := by omega
      rw [h1, h2, seg_succ]
      simp only [seg_zero, List.nil_merge]
      rfl
  | case5 f a limA b limB c hA hB =>
      intro ha hb hc hcb
      rw [mergeOverlapGo, dif_neg hA, dif_neg hB]
      have h1 : limA - a = 0 := by omega
      have h2 : limB - b = 0 := by omega
      rw [h1, h2]
      simp [writeSeg]

/-- `mergeOverlap` under its documented preconditions writes `List.merge` of
the two input segments at `startC` and leaves the rest of the buffer alone. -/
theorem mergeOverlap_spec (f : Nat → α) (startA lenA startB lenB startC : Nat)
    (cmp : α → α → Bool) (h1 : startA + lenA ≤ startC)
    (h2 : startC + lenA ≤ startB) :
    mergeOverlap f startA lenA startB lenB startC cmp =
      writeSeg f startC
        ((seg f startA lenA).merge (seg f startB lenB) cmp) := by
  unfold mergeOverlap
  rw [mergeOverlapGo_spec cmp f startA (startA + lenA) startB
    (startB + lenB) startC (by omega) (by omega) (by omega) (by omega)]
  have e1 : startA + lenA - startA = lenA := by omega
  have e2 : startB + lenB - startB = lenB := by omega
  rw [e1, e2]

end detail

/-! ## Sortedness with respect to a strict `Bool` comparator

The C++ code is parameterized by a comparator `C` giving a strict weak
order (`std::less`-style).  A range is sorted when no later element compares
strictly below an earlier one. -/

/-- `l` is sorted under the strict comparator `cmp`. -/
def SortedB (cmp : α → α → Bool) (l : List α) : Prop :=
  l.Pairwise fun x y => cmp y x = false

instance (cmp : α → α → Bool) (l : List α) : Decidable (SortedB cmp l) :=
  inferInstanceAs (Decidable (l.Pairwise _))

/-- A strict weak order: asymmetry of `cmp`. -/
def CmpAsym (cmp : α → α → Bool) : Prop :=
  ∀ x y, cmp x y = true → cmp y x = false

/-- A strict weak order: transitivity of the negation of `cmp`. -/
def CmpNegTrans (cmp : α → α → Bool) : Prop :=
  ∀ x y z, cmp x y = false → cmp y z = false → cmp x z = false

/-- Merging with a strict comparator takes the `B` side first on ties: it
equals the (tie-stable) merge of `B` and `A` under the non-strict order
induced by `cmp`. -/
theorem merge_swap (cmp : α → α → Bool) (A B : List α) :
    A.merge B cmp = B.merge A fun x y => !cmp y x := by
  induction A generalizing B with
  | nil => simp [List.nil_merge, List.merge_right]
  | cons x xs ihA =>
      induction B with
      | nil => simp [List.nil_merge, List.merge_right]
      | cons y ys ihB =>
          rw [List.cons_merge_cons, List.cons_merge_cons]
          cases h : cmp x y with
          | true => simp only [h, if_pos, Bool.not_true, if_neg, ihA,
              Bool.false_eq_true, not_false_iff]
          | false => simp only [h, Bool.false_eq_true, if_neg, not_false_iff,
              Bool.not_false, if_pos, ihB]

/-- The merge of two sorted lists is sorted (strict-comparator version). -/
theorem sortedB_merge {cmp : α → α → Bool} (hasym : CmpAsym cmp)
    (hneg : CmpNegTrans cmp) {A B : List α} (hA : SortedB cmp A)
    (hB : SortedB cmp B) : SortedB cmp (A.merge B cmp) := by
  rw [merge_swap]
  have htrans : ∀ a b c : α, (!cmp b a) = true → (!cmp c b) = true →
      (!cmp c a) = true := by
    intro a b c h1 h2
    simp only [Bool.not_eq_true'] at *
    exact hneg c b a h2 h1
  have htotal : ∀ a b : α, ((!cmp b a) || (!cmp a b)) = true := by
    intro a b
    cases h : cmp b a with
    | false => simp
    | true => simp [hasym _ _ h]
  have := List.sorted_merge htrans htotal B A
    (hB.imp (by intro a b h; simpa using h))
    (hA.imp (by intro a b h; simpa using h))
  exact this.imp (by intro a b h; simpa using h)

/-- The merge of two lists is a permutation of their concatenation. -/
theorem merge_perm (cmp : α → α → Bool) (A B : List α) :
    (A.merge B cmp).Perm (A ++ B) :=
  List.perm_merge cmp A B

/-- A sorted segment compares favourably on any in-range index pair. -/
theorem sortedB_seg_pairs (cmp : α → α → Bool) (f : Nat → α) (a n : Nat)
    (hs : SortedB cmp (seg f a n)) :
    ∀ i j, a ≤ i → i < j → j < a + n → cmp (f j) (f i) = false := by
  intro i j hi hij hj
  rw [SortedB, List.pairwise_iff_getElem] at hs
  have h1 : i - a < (seg f a n).length := by rw [seg_length]; omega
  have h2 : j - a < (seg f a n).length := by rw [seg_length]; omega
  have hp := hs (i - a) (j - a) h1 h2 (by omega)
  simp only [seg, List.getElem_map, List.getElem_range] at hp
  have ei : a + (i - a) = i := by omega
  have ej : a + (j - a) = j := by omega
  rw [ei, ej] at hp
  exact hp

/-- A segment whose in-range index pairs compare favourably is sorted. -/
theorem sortedB_seg_of_pairs (cmp : α → α → Bool) (f : Nat → α) (a n : Nat)
    (h : ∀ i j, a ≤ i → i < j → j < a + n → cmp (f j) (f i) = false) :
    SortedB cmp (seg f a n) := by
  rw [SortedB, List.pairwise_iff_getElem]
  intro i j h1 h2 hij
  rw [seg_length] at h1 h2
  simp only [seg, List.getElem_map, List.getElem_range]
  exact h (a + i) (a + j) (by omega) (by omega) (by omega)

/-- Selecting every other element of a sorted segment gives a sorted
list. -/
theorem sortedB_stride (cmp : α → α → Bool) (f : Nat → α) (a n q h : Nat)
    (hq : a ≤ q) (hbound : ∀ t, t < h → q + 2 * t < a + n)
    (hs : SortedB cmp (seg f a n)) :
    SortedB cmp ((List.range h).map fun t => f (q + 2 * t)) := by
  rw [SortedB, List.pairwise_iff_getElem]
  intro i j h1 h2 hij
  simp only [List.length_map, List.length_range] at h1 h2
  simp only [List.getElem_map, List.getElem_range]
  exact sortedB_seg_pairs cmp f a n hs (q + 2 * i) (q + 2 * j)
    (by omega) (by omega) (hbound j h2)

/-- An empty segment is sorted. -/
theorem sortedB_seg_zero (cmp : α → α → Bool) (f : Nat → α) (s : Nat) :
    SortedB cmp (seg f s 0) := by
  rw [seg_zero]
  exact List.Pairwise.nil

/-- A one-element segment is sorted. -/
theorem sortedB_seg_one (cmp : α → α → Bool) (f : Nat → α) (s : Nat) :
    SortedB cmp (seg f s 1) :=
  sortedB_seg_of_pairs cmp f s 1 fun i j h1 h2 h3 => by omega

/-- The suffix of a sorted segment is sorted. -/
theorem sortedB_seg_suffix (cmp : α → α → Bool) (f : Nat → α)
    (a n b m : Nat) (hab : a ≤ b) (hnm : b + m ≤ a + n)
    (hs : SortedB cmp (seg f a n)) : SortedB cmp (seg f b m) :=
  sortedB_seg_of_pairs cmp f b m fun i j h1 h2 h3 =>
    sortedB_seg_pairs cmp f a n hs i j (by omega) h2 (by omega)

/-- The comparator of the level-0 sort, as a non-strict order: total when
`cmp` is asymmetric. -/
theorem mergeSort_le_total (cmp : α → α → Bool) (hasym : CmpAsym cmp) :
    ∀ a b : α, ((! cmp b a) || (! cmp a b)) = true := by
  intro a b
  rcases hc : cmp b a with h | h
  · simp
  · rw [hasym b a hc]
    simp

/-- The comparator of the level-0 sort, as a non-strict order: transitive
when the negation of `cmp` is transitive. -/
theorem mergeSort_le_trans (cmp : α → α → Bool) (hneg : CmpNegTrans cmp) :
    ∀ a b c : α, (! cmp b a) = true → (! cmp c b) = true →
      (! cmp c a) = true := by
  intro a b c h1 h2
  simp only [Bool.not_eq_true'] at *
  exact hneg c b a h2 h1

/-- The level-0 sort produces a sorted list. -/
theorem sortedB_mergeSort (cmp : α → α → Bool) (hasym : CmpAsym cmp)
    (hneg : CmpNegTrans cmp) (l : List α) :
    SortedB cmp (l.mergeSort fun x y => ! cmp y x) := by
  have hp := List.sorted_mergeSort
    (fun a b c => mergeSort_le_trans cmp hneg a b c)
    (fun a b => mergeSort_le_total cmp hasym a b) l
  rw [SortedB]
  exact hp.imp fun h => by simpa using h

/-! ## Level geometry (`levelCapacity`, `computeTotalCapacity`)

These two functions are declared in the header but defined in
`KllSketch.cpp`, which is not among the sources. -/

namespace detail

/-- Modelled from the spec: `KllSketch.cpp` (missing from the sources)
defines `levelCapacity(k, numLevels, height)`, "let `depth = numLevels −
height − 1`; the capacity is `max(minK, ceil(k · (2/3)^depth))` where `minK`
is a small constant (8 in the reference)". -/
def levelCapacity (k numLevels height : Nat) : Nat :=
  let depth := numLevels - height - 1
  max 8 ((k * 2 ^ depth + (3 ^ depth - 1)) / 3 ^ depth)

/-- Modelled from the spec: `KllSketch.cpp` (missing from the sources)
defines `computeTotalCapacity(k, numLevels)` as the "sum of `levelCapacity`
across `height ∈ [0, numLevels)`". -/
def computeTotalCapacity (k numLevels : Nat) : Nat :=
  ((List.range numLevels).map fun h => levelCapacity k numLevels h).sum

/-- Modelled from the spec: `KllSketch.cpp` (missing from the sources)
defines `floorLog2(p, q)` returning `floor(log2(p/q))`; `merge` only calls
it with `q = 1`. -/
def floorLog2 (p q : Nat) : Nat :=
  Nat.log2 (p / q)

theorem levelCapacity_ge_8 (k numLevels height : Nat) :
    8 ≤ levelCapacity k numLevels height :=
  le_max_left _ _

/-- Adding a level on top leaves the capacities of the existing levels
unchanged once their height is shifted by one. -/
theorem levelCapacity_shift (k m h : Nat) :
    levelCapacity k (m + 1) (h + 1) = levelCapacity k m h := by
  unfold levelCapacity
  have : m + 1 - (h + 1) - 1 = m - h - 1 := by omega
  rw [this]

theorem computeTotalCapacity_zero (k : Nat) : computeTotalCapacity k 0 = 0 :=
  rfl

/-- Growing the sketch by one level adds exactly the capacity of the new
bottom level to the total capacity. -/
theorem computeTotalCapacity_succ (k m : Nat) :
    computeTotalCapacity k (m + 1) =
      computeTotalCapacity k m + levelCapacity k (m + 1) 0 := by
  unfold computeTotalCapacity
  rw [List.range_succ_eq_map]
  simp only [List.map_cons, List.map_map, List.sum_cons]
  have : ((List.range m).map ((fun h => levelCapacity k (m + 1) h) ∘
      (· + 1))).sum = ((List.range m).map fun h => levelCapacity k m h).sum := by
    congr 1
    apply List.map_congr_left
    intro h _
    exact levelCapacity_shift k m h
  rw [this]
  omega

theorem computeTotalCapacity_one (k : Nat) :
    computeTotalCapacity k 1 = max 8 k := by
  show levelCapacity k 1 0 + 0 = max 8 k
  simp [levelCapacity]

end detail

/-! ## The random bit source -/

/-- Modelled from the spec: the `randomBit_` member's type is declared in
`KllSketch.h`, which is not among the sources; the spec requires "a PRNG
producing uniform 0/1 bits, seeded once" and "deterministic given its seed".
We model it as a linear congruential generator on a 64-bit state; each draw
advances the state and yields the top bit. -/
structure RandomBit where
  state : Nat
deriving DecidableEq

def RandomBit.next (r : RandomBit) : Nat × RandomBit :=
  let s := (r.state * 6364136223846793005 + 1442695040888963407) % 2 ^ 64
  (s / 2 ^ 63, ⟨s⟩)

theorem RandomBit.next_le_one (r : RandomBit) : (r.next).1 ≤ 1 := by
  show (r.state * 6364136223846793005 + 1442695040888963407) % 2 ^ 64 /
    2 ^ 63 ≤ 1
  have h : (r.state * 6364136223846793005 + 1442695040888963407) % 2 ^ 64 <
      2 ^ 64 := Nat.mod_lt _ (by norm_num)
  have h2 : (r.state * 6364136223846793005 + 1442695040888963407) % 2 ^ 64 /
      2 ^ 63 < 2 :=
    Nat.div_lt_of_lt_mul (lt_of_lt_of_eq h (by norm_num))
  exact Nat.lt_succ_iff.mp h2

/-! ## More `writeSeg` algebra -/

theorem writeSeg_cons (f : Nat → α) (s : Nat) (x : α) (l : List α) :
    writeSeg f s (x :: l) = writeSeg (upd f s x) (s + 1) l :=
  rfl

theorem writeSeg_snoc (f : Nat → α) (s : Nat) (l : List α) (v : α) :
    writeSeg f s (l ++ [v]) = upd (writeSeg f s l) (s + l.length) v := by
  induction l generalizing f s with
  | nil => simp [writeSeg]
  | cons x xs ih =>
      show writeSeg (upd f s x) (s + 1) (xs ++ [v]) = _
      rw [ih]
      simp only [List.length_cons]
      have e : s + 1 + xs.length = s + (xs.length + 1) := by omega
      rw [e]
      rfl

/-- An update outside the written range commutes with `writeSeg`. -/
theorem writeSeg_upd_comm (f : Nat → α) (s : Nat) (l : List α) (m : Nat)
    (v : α) (h : m < s ∨ s + l.length ≤ m) :
    writeSeg (upd f m v) s l = upd (writeSeg f s l) m v := by
  funext j
  by_cases hj : j = m
  · subst hj
    rw [writeSeg_out _ _ _ h, upd_self, upd_self]
  · have hR : upd (writeSeg f s l) m v j = writeSeg f s l j :=
      upd_other _ _ hj
    rw [hR]
    by_cases hs : s ≤ j
    · by_cases hslen : j < s + l.length
      · rw [writeSeg_in (upd f m v) s l v hs hslen,
          writeSeg_in f s l v hs hslen]
      · rw [writeSeg_out _ _ _ (Or.inr (by omega)),
          writeSeg_out _ _ _ (Or.inr (by omega)), upd_other _ _ hj]
    · rw [writeSeg_out _ _ _ (Or.inl (by omega)),
        writeSeg_out _ _ _ (Or.inl (by omega)), upd_other _ _ hj]

/-! ## `detail::randomlyHalveDown` and `detail::randomlyHalveUp`

Each draws one random bit `offset` and keeps every other element of the
(even-length) range, compacting the survivors into the lower (`Down`) or
upper (`Up`) half.  `Down` iterates upward from `start`; `Up` iterates
downward from `start + length - 1`. -/

namespace detail

def halveDownGo (stop : Nat) (f : Nat → α) (i j : Nat) : Nat → α :=
  if _ : i < stop then halveDownGo stop (upd f i (f j)) (i + 1) (j + 2)
  else f
termination_by stop - i
decreasing_by omega

def randomlyHalveDown (f : Nat → α) (start length : Nat) (rb : RandomBit) :
    (Nat → α) × RandomBit :=
  let halfLength := length / 2
  let p := rb.next
  (halveDownGo (start + halfLength) f start (start + p.1), p.2)

def halveUpGo (f : Nat → α) (i j cnt : Nat) : Nat → α :=
  match cnt with
  | 0 => f
  | n + 1 => halveUpGo (upd f i (f j)) (i - 1) (j - 2) n

def randomlyHalveUp (f : Nat → α) (start length : Nat) (rb : RandomBit) :
    (Nat → α) × RandomBit :=
  let halfLength := length / 2
  let p := rb.next
  (halveUpGo f (start + length - 1) (start + length - 1 - p.1)
    (length - halfLength), p.2)

theorem halveDownGo_spec (stop : Nat) (f : Nat → α) (i j : Nat)
    (hij : i ≤ j) :
    halveDownGo stop f i j =
      writeSeg f i ((List.range (stop - i)).map fun t => f (j + 2 * t)) := by
  revert hij
  induction f, i, j using halveDownGo.induct stop with
  | case1 f i j hstop ih =>
      intro hij
      rw [halveDownGo, dif_pos hstop, ih (by omega)]
      have h1 : stop - i = (stop - (i + 1)) + 1 := by omega
      rw [h1, List.range_succ_eq_map, List.map_cons, List.map_map]
      simp only [Nat.mul_zero, Nat.add_zero]
      rw [writeSeg_cons]
      have hm : ((List.range (stop - (i + 1))).map fun t =>
          upd f i (f j) (j + 2 + 2 * t)) =
          (List.range (stop - (i + 1))).map
            ((fun t => f (j + 2 * t)) ∘ Nat.succ) := by
        apply List.map_congr_left
        intro t _
        simp only [Function.comp_apply]
        rw [upd_other f _ (by omega)]
        congr 1
        omega
      rw [hm]
  | case2 f i j hstop =>
      intro hij
      rw [halveDownGo, dif_neg hstop]
      have h1 : stop - i = 0 := by omega
      rw [h1]
      simp [writeSeg]

theorem halveUpGo_spec (cnt : Nat) :
    ∀ (f : Nat → α) (p q : Nat), q + cnt ≤ p →
      halveUpGo f (p + cnt) (q + 2 * cnt) (cnt + 1) =
        writeSeg f p ((List.range (cnt + 1)).map fun s => f (q + 2 * s)) := by
  induction cnt with
  | zero =>
      intro f p q _
      show upd f p (f q) = writeSeg f p [f q]
      rfl
  | succ n ih =>
      intro f p q hqp
      show halveUpGo (upd f (p + (n + 1)) (f (q + 2 * (n + 1))))
        (p + (n + 1) - 1) (q + 2 * (n + 1) - 2) (n + 1) = _
      have e1 : p + (n + 1) - 1 = p + n := by omega
      have e2 : q + 2 * (n + 1) - 2 = q + 2 * n := by omega
      rw [e1, e2, ih _ p q (by omega)]
      have hmap : ((List.range (n + 1)).map fun s =>
          upd f (p + (n + 1)) (f (q + 2 * (n + 1))) (q + 2 * s)) =
          (List.range (n + 1)).map fun s => f (q + 2 * s) := by
        apply List.map_congr_left
        intro s hs
        simp only [List.mem_range] at hs
        apply upd_other
        omega
      rw [hmap, writeSeg_upd_comm f p _ _ _
        (by simp only [List.length_map, List.length_range]; omega)]
      conv_rhs => rw [List.range_succ]
      simp only [List.map_append, List.map_cons, List.map_nil]
      rw [writeSeg_snoc]
      simp only [List.length_map, List.length_range]

end detail

/-! ## Forward and backward range moves (`std::move`, `std::move_backward`)

`std::move(first, last, dFirst)` copies elements in ascending order;
`std::move_backward(first, last, dLast)` copies them in descending order.
For trivially copyable elements a move is a copy. -/

def moveFwd (f : Nat → α) (src dst cnt : Nat) : Nat → α :=
  match cnt with
  | 0 => f
  | n + 1 => moveFwd (upd f dst (f src)) (src + 1) (dst + 1) n

def moveBwd (f : Nat → α) (src dst cnt : Nat) : Nat → α :=
  match cnt with
  | 0 => f
  | n + 1 => moveBwd (upd f (dst + n) (f (src + n))) src dst n

/-- A forward move with destination at or below the source behaves like
copying the source segment out and writing it at the destination. -/
theorem moveFwd_spec (f : Nat → α) (src dst cnt : Nat) (h : dst ≤ src) :
    moveFwd f src dst cnt = writeSeg f dst (seg f src cnt) := by
  induction cnt generalizing f src dst with
  | zero => rfl
  | succ n ih =>
      show moveFwd (upd f dst (f src)) (src + 1) (dst + 1) n = _
      rw [ih _ _ _ (by omega), seg_succ, writeSeg_cons]
      exact congrArg (writeSeg (upd f dst (f src)) (dst + 1))
        (seg_congr fun j h1 h2 => upd_other f _ (by omega))

/-- A backward move with destination at or above the source behaves like
copying the source segment out and writing it at the destination. -/
theorem moveBwd_spec (f : Nat → α) (src dst cnt : Nat) (h : src ≤ dst) :
    moveBwd f src dst cnt = writeSeg f dst (seg f src cnt) := by
  induction cnt generalizing f with
  | zero => rfl
  | succ n ih =>
      show moveBwd (upd f (dst + n) (f (src + n))) src dst n = _
      rw [ih _]
      have hseg : seg (upd f (dst + n) (f (src + n))) src n = seg f src n := by
        apply seg_congr
        intro j h1 h2
        rw [upd_other f _ (by omega)]
      rw [hseg, seg_snoc, writeSeg_snoc, seg_length,
        writeSeg_upd_comm f dst (seg f src n) (dst + n) (f (src + n))
          (by rw [seg_length]; omega)]

/-! ## `detail::generalCompress`

The compress driver walks the levels bottom-up.  A level is either moved
over unchanged or compacted (possibly leaving one odd "orphan" behind,
sorting level 0 first, halving up into an empty level above or halving down
and merging into a nonempty one).  Compacting the top level adds a level.
The loop state mirrors the local variables of the C++ function; each loop
iteration is split into the convenience update of `inLevels` above the top
level, the move-over branch and the compaction branch. -/

namespace detail

structure CompressState (α : Type u) where
  items : Nat → α
  inLevels : Nat → Nat
  outLevels : Nat → Nat
  currentNumLevels : Nat
  currentItemCount : Nat
  targetItemCount : Nat
  randomBit : RandomBit

/-- Move a level over as is (never upward in the buffer). -/
def gcMoveStep (level : Nat) (st : CompressState α) : CompressState α :=
  let rawBeg := st.inLevels level
  let rawLim := st.inLevels (level + 1)
  let rawPop := rawLim - rawBeg
  { st with
    items := moveFwd st.items rawBeg (st.outLevels level) rawPop
    outLevels := upd st.outLevels (level + 1) (st.outLevels level + rawPop) }

/-- Compact a level: move zero or one orphan over, sort level 0 if needed,
halve up into an empty level above or halve down and merge up, adjust the
boundary of the level above and the level count. -/
def gcCompactStep (k : Nat) (cmp : α → α → Bool) (isLevelZeroSorted : Bool)
    (level : Nat) (st : CompressState α) : CompressState α :=
  let rawBeg := st.inLevels level
  let rawLim := st.inLevels (level + 1)
  let rawPop := rawLim - rawBeg
  let popAbove := st.inLevels (level + 2) - rawLim
  let oddPop := rawPop % 2
  let adjBeg := rawBeg + oddPop
  let adjPop := rawPop - oddPop
  let halfAdjPop := adjPop / 2
  -- Move zero or one guy over.
  let items2 := if oddPop = 1 then
      upd st.items (st.outLevels level) (st.items rawBeg)
    else st.items
  let outL1 := if oddPop = 1 then
      upd st.outLevels (level + 1) (st.outLevels level + 1)
    else upd st.outLevels (level + 1) (st.outLevels level)
  -- Sort level zero before compacting it, if needed.
  let items3 := if level = 0 ∧ isLevelZeroSorted = false then
      writeSeg items2 adjBeg
        ((seg items2 adjBeg adjPop).mergeSort fun x y => !cmp y x)
    else items2
  -- Halve up into an empty level above, else halve down and merge up.
  let hp := if popAbove = 0 then
      randomlyHalveUp items3 adjBeg adjPop st.randomBit
    else
      let hd := randomlyHalveDown items3 adjBeg adjPop st.randomBit
      (mergeOverlap hd.1 adjBeg halfAdjPop rawLim popAbove
        (adjBeg + halfAdjPop) cmp, hd.2)
  { st with
    items := hp.1
    randomBit := hp.2
    outLevels := outL1
    -- Track the eliminated data; adjust the boundary of the level above.
    currentItemCount := st.currentItemCount - halfAdjPop
    inLevels := upd st.inLevels (level + 1)
      (st.inLevels (level + 1) - halfAdjPop)
    -- Increment the level count if we just compacted the old top level.
    currentNumLevels := if level = st.currentNumLevels - 1 then
        st.currentNumLevels + 1
      else st.currentNumLevels
    targetItemCount := if level = st.currentNumLevels - 1 then
        st.targetItemCount + levelCapacity k (st.currentNumLevels + 1) 0
      else st.targetItemCount }

theorem gcMoveStep_inLevels (level : Nat) (st : CompressState α) :
    (gcMoveStep level st).inLevels = st.inLevels := rfl

theorem gcMoveStep_currentNumLevels (level : Nat) (st : CompressState α) :
    (gcMoveStep level st).currentNumLevels = st.currentNumLevels := rfl

theorem gcMoveStep_currentItemCount (level : Nat) (st : CompressState α) :
    (gcMoveStep level st).currentItemCount = st.currentItemCount := rfl

theorem gcMoveStep_targetItemCount (level : Nat) (st : CompressState α) :
    (gcMoveStep level st).targetItemCount = st.targetItemCount := rfl

theorem gcMoveStep_randomBit (level : Nat) (st : CompressState α) :
    (gcMoveStep level st).randomBit = st.randomBit := rfl

theorem gcMoveStep_outLevels (level : Nat) (st : CompressState α) :
    (gcMoveStep level st).outLevels = upd st.outLevels (level + 1)
      (st.outLevels level + (st.inLevels (level + 1) - st.inLevels level)) :=
  rfl

theorem gcCompactStep_inLevels (k : Nat) (cmp : α → α → Bool)
    (flag : Bool) (level : Nat) (st : CompressState α) :
    (gcCompactStep k cmp flag level st).inLevels =
      upd st.inLevels (level + 1) (st.inLevels (level + 1) -
        ((st.inLevels (level + 1) - st.inLevels level) -
          (st.inLevels (level + 1) - st.inLevels level) % 2) / 2) := rfl

theorem gcCompactStep_currentNumLevels (k : Nat) (cmp : α → α → Bool)
    (flag : Bool) (level : Nat) (st : CompressState α) :
    (gcCompactStep k cmp flag level st).currentNumLevels =
      if level = st.currentNumLevels - 1 then st.currentNumLevels + 1
      else st.currentNumLevels := rfl

theorem gcCompactStep_currentItemCount (k : Nat) (cmp : α → α → Bool)
    (flag : Bool) (level : Nat) (st : CompressState α) :
    (gcCompactStep k cmp flag level st).currentItemCount =
      st.currentItemCount -
        ((st.inLevels (level + 1) - st.inLevels level) -
          (st.inLevels (level + 1) - st.inLevels level) % 2) / 2 := rfl

theorem gcCompactStep_targetItemCount (k : Nat) (cmp : α → α → Bool)
    (flag : Bool) (level : Nat) (st : CompressState α) :
    (gcCompactStep k cmp flag level st).targetItemCount =
      if level = st.currentNumLevels - 1 then
        st.targetItemCount + levelCapacity k (st.currentNumLevels + 1) 0
      else st.targetItemCount := rfl

theorem gcCompactStep_outLevels (k : Nat) (cmp : α → α → Bool)
    (flag : Bool) (level : Nat) (st : CompressState α) :
    (gcCompactStep k cmp flag level st).outLevels =
      upd st.outLevels (level + 1) (st.outLevels level +
        (st.inLevels (level + 1) - st.inLevels level) % 2) := by
  show (if (st.inLevels (level + 1) - st.inLevels level) % 2 = 1 then
      upd st.outLevels (level + 1) (st.outLevels level + 1)
    else upd st.outLevels (level + 1) (st.outLevels level)) = _
  by_cases h : (st.inLevels (level + 1) - st.inLevels level) % 2 = 1
  · rw [if_pos h, h]
  · rw [if_neg h]
    have h0 : st.outLevels level +
        (st.inLevels (level + 1) - st.inLevels level) % 2 =
          st.outLevels level := by omega
    rw [h0]

/-- The branch of one `generalCompress` loop iteration: move the level over
when the sketch is not over-full or the level is under capacity, else
compact it. -/
def gcBranch (k : Nat) (cmp : α → α → Bool) (isLevelZeroSorted : Bool)
    (level : Nat) (st : CompressState α) : CompressState α :=
  if st.currentItemCount < st.targetItemCount ∨
      st.inLevels (level + 1) - st.inLevels level <
        levelCapacity k st.currentNumLevels level then
    gcMoveStep level st
  else
    gcCompactStep k cmp isLevelZeroSorted level st

/-- One iteration of the `generalCompress` loop at `level`: when at the
current top level, first add an empty level above it for convenience, then
take either branch. -/
def gcStep (k : Nat) (cmp : α → α → Bool) (isLevelZeroSorted : Bool)
    (level : Nat) (st : CompressState α) : CompressState α :=
  gcBranch k cmp isLevelZeroSorted level
    (if level = st.currentNumLevels - 1 then
      { st with inLevels :=
          (upd st.inLevels (level + 2) (st.inLevels (level + 1))) }
    else st)

theorem gcStep_top (k : Nat) (cmp : α → α → Bool) (flag : Bool)
    (level : Nat) (st : CompressState α)
    (htop : level = st.currentNumLevels - 1) :
    gcStep k cmp flag level st = gcBranch k cmp flag level
      { st with inLevels :=
          (upd st.inLevels (level + 2) (st.inLevels (level + 1))) } := by
  rw [gcStep, if_pos htop]

theorem gcStep_notop (k : Nat) (cmp : α → α → Bool) (flag : Bool)
    (level : Nat) (st : CompressState α)
    (htop : ¬level = st.currentNumLevels - 1) :
    gcStep k cmp flag level st = gcBranch k cmp flag level st := by
  rw [gcStep, if_neg htop]

theorem gcBranch_move (k : Nat) (cmp : α → α → Bool) (flag : Bool)
    (level : Nat) (st : CompressState α)
    (hmove : st.currentItemCount < st.targetItemCount ∨
      st.inLevels (level + 1) - st.inLevels level <
        levelCapacity k st.currentNumLevels level) :
    gcBranch k cmp flag level st = gcMoveStep level st := by
  rw [gcBranch, if_pos hmove]

theorem gcBranch_compact (k : Nat) (cmp : α → α → Bool) (flag : Bool)
    (level : Nat) (st : CompressState α)
    (hmove : ¬(st.currentItemCount < st.targetItemCount ∨
      st.inLevels (level + 1) - st.inLevels level <
        levelCapacity k st.currentNumLevels level)) :
    gcBranch k cmp flag level st =
      gcCompactStep k cmp flag level st := by
  rw [gcBranch, if_neg hmove]

/-- Reading the convenience-updated `inLevels` at or below `level + 1`
gives the original values. -/
theorem topState_inLevels_low (st : CompressState α) (level j : Nat)
    (hj : j ≤ level + 1) :
    ({ st with inLevels :=
        (upd st.inLevels (level + 2) (st.inLevels (level + 1))) } :
      CompressState α).inLevels j = st.inLevels j :=
  upd_other _ _ (by omega)

/-- The loop of `generalCompress` decreases the lexicographic measure
(levels left to process, population of the current level). -/
theorem gcStep_measure (k : Nat) (cmp : α → α → Bool)
    (flag : Bool) (level : Nat) (st : CompressState α)
    (h : level < st.currentNumLevels) :
    (gcStep k cmp flag level st).currentNumLevels - (level + 1) <
        st.currentNumLevels - level ∨
      ((gcStep k cmp flag level st).currentNumLevels -
          (level + 1) = st.currentNumLevels - level ∧
        (gcStep k cmp flag level st).inLevels (level + 2) -
            (gcStep k cmp flag level st).inLevels (level + 1) <
          st.inLevels (level + 1) - st.inLevels level) := by
  by_cases htop : level = st.currentNumLevels - 1
  · rw [gcStep_top k cmp flag level st htop]
    set A : CompressState α := { st with inLevels :=
        (upd st.inLevels (level + 2) (st.inLevels (level + 1))) } with hA
    have hA2 : A.inLevels (level + 2) = st.inLevels (level + 1) :=
      upd_self _ _ _
    have hA1 : A.inLevels (level + 1) = st.inLevels (level + 1) :=
      upd_other _ _ (by omega)
    have hA0 : A.inLevels level = st.inLevels level :=
      upd_other _ _ (by omega)
    have hAc : A.currentNumLevels = st.currentNumLevels := rfl
    by_cases hmove : A.currentItemCount < A.targetItemCount ∨
        A.inLevels (level + 1) - A.inLevels level <
          levelCapacity k A.currentNumLevels level
    · rw [gcBranch_move k cmp flag level A hmove,
        gcMoveStep_currentNumLevels, hAc]
      left
      omega
    · rw [gcBranch_compact k cmp flag level A hmove]
      push_neg at hmove
      have hcap := levelCapacity_ge_8 k A.currentNumLevels level
      have hpop8 : 8 ≤ A.inLevels (level + 1) - A.inLevels level :=
        le_trans hcap hmove.2
      have hp8 : 8 ≤ st.inLevels (level + 1) - st.inLevels level := by
        rw [hA1, hA0] at hpop8
        exact hpop8
      rw [gcCompactStep_currentNumLevels, gcCompactStep_inLevels]
      have htopA : level = A.currentNumLevels - 1 := htop
      rw [if_pos htopA, hAc]
      right
      refine ⟨by omega, ?_⟩
      rw [upd_other A.inLevels _ (by omega : level + 2 ≠ level + 1),
        upd_self, hA2, hA1, hA0]
      omega
  · rw [gcStep_notop k cmp flag level st htop]
    by_cases hmove : st.currentItemCount < st.targetItemCount ∨
        st.inLevels (level + 1) - st.inLevels level <
          levelCapacity k st.currentNumLevels level
    · rw [gcBranch_move k cmp flag level st hmove,
        gcMoveStep_currentNumLevels]
      left
      omega
    · rw [gcBranch_compact k cmp flag level st hmove,
        gcCompactStep_currentNumLevels, if_neg htop]
      left
      omega


def gcLoop (k : Nat) (cmp : α → α → Bool) (isLevelZeroSorted : Bool)
    (level : Nat) (st : CompressState α) : CompressState α :=
  if h : level < st.currentNumLevels then
    gcLoop k cmp isLevelZeroSorted (level + 1)
      (gcStep k cmp isLevelZeroSorted level st)
  else st
termination_by (st.currentNumLevels - level,
  st.inLevels (level + 1) - st.inLevels level)
decreasing_by
  rcases gcStep_measure k cmp isLevelZeroSorted level st h with h1 | ⟨h1, h2⟩
  · exact Prod.Lex.left _ _ h1
  · rw [h1]
    exact Prod.Lex.right _ h2

/-! ### Bookkeeping quantities for the compress loop

`capBelow k l m` is the total capacity of levels `0..l-1` when the sketch
has `m` levels; `weightRange f lo hi` is the total weight
`sum of 2^i * (f (i+1) - f i)` over `i ∈ [lo, hi)` of the levels described
by the boundary function `f`. -/

def capBelow (k l m : Nat) : Nat :=
  ((List.range l).map fun i => levelCapacity k m i).sum

def weightRange (f : Nat → Nat) (lo hi : Nat) : Nat :=
  ((List.range (hi - lo)).map fun t =>
    2 ^ (lo + t) * (f (lo + t + 1) - f (lo + t))).sum

theorem capBelow_self (k m : Nat) :
    capBelow k m m = computeTotalCapacity k m := rfl

theorem capBelow_succ (k l m : Nat) :
    capBelow k (l + 1) m = capBelow k l m + levelCapacity k m l := by
  unfold capBelow
  rw [List.range_succ, List.map_append, List.sum_append]
  simp

/-- Pushing both the prefix length and the level count up by one adds the
capacity of the new bottom level (levels shift up by one height). -/
theorem capBelow_succ_shift (k l m : Nat) :
    capBelow k (l + 1) (m + 1) = levelCapacity k (m + 1) 0 + capBelow k l m := by
  unfold capBelow
  rw [List.range_succ_eq_map]
  simp only [List.map_cons, List.map_map, List.sum_cons]
  congr 1
  apply congrArg
  apply List.map_congr_left
  intro i _
  exact levelCapacity_shift k m i

theorem weightRange_empty (f : Nat → Nat) {lo hi : Nat} (h : hi ≤ lo) :
    weightRange f lo hi = 0 := by
  unfold weightRange
  have : hi - lo = 0 := by omega
  rw [this]
  simp

theorem weightRange_succ_right (f : Nat → Nat) {lo hi : Nat} (h : lo ≤ hi) :
    weightRange f lo (hi + 1) =
      weightRange f lo hi + 2 ^ hi * (f (hi + 1) - f hi) := by
  unfold weightRange
  have e : hi + 1 - lo = (hi - lo) + 1 := by omega
  rw [e, List.range_succ, List.map_append, List.sum_append]
  simp only [List.map_cons, List.map_nil, List.sum_cons, List.sum_nil]
  have e2 : lo + (hi - lo) = hi := by omega
  rw [e2]
  ring

theorem weightRange_succ_left (f : Nat → Nat) {lo hi : Nat} (h : lo < hi) :
    weightRange f lo hi =
      2 ^ lo * (f (lo + 1) - f lo) + weightRange f (lo + 1) hi := by
  unfold weightRange
  have e : hi - lo = (hi - (lo + 1)) + 1 := by omega
  rw [e, List.range_succ_eq_map]
  simp only [List.map_cons, List.map_map, List.sum_cons, Nat.add_zero]
  congr 1
  apply congrArg
  apply List.map_congr_left
  intro t _
  simp only [Function.comp_apply]
  have e1 : lo + (t + 1) = lo + 1 + t := by omega
  rw [e1]

theorem weightRange_congr {f g : Nat → Nat} (lo hi : Nat)
    (h : ∀ i, lo ≤ i → i ≤ hi → f i = g i) :
    weightRange f lo hi = weightRange g lo hi := by
  unfold weightRange
  apply congrArg
  apply List.map_congr_left
  intro t ht
  simp only [List.mem_range] at ht
  rw [h (lo + t) (by omega) (by omega), h (lo + t + 1) (by omega) (by omega)]

/-- Shifting all boundaries by a constant preserves the weight. -/
theorem weightRange_shift {f g : Nat → Nat} {lo hi : Nat} (c : Nat)
    (h : ∀ i, lo ≤ i → i ≤ hi → g i = f i + c) :
    weightRange g lo hi = weightRange f lo hi := by
  unfold weightRange
  apply congrArg
  apply List.map_congr_left
  intro t ht
  simp only [List.mem_range] at ht
  rw [h (lo + t) (by omega) (by omega), h (lo + t + 1) (by omega) (by omega)]
  congr 1
  omega

theorem weightRange_split (f : Nat → Nat) {lo mid hi : Nat} (h1 : lo ≤ mid)
    (h2 : mid ≤ hi) :
    weightRange f lo hi = weightRange f lo mid + weightRange f mid hi := by
  induction hi with
  | zero =>
      have e1 : mid = 0 := by omega
      subst e1
      have e2 : lo = 0 := by omega
      subst e2
      rw [weightRange_empty f (le_refl 0)]
  | succ m ih =>
      rcases Nat.eq_or_lt_of_le h2 with he | hlt
      · rw [he, weightRange_empty f (le_refl (m + 1))]
        omega
      · have hm : mid ≤ m := by omega
        rw [weightRange_succ_right f (by omega : lo ≤ m),
          weightRange_succ_right f hm, ih hm]
        omega

/-- A function non-decreasing on adjacent indices of a range is
non-decreasing on the range. -/
theorem monoChain (f : Nat → Nat) (lo hi : Nat)
    (h : ∀ i, lo ≤ i → i < hi → f i ≤ f (i + 1)) :
    ∀ i j, lo ≤ i → i ≤ j → j ≤ hi → f i ≤ f j := by
  intro i j hi hij hj
  induction j with
  | zero =>
      have : i = 0 := by omega
      subst this
      exact le_refl _
  | succ n ih =>
      rcases Nat.eq_or_lt_of_le hij with he | hlt
      · subst he
        exact le_refl _
      · exact le_trans (ih (by omega) (by omega)) (h n (by omega) (by omega))

/-- The weighted sum of per-level increments `d` over the levels in
`[lo, hi)`, each weighted by `2 ^ level`; `weightRange` is the special case
where `d` is the increment of a boundary function. -/
def wsum (d : Nat → Nat) (lo hi : Nat) : Nat :=
  ((List.range (hi - lo)).map fun t => 2 ^ (lo + t) * d (lo + t)).sum

theorem weightRange_eq_wsum (f : Nat → Nat) (lo hi : Nat) :
    weightRange f lo hi = wsum (fun l => f (l + 1) - f l) lo hi := rfl

theorem sum_map_add {γ : Type v} (L : List γ) (a b : γ → Nat) :
    (L.map fun t => a t + b t).sum = (L.map a).sum + (L.map b).sum := by
  induction L with
  | nil => rfl
  | cons x xs ih =>
      simp only [List.map_cons, List.sum_cons, ih]
      omega

theorem wsum_empty (d : Nat → Nat) {lo hi : Nat} (h : hi ≤ lo) :
    wsum d lo hi = 0 := by
  unfold wsum
  have : hi - lo = 0 := by omega
  rw [this]
  simp

theorem wsum_succ_right (d : Nat → Nat) {lo hi : Nat} (h : lo ≤ hi) :
    wsum d lo (hi + 1) = wsum d lo hi + 2 ^ hi * d hi := by
  unfold wsum
  have e : hi + 1 - lo = (hi - lo) + 1 := by omega
  rw [e, List.range_succ, List.map_append, List.sum_append]
  simp only [List.map_cons, List.map_nil, List.sum_cons, List.sum_nil]
  have e2 : lo + (hi - lo) = hi := by omega
  rw [e2]
  ring

theorem wsum_succ_left (d : Nat → Nat) {lo hi : Nat} (h : lo < hi) :
    wsum d lo hi = 2 ^ lo * d lo + wsum d (lo + 1) hi := by
  unfold wsum
  have e : hi - lo = (hi - (lo + 1)) + 1 := by omega
  rw [e, List.range_succ_eq_map]
  simp only [List.map_cons, List.map_map, List.sum_cons, Nat.add_zero]
  congr 1
  apply congrArg
  apply List.map_congr_left
  intro t _
  simp only [Function.comp_apply]
  have e1 : lo + (t + 1) = lo + 1 + t := by omega
  rw [e1]

theorem wsum_congr {d e : Nat → Nat} (lo hi : Nat)
    (h : ∀ l, lo ≤ l → l < hi → d l = e l) :
    wsum d lo hi = wsum e lo hi := by
  unfold wsum
  apply congrArg
  apply List.map_congr_left
  intro t ht
  simp only [List.mem_range] at ht
  rw [h (lo + t) (by omega) (by omega)]

theorem wsum_add (d e : Nat → Nat) (lo hi : Nat) :
    wsum (fun l => d l + e l) lo hi = wsum d lo hi + wsum e lo hi := by
  unfold wsum
  rw [← sum_map_add]
  apply congrArg
  apply List.map_congr_left
  intro t _
  ring

theorem wsum_zero {d : Nat → Nat} (lo hi : Nat)
    (h : ∀ l, lo ≤ l → l < hi → d l = 0) :
    wsum d lo hi = 0 := by
  rw [wsum_congr lo hi h]
  unfold wsum
  simp

theorem wsum_split (d : Nat → Nat) {lo mid hi : Nat} (h1 : lo ≤ mid)
    (h2 : mid ≤ hi) :
    wsum d lo hi = wsum d lo mid + wsum d mid hi := by
  induction hi with
  | zero =>
      have e1 : mid = 0 := by omega
      subst e1
      have e2 : lo = 0 := by omega
      subst e2
      rw [wsum_empty d (le_refl 0)]
  | succ m ih =>
      rcases Nat.eq_or_lt_of_le h2 with he | hlt
      · rw [he, wsum_empty d (le_refl (m + 1))]
        omega
      · have hm : mid ≤ m := by omega
        rw [wsum_succ_right d (by omega : lo ≤ m), wsum_succ_right d hm,
          ih hm]
        omega

/-- Dropping trailing all-zero increments does not change the sum. -/
theorem wsum_extend (d : Nat → Nat) {lo mid hi : Nat} (h1 : lo ≤ mid)
    (h2 : mid ≤ hi) (h : ∀ l, mid ≤ l → l < hi → d l = 0) :
    wsum d lo hi = wsum d lo mid := by
  rw [wsum_split d h1 h2, wsum_zero mid hi h]
  omega

/-- A weighted sum whose increments are themselves sums over a list
distributes into a list of weighted sums. -/
theorem wsum_list {γ : Type v} (os : List γ) (g : γ → Nat → Nat)
    (lo hi : Nat) :
    wsum (fun l => (os.map fun o => g o l).sum) lo hi =
      (os.map fun o => wsum (g o) lo hi).sum := by
  induction os with
  | nil =>
      rw [List.map_nil, List.sum_nil]
      exact wsum_zero lo hi fun l _ _ => rfl
  | cons x xs ih =>
      simp only [List.map_cons, List.sum_cons]
      rw [← ih, ← wsum_add]

/-- The loop invariant of `generalCompress`, holding at the start of the
iteration that processes `level`: boundaries of unprocessed levels and of
already-written output levels are monotone, output never moves data upward,
`currentItemCount` counts the written output plus the remaining input, and
either the sketch has reached its target or the written output is strictly
below the capacity of the levels written so far. -/
structure GCInv (k level : Nat) (st : CompressState α) : Prop where
  hlev : level ≤ st.currentNumLevels
  monoIn : ∀ i, level ≤ i → i < st.currentNumLevels →
    st.inLevels i ≤ st.inLevels (i + 1)
  monoOut : ∀ i, i < level → st.outLevels i ≤ st.outLevels (i + 1)
  outin : st.outLevels level ≤ st.inLevels level
  count : st.currentItemCount =
    (st.outLevels level - st.outLevels 0) +
      (st.inLevels st.currentNumLevels - st.inLevels level)
  space : st.currentItemCount < st.targetItemCount ∨
    (st.outLevels level - st.outLevels 0) + level ≤
      capBelow k level st.currentNumLevels
  tgt : st.targetItemCount = computeTotalCapacity k st.currentNumLevels

/-- What one loop iteration guarantees: the invariant moves to `level + 1`,
the level count never shrinks, output boundaries up to `level` are frozen,
and the total weight of output-so-far plus remaining input is preserved. -/
structure GCStepFacts (k level : Nat) (st st' : CompressState α) : Prop where
  inv : GCInv k (level + 1) st'
  cnl_le : st.currentNumLevels ≤ st'.currentNumLevels
  out_stable : ∀ j, j ≤ level → st'.outLevels j = st.outLevels j
  wpres : weightRange st'.outLevels 0 (level + 1) +
      weightRange st'.inLevels (level + 1) st'.currentNumLevels =
    weightRange st.outLevels 0 level +
      weightRange st.inLevels level st.currentNumLevels

theorem gcMoveStep_inv (k : Nat) (level : Nat) (st : CompressState α)
    (h : level < st.currentNumLevels) (inv : GCInv k level st)
    (hmove : st.currentItemCount < st.targetItemCount ∨
      st.inLevels (level + 1) - st.inLevels level <
        levelCapacity k st.currentNumLevels level) :
    GCStepFacts k level st (gcMoveStep level st) := by
  set st' := gcMoveStep level st with hst
  have einL : st'.inLevels = st.inLevels := rfl
  have ecnl : st'.currentNumLevels = st.currentNumLevels := rfl
  have ecur : st'.currentItemCount = st.currentItemCount := rfl
  have etgt : st'.targetItemCount = st.targetItemCount := rfl
  have eoutS : st'.outLevels (level + 1) =
      st.outLevels level + (st.inLevels (level + 1) - st.inLevels level) := by
    rw [hst, gcMoveStep_outLevels]
    exact upd_self _ _ _
  have eoutO : ∀ j, j ≠ level + 1 → st'.outLevels j = st.outLevels j := by
    intro j hj
    rw [hst, gcMoveStep_outLevels]
    exact upd_other _ _ hj
  have hmono01 : st.inLevels level ≤ st.inLevels (level + 1) :=
    inv.monoIn level (le_refl _) h
  have hchainIn : st.inLevels (level + 1) ≤
      st.inLevels st.currentNumLevels :=
    monoChain st.inLevels level st.currentNumLevels inv.monoIn
      (level + 1) st.currentNumLevels (by omega) (by omega) (le_refl _)
  have hchainOut : st.outLevels 0 ≤ st.outLevels level :=
    monoChain st.outLevels 0 level (fun i _ h2 => inv.monoOut i h2)
      0 level (by omega) (by omega) (le_refl _)
  refine ⟨⟨?_, ?_, ?_, ?_, ?_, ?_, ?_⟩, ?_, ?_, ?_⟩
  · rw [ecnl]
    omega
  · intro i h1 h2
    rw [einL]
    exact inv.monoIn i (by omega) (by rw [ecnl] at h2; exact h2)
  · intro i h1
    rcases Nat.lt_or_ge i level with h2 | h2
    · rw [eoutO i (by omega), eoutO (i + 1) (by omega)]
      exact inv.monoOut i h2
    · have : i = level := by omega
      subst this
      rw [eoutO i (by omega), eoutS]
      omega
  · rw [eoutS, einL]
    have := inv.outin
    omega
  · rw [ecur, ecnl, einL, eoutS, eoutO 0 (by omega)]
    have := inv.count
    omega
  · rw [ecur, etgt, ecnl, eoutS, eoutO 0 (by omega)]
    rcases hmove with hlt | hcap
    · left
      exact hlt
    · rcases inv.space with hlt | hS
      · left
        exact hlt
      · right
        rw [capBelow_succ]
        omega
  · rw [etgt, ecnl]
    exact inv.tgt
  · rw [ecnl]
  · intro j hj
    exact eoutO j (by omega)
  · rw [ecnl, einL]
    rw [weightRange_succ_right st'.outLevels (by omega : 0 ≤ level)]
    rw [weightRange_congr 0 level fun i _ hi => eoutO i (by omega)]
    rw [eoutS, eoutO level (by omega)]
    rw [weightRange_succ_left st.inLevels h]
    rw [Nat.add_sub_cancel_left]
    omega

theorem gcCompactStep_inv (k : Nat) (cmp : α → α → Bool) (flag : Bool)
    (level : Nat) (st : CompressState α)
    (h : level < st.currentNumLevels) (inv : GCInv k level st)
    (hfull : ¬(st.currentItemCount < st.targetItemCount ∨
      st.inLevels (level + 1) - st.inLevels level <
        levelCapacity k st.currentNumLevels level))
    (hAb : st.inLevels (level + 1) ≤ st.inLevels (level + 2))
    (hTopEq : level = st.currentNumLevels - 1 →
      st.inLevels (level + 2) = st.inLevels (level + 1)) :
    GCStepFacts k level st (gcCompactStep k cmp flag level st) := by
  push_neg at hfull
  obtain ⟨hcur, hcap⟩ := hfull
  have hcap8 := levelCapacity_ge_8 k st.currentNumLevels level
  set st' := gcCompactStep k cmp flag level st with hst
  have hmono01 : st.inLevels level ≤ st.inLevels (level + 1) :=
    inv.monoIn level (le_refl _) h
  have hchainIn : st.inLevels (level + 1) ≤
      st.inLevels st.currentNumLevels :=
    monoChain st.inLevels level st.currentNumLevels inv.monoIn
      (level + 1) st.currentNumLevels (by omega) (by omega) (le_refl _)
  have hchainOut : st.outLevels 0 ≤ st.outLevels level :=
    monoChain st.outLevels 0 level (fun i _ h2 => inv.monoOut i h2)
      0 level (by omega) (by omega) (le_refl _)
  have einS : st'.inLevels (level + 1) = st.inLevels (level + 1) -
      ((st.inLevels (level + 1) - st.inLevels level) -
        (st.inLevels (level + 1) - st.inLevels level) % 2) / 2 := by
    rw [hst, gcCompactStep_inLevels]
    exact upd_self _ _ _
  have einO : ∀ j, j ≠ level + 1 → st'.inLevels j = st.inLevels j := by
    intro j hj
    rw [hst, gcCompactStep_inLevels]
    exact upd_other _ _ hj
  have eoutS : st'.outLevels (level + 1) = st.outLevels level +
      (st.inLevels (level + 1) - st.inLevels level) % 2 := by
    rw [hst, gcCompactStep_outLevels]
    exact upd_self _ _ _
  have eoutO : ∀ j, j ≠ level + 1 → st'.outLevels j = st.outLevels j := by
    intro j hj
    rw [hst, gcCompactStep_outLevels]
    exact upd_other _ _ hj
  have ecur : st'.currentItemCount = st.currentItemCount -
      ((st.inLevels (level + 1) - st.inLevels level) -
        (st.inLevels (level + 1) - st.inLevels level) % 2) / 2 := by
    rw [hst, gcCompactStep_currentItemCount]
  have ecnl : st'.currentNumLevels =
      if level = st.currentNumLevels - 1 then st.currentNumLevels + 1
      else st.currentNumLevels := by
    rw [hst, gcCompactStep_currentNumLevels]
  have etgt : st'.targetItemCount =
      if level = st.currentNumLevels - 1 then
        st.targetItemCount + levelCapacity k (st.currentNumLevels + 1) 0
      else st.targetItemCount := by
    rw [hst, gcCompactStep_targetItemCount]
  by_cases htop : level = st.currentNumLevels - 1
  · -- compacted the old top level: the level count grows by one
    have hcnl1 : st.currentNumLevels = level + 1 := by omega
    have ecnl2 : st'.currentNumLevels = level + 2 := by
      rw [ecnl, if_pos htop]
      omega
    have etgt2 : st'.targetItemCount = st.targetItemCount +
        levelCapacity k (st.currentNumLevels + 1) 0 := by
      rw [etgt, if_pos htop]
    have hL2 : st.inLevels (level + 2) = st.inLevels (level + 1) := hTopEq htop
    refine ⟨⟨?_, ?_, ?_, ?_, ?_, ?_, ?_⟩, ?_, ?_, ?_⟩
    · rw [ecnl2]
      omega
    · intro i h1 h2
      rw [ecnl2] at h2
      have hi : i = level + 1 := by omega
      rw [hi, einS, einO (level + 1 + 1) (by omega)]
      have e12 : level + 1 + 1 = level + 2 := by omega
      rw [e12, hL2]
      omega
    · intro i h1
      rcases Nat.lt_or_ge i level with h2 | h2
      · rw [eoutO i (by omega), eoutO (i + 1) (by omega)]
        exact inv.monoOut i h2
      · have hi : i = level := by omega
        subst hi
        rw [eoutO i (by omega), eoutS]
        omega
    · rw [eoutS, einS]
      have := inv.outin
      omega
    · rw [ecur, ecnl2, eoutS, eoutO 0 (by omega), einS,
        einO (level + 2) (by omega), hL2]
      have hc := inv.count
      rw [hcnl1] at hc
      omega
    · right
      rw [ecnl2, eoutS, eoutO 0 (by omega)]
      have hS : (st.outLevels level - st.outLevels 0) + level ≤
          capBelow k level st.currentNumLevels := by
        rcases inv.space with h1 | h1
        · omega
        · exact h1
      rw [hcnl1] at hS
      have hcb : capBelow k (level + 1) (level + 1 + 1) =
          levelCapacity k (level + 1 + 1) 0 + capBelow k level (level + 1) :=
        capBelow_succ_shift k level (level + 1)
      have hc8 := levelCapacity_ge_8 k (level + 1 + 1) 0
      have e12 : level + 1 + 1 = level + 2 := by omega
      rw [e12] at hcb hc8
      omega
    · rw [etgt2, ecnl2, inv.tgt, hcnl1]
      have e := computeTotalCapacity_succ k (level + 1)
      have e12 : level + 1 + 1 = level + 2 := by omega
      rw [e12] at e ⊢
      omega
    · rw [ecnl2]
      omega
    · intro j hj
      exact eoutO j (by omega)
    · rw [ecnl2]
      rw [weightRange_succ_right st'.outLevels (by omega : 0 ≤ level)]
      rw [weightRange_congr 0 level fun i _ hi => eoutO i (by omega)]
      rw [eoutS, eoutO level (by omega)]
      rw [weightRange_succ_right st'.inLevels (le_refl (level + 1))]
      rw [weightRange_empty st'.inLevels (le_refl (level + 1))]
      rw [einS, einO (level + 2) (by omega), hL2]
      rw [hcnl1]
      rw [weightRange_succ_right st.inLevels (le_refl level)]
      rw [weightRange_empty st.inLevels (le_refl level)]
      rw [Nat.add_sub_cancel_left]
      have e3 : st.inLevels (level + 1) - (st.inLevels (level + 1) -
          ((st.inLevels (level + 1) - st.inLevels level) -
            (st.inLevels (level + 1) - st.inLevels level) % 2) / 2) =
          ((st.inLevels (level + 1) - st.inLevels level) -
            (st.inLevels (level + 1) - st.inLevels level) % 2) / 2 := by
        omega
      rw [e3]
      have e4 : st.inLevels (level + 1) - st.inLevels level =
          (st.inLevels (level + 1) - st.inLevels level) % 2 +
            2 * (((st.inLevels (level + 1) - st.inLevels level) -
              (st.inLevels (level + 1) - st.inLevels level) % 2) / 2) := by
        omega
      conv_rhs => rw [e4]
      have hps : (2 : Nat) ^ (level + 1) = 2 ^ level * 2 := pow_succ 2 level
      rw [hps]
      ring
  · -- not the top level: the level count is unchanged
    have hlt1 : level + 1 < st.currentNumLevels := by omega
    have ecnl2 : st'.currentNumLevels = st.currentNumLevels := by
      rw [ecnl, if_neg htop]
    have etgt2 : st'.targetItemCount = st.targetItemCount := by
      rw [etgt, if_neg htop]
    refine ⟨⟨?_, ?_, ?_, ?_, ?_, ?_, ?_⟩, ?_, ?_, ?_⟩
    · rw [ecnl2]
      omega
    · intro i h1 h2
      rw [ecnl2] at h2
      rcases Nat.eq_or_lt_of_le h1 with hi | hi
      · rw [← hi]
        rw [einS, einO (level + 1 + 1) (by omega)]
        have e12 : level + 1 + 1 = level + 2 := by omega
        rw [e12]
        omega
      · rw [einO i (by omega), einO (i + 1) (by omega)]
        exact inv.monoIn i (by omega) h2
    · intro i h1
      rcases Nat.lt_or_ge i level with h2 | h2
      · rw [eoutO i (by omega), eoutO (i + 1) (by omega)]
        exact inv.monoOut i h2
      · have hi : i = level := by omega
        subst hi
        rw [eoutO i (by omega), eoutS]
        omega
    · rw [eoutS, einS]
      have := inv.outin
      omega
    · rw [ecur, ecnl2, eoutS, eoutO 0 (by omega), einS,
        einO st.currentNumLevels (by omega)]
      have hc := inv.count
      omega
    · right
      rw [ecnl2, eoutS, eoutO 0 (by omega)]
      have hS : (st.outLevels level - st.outLevels 0) + level ≤
          capBelow k level st.currentNumLevels := by
        rcases inv.space with h1 | h1
        · omega
        · exact h1
      have hcb := capBelow_succ k level st.currentNumLevels
      omega
    · rw [etgt2, ecnl2]
      exact inv.tgt
    · rw [ecnl2]
    · intro j hj
      exact eoutO j (by omega)
    · rw [ecnl2]
      rw [weightRange_succ_right st'.outLevels (by omega : 0 ≤ level)]
      rw [weightRange_congr 0 level fun i _ hi => eoutO i (by omega)]
      rw [eoutS, eoutO level (by omega)]
      rw [weightRange_succ_left st'.inLevels hlt1]
      rw [weightRange_congr (level + 2) st.currentNumLevels
        fun i hi1 hi2 => einO i (by omega)]
      rw [einS, einO (level + 2) (by omega)]
      rw [weightRange_succ_left st.inLevels (by omega : level <
        st.currentNumLevels)]
      rw [weightRange_succ_left st.inLevels hlt1]
      rw [Nat.add_sub_cancel_left]
      have e5 : st.inLevels (level + 2) - (st.inLevels (level + 1) -
          ((st.inLevels (level + 1) - st.inLevels level) -
            (st.inLevels (level + 1) - st.inLevels level) % 2) / 2) =
          (st.inLevels (level + 2) - st.inLevels (level + 1)) +
            ((st.inLevels (level + 1) - st.inLevels level) -
              (st.inLevels (level + 1) - st.inLevels level) % 2) / 2 := by
        omega
      rw [e5]
      have e4 : st.inLevels (level + 1) - st.inLevels level =
          (st.inLevels (level + 1) - st.inLevels level) % 2 +
            2 * (((st.inLevels (level + 1) - st.inLevels level) -
              (st.inLevels (level + 1) - st.inLevels level) % 2) / 2) := by
        omega
      conv_rhs => rw [e4]
      have hps : (2 : Nat) ^ (level + 1) = 2 ^ level * 2 := pow_succ 2 level
      rw [hps]
      ring

theorem gcStep_inv (k : Nat) (cmp : α → α → Bool) (flag : Bool)
    (level : Nat) (st : CompressState α)
    (h : level < st.currentNumLevels) (inv : GCInv k level st) :
    GCStepFacts k level st (gcStep k cmp flag level st) := by
  by_cases htop : level = st.currentNumLevels - 1
  · rw [gcStep_top k cmp flag level st htop]
    have hcnl1 : st.currentNumLevels = level + 1 := by omega
    set A : CompressState α := { st with inLevels :=
        (upd st.inLevels (level + 2) (st.inLevels (level + 1))) } with hA
    have eA : A.currentNumLevels = st.currentNumLevels := rfl
    have hAeq : ∀ j, j ≤ level + 1 → A.inLevels j = st.inLevels j :=
      fun j hj => upd_other _ _ (by omega)
    have hA2 : A.inLevels (level + 2) = st.inLevels (level + 1) :=
      upd_self _ _ _
    have invA : GCInv k level A := by
      refine ⟨inv.hlev, ?_, inv.monoOut, ?_, ?_, inv.space, inv.tgt⟩
      · intro i h1 h2
        show A.inLevels i ≤ A.inLevels (i + 1)
        rw [hAeq i (by omega), hAeq (i + 1) (by omega)]
        exact inv.monoIn i h1 h2
      · show st.outLevels level ≤ A.inLevels level
        rw [hAeq level (by omega)]
        exact inv.outin
      · show st.currentItemCount =
          (st.outLevels level - st.outLevels 0) +
            (A.inLevels st.currentNumLevels - A.inLevels level)
        rw [hAeq st.currentNumLevels (by omega), hAeq level (by omega)]
        exact inv.count
    have hconv : ∀ st' : CompressState α, GCStepFacts k level A st' →
        GCStepFacts k level st st' := by
      intro st' F
      refine ⟨F.inv, F.cnl_le, F.out_stable, ?_⟩
      rw [F.wpres]
      have e1 : A.currentNumLevels = st.currentNumLevels := rfl
      have e2 : weightRange A.inLevels level A.currentNumLevels =
          weightRange st.inLevels level st.currentNumLevels := by
        rw [e1]
        exact weightRange_congr level st.currentNumLevels
          fun i h1 h2 => hAeq i (by omega)
      rw [e2]
    by_cases hmove : A.currentItemCount < A.targetItemCount ∨
        A.inLevels (level + 1) - A.inLevels level <
          levelCapacity k A.currentNumLevels level
    · rw [gcBranch_move k cmp flag level A hmove]
      exact hconv _ (gcMoveStep_inv k level A h invA hmove)
    · rw [gcBranch_compact k cmp flag level A hmove]
      refine hconv _ (gcCompactStep_inv k cmp flag level A h invA hmove ?_ ?_)
      · rw [hAeq (level + 1) (by omega), hA2]
      · intro _
        rw [hAeq (level + 1) (by omega), hA2]
  · rw [gcStep_notop k cmp flag level st htop]
    by_cases hmove : st.currentItemCount < st.targetItemCount ∨
        st.inLevels (level + 1) - st.inLevels level <
          levelCapacity k st.currentNumLevels level
    · rw [gcBranch_move k cmp flag level st hmove]
      exact gcMoveStep_inv k level st h inv hmove
    · rw [gcBranch_compact k cmp flag level st hmove]
      refine gcCompactStep_inv k cmp flag level st h inv hmove ?_ ?_
      · exact inv.monoIn (level + 1) (by omega) (by omega)
      · intro hh
        exact absurd hh htop

theorem gcLoop_inv (k : Nat) (cmp : α → α → Bool) (flag : Bool)
    (level : Nat) (st : CompressState α) (inv : GCInv k level st) :
    GCInv k (gcLoop k cmp flag level st).currentNumLevels
        (gcLoop k cmp flag level st) ∧
      st.currentNumLevels ≤ (gcLoop k cmp flag level st).currentNumLevels ∧
      (∀ j, j ≤ level →
        (gcLoop k cmp flag level st).outLevels j = st.outLevels j) ∧
      weightRange (gcLoop k cmp flag level st).outLevels 0
          (gcLoop k cmp flag level st).currentNumLevels =
        weightRange st.outLevels 0 level +
          weightRange st.inLevels level st.currentNumLevels := by
  revert inv
  induction level, st using gcLoop.induct k cmp flag with
  | case1 level st h ih =>
      intro inv
      have F := gcStep_inv k cmp flag level st h inv
      have ihh := ih F.inv
      rw [gcLoop, dif_pos h]
      refine ⟨ihh.1, le_trans F.cnl_le ihh.2.1, ?_, ?_⟩
      · intro j hj
        rw [ihh.2.2.1 j (by omega), F.out_stable j hj]
      · rw [ihh.2.2.2, F.wpres]
  | case2 level st h =>
      intro inv
      rw [gcLoop, dif_neg h]
      have hlev := inv.hlev
      have hEq : level = st.currentNumLevels := by omega
      refine ⟨?_, le_refl _, fun j hj => rfl, ?_⟩
      · rw [← hEq]
        exact inv
      · rw [← hEq, weightRange_empty st.inLevels (le_refl level)]
        omega

/-- The sortedness invariant of the `generalCompress` loop at the start of
the iteration processing `level`: every written output level and every
remaining input level is sorted, except possibly level 0, which is only
required to be sorted when the input flag says so. -/
structure GCSort (cmp : α → α → Bool) (flag : Bool) (level : Nat)
    (st : CompressState α) : Prop where
  out : ∀ l, l < level → (1 ≤ l ∨ flag = true) →
    SortedB cmp (seg st.items (st.outLevels l)
      (st.outLevels (l + 1) - st.outLevels l))
  inp : ∀ l, level ≤ l → l < st.currentNumLevels →
    (1 ≤ l ∨ flag = true) →
    SortedB cmp (seg st.items (st.inLevels l)
      (st.inLevels (l + 1) - st.inLevels l))

/-- Moving a level over keeps every level sorted. -/
theorem gcMoveStep_sorted (k : Nat) (cmp : α → α → Bool) (flag : Bool)
    (level : Nat) (st : CompressState α)
    (h : level < st.currentNumLevels) (inv : GCInv k level st)
    (hs : GCSort cmp flag level st) :
    GCSort cmp flag (level + 1) (gcMoveStep level st) := by
  have inChain := monoChain st.inLevels level st.currentNumLevels inv.monoIn
  have outChain := monoChain st.outLevels 0 level
    (fun i h1 h2 => inv.monoOut i h2)
  have houtin := inv.outin
  set B := st.inLevels level with hB
  set P := st.inLevels (level + 1) - st.inLevels level with hP
  have hBP : B + P = st.inLevels (level + 1) := by
    have := inv.monoIn level (le_refl level) h
    omega
  have eitems : (gcMoveStep level st).items =
      writeSeg st.items (st.outLevels level) (seg st.items B P) := by
    show moveFwd st.items B (st.outLevels level) P = _
    exact moveFwd_spec st.items B (st.outLevels level) P houtin
  have eout : (gcMoveStep level st).outLevels =
      upd st.outLevels (level + 1) (st.outLevels level + P) :=
    gcMoveStep_outLevels level st
  have ein : (gcMoveStep level st).inLevels = st.inLevels :=
    gcMoveStep_inLevels level st
  have ecnl : (gcMoveStep level st).currentNumLevels =
      st.currentNumLevels := gcMoveStep_currentNumLevels level st
  have hseglen : (seg st.items B P).length = P := seg_length _ _ _
  refine ⟨?_, ?_⟩
  · intro l hl hcond
    rcases Nat.lt_or_ge l level with hll | hll
    · rw [eitems, eout, upd_other _ _ (by omega : l ≠ level + 1),
        upd_other _ _ (by omega : l + 1 ≠ level + 1)]
      have hle : st.outLevels (l + 1) ≤ st.outLevels level :=
        outChain (l + 1) level (by omega) (by omega) (le_refl _)
      rw [seg_congr fun j hj1 hj2 => writeSeg_out st.items
        (st.outLevels level) (seg st.items B P) (Or.inl (by omega))]
      exact hs.out l hll hcond
    · have hleq : l = level := by omega
      subst hleq
      rw [eitems, eout, upd_other _ _ (by omega : l ≠ l + 1),
        upd_self]
      have epop : st.outLevels l + P - st.outLevels l = P := by omega
      have hsw := seg_writeSeg st.items (st.outLevels l) (seg st.items B P)
      rw [hseglen] at hsw
      rw [epop, hsw]
      exact hs.inp l (le_refl l) h hcond
  · intro l hl hcnl hcond
    rw [ecnl] at hcnl
    rw [eitems, ein]
    have hlo : st.inLevels (level + 1) ≤ st.inLevels l :=
      inChain (level + 1) l (by omega) (by omega) (by omega)
    rw [seg_congr fun j hj1 hj2 => writeSeg_out st.items
      (st.outLevels level) (seg st.items B P)
      (Or.inr (by rw [hseglen]; omega))]
    exact hs.inp l (by omega) hcnl hcond

/-- Compacting a level keeps every level sorted: the out-moved orphan
level holds at most one item, the surviving half of a sorted (or freshly
sorted) level is sorted, and merging it into the sorted level above keeps
it sorted. -/
theorem gcCompactStep_sorted (k : Nat) (cmp : α → α → Bool) (flag : Bool)
    (level : Nat) (st : CompressState α)
    (hasym : CmpAsym cmp) (hneg : CmpNegTrans cmp)
    (h : level < st.currentNumLevels) (inv : GCInv k level st)
    (hs : GCSort cmp flag level st)
    (hLU : st.inLevels (level + 1) ≤ st.inLevels (level + 2))
    (hup : st.inLevels (level + 2) - st.inLevels (level + 1) = 0 ∨
      level + 1 < st.currentNumLevels)
    (hpop8 : 8 ≤ st.inLevels (level + 1) - st.inLevels level) :
    GCSort cmp flag (level + 1) (gcCompactStep k cmp flag level st) := by
  have outChain := monoChain st.outLevels 0 level
    (fun i h1 h2 => inv.monoOut i h2)
  have houtin := inv.outin
  have hBL : st.inLevels level ≤ st.inLevels (level + 1) :=
    inv.monoIn level (le_refl level) h
  set B := st.inLevels level with hB
  set L := st.inLevels (level + 1) with hL
  set U := st.inLevels (level + 2) with hU
  set OL := st.outLevels level with hOL
  set O := (L - B) % 2 with hO
  set A2 := B + O with hA2
  set AP := (L - B) - O with hAP
  set H := AP / 2 with hH
  set PA := U - L with hPA
  set off := st.randomBit.next.1 with hoff
  have hoff1 : off ≤ 1 := RandomBit.next_le_one st.randomBit
  have hAPH : AP = 2 * H := by omega
  have hA2L : A2 + AP = L := by omega
  have hH3 : 3 ≤ H := by omega
  set items2 := (if O = 1 then upd st.items OL (st.items B)
    else st.items) with hi2
  set items3 := (if level = 0 ∧ flag = false then
      writeSeg items2 A2 ((seg items2 A2 AP).mergeSort fun x y => ! cmp y x)
    else items2) with hi3
  have eitems0 : (gcCompactStep k cmp flag level st).items =
      (if PA = 0 then randomlyHalveUp items3 A2 AP st.randomBit
       else (mergeOverlap (randomlyHalveDown items3 A2 AP st.randomBit).1
         A2 H L PA (A2 + H) cmp,
         (randomlyHalveDown items3 A2 AP st.randomBit).2)).1 := rfl
  have ein : (gcCompactStep k cmp flag level st).inLevels =
      upd st.inLevels (level + 1) (L - H) := rfl
  have eout : (gcCompactStep k cmp flag level st).outLevels =
      (if O = 1 then upd st.outLevels (level + 1) (OL + 1)
       else upd st.outLevels (level + 1) OL) := rfl
  have ecnl : (gcCompactStep k cmp flag level st).currentNumLevels =
      (if level = st.currentNumLevels - 1 then st.currentNumLevels + 1
       else st.currentNumLevels) := rfl
  -- items2 only rewrites position `OL`, which is at most `B`.
  have hit2hi : ∀ j, B < j → items2 j = st.items j := by
    intro j hj
    rw [hi2]
    by_cases hO1 : O = 1
    · rw [if_pos hO1]
      exact upd_other _ _ (by omega)
    · rw [if_neg hO1]
  have hit2lo : ∀ j, j < OL → items2 j = st.items j := by
    intro j hj
    rw [hi2]
    by_cases hO1 : O = 1
    · rw [if_pos hO1]
      exact upd_other _ _ (by omega)
    · rw [if_neg hO1]
  have hit2A : ∀ j, A2 ≤ j → items2 j = st.items j := by
    intro j hj
    rw [hi2]
    by_cases hO1 : O = 1
    · rw [if_pos hO1]
      exact upd_other _ _ (by omega)
    · rw [if_neg hO1]
  have hseg2 : seg items2 A2 AP = seg st.items A2 AP :=
    seg_congr fun j hj1 hj2 => hit2A j (by omega)
  -- The compacted range is sorted after the optional sort.
  have S3 : SortedB cmp (seg items3 A2 AP) := by
    rw [hi3]
    by_cases hsb : level = 0 ∧ flag = false
    · rw [if_pos hsb]
      have hMlen : ((seg items2 A2 AP).mergeSort
          fun x y => ! cmp y x).length = AP := by
        rw [List.length_mergeSort, seg_length]
      have hsw := seg_writeSeg items2 A2
        ((seg items2 A2 AP).mergeSort fun x y => ! cmp y x)
      rw [hMlen] at hsw
      rw [hsw]
      exact sortedB_mergeSort cmp hasym hneg _
    · rw [if_neg hsb]
      have hcond2 : 1 ≤ level ∨ flag = true := by
        by_cases hl0 : level = 0
        · right
          rcases hfv : flag with h1 | h1
          · exact absurd ⟨hl0, hfv⟩ hsb
          · rfl
        · left
          omega
      rw [hseg2]
      exact sortedB_seg_suffix cmp st.items B (L - B) A2 AP (by omega)
        (by omega) (hs.inp level (le_refl level) h hcond2)
  -- items3 agrees with the original buffer outside `[A2, L)`.
  have hit3lo : ∀ j, j < OL → items3 j = st.items j := by
    intro j hj
    rw [hi3]
    by_cases hsb : level = 0 ∧ flag = false
    · rw [if_pos hsb, writeSeg_out _ _ _ (Or.inl (by omega))]
      exact hit2lo j hj
    · rw [if_neg hsb]
      exact hit2lo j hj
  have hit3hi : ∀ j, L ≤ j → items3 j = st.items j := by
    intro j hj
    rw [hi3]
    by_cases hsb : level = 0 ∧ flag = false
    · have hMlen : ((seg items2 A2 AP).mergeSort
          fun x y => ! cmp y x).length = AP := by
        rw [List.length_mergeSort, seg_length]
      rw [if_pos hsb, writeSeg_out _ _ _ (Or.inr (by rw [hMlen]; omega))]
      exact hit2hi j (by omega)
    · rw [if_neg hsb]
      exact hit2hi j (by omega)
  -- Characterise the written buffer and the new level above, per branch.
  have hmain : (∀ j, j < OL →
        (gcCompactStep k cmp flag level st).items j = st.items j) ∧
      (∀ j, U ≤ j →
        (gcCompactStep k cmp flag level st).items j = st.items j) ∧
      SortedB cmp (seg (gcCompactStep k cmp flag level st).items
        (L - H) (U - (L - H))) := by
    by_cases hPA0 : PA = 0
    · -- Halve up into the empty level above.
      have hUL : U = L := by omega
      have ehu : (gcCompactStep k cmp flag level st).items =
          writeSeg items3 (A2 + H) ((List.range (H - 1 + 1)).map
            fun t => items3 (A2 + 1 - off + 2 * t)) := by
        rw [eitems0, if_pos hPA0]
        show halveUpGo items3 (A2 + AP - 1) (A2 + AP - 1 - off)
          (AP - AP / 2) = _
        have e1 : A2 + AP - 1 = (A2 + H) + (H - 1) := by omega
        have e2 : A2 + AP - 1 - off = (A2 + 1 - off) + 2 * (H - 1) := by
          omega
        have e3 : AP - AP / 2 = (H - 1) + 1 := by omega
        rw [e2, e1, e3,
          halveUpGo_spec (H - 1) items3 (A2 + H) (A2 + 1 - off) (by omega)]
      have hWlen : ((List.range (H - 1 + 1)).map
          fun t => items3 (A2 + 1 - off + 2 * t)).length = H := by
        simp only [List.length_map, List.length_range]
        omega
      refine ⟨?_, ?_, ?_⟩
      · intro j hj
        rw [ehu, writeSeg_out _ _ _ (Or.inl (by omega))]
        exact hit3lo j hj
      · intro j hj
        rw [ehu, writeSeg_out _ _ _ (Or.inr (by rw [hWlen]; omega))]
        exact hit3hi j (by omega)
      · have e4 : L - H = A2 + H := by omega
        have e5 : U - (L - H) = H := by omega
        rw [e5, e4, ehu]
        have hsw := seg_writeSeg items3 (A2 + H)
          ((List.range (H - 1 + 1)).map fun t => items3 (A2 + 1 - off + 2 * t))
        rw [hWlen] at hsw
        rw [hsw]
        have e6 : H - 1 + 1 = H := by omega
        rw [e6]
        exact sortedB_stride cmp items3 A2 AP (A2 + 1 - off) H (by omega)
          (fun t ht => by omega) S3
    · -- Halve down, then merge into the level above.
      have hup2 : level + 1 < st.currentNumLevels := by
        rcases hup with h0 | h0
        · exact absurd h0 hPA0
        · exact h0
      have ehd : (randomlyHalveDown items3 A2 AP st.randomBit).1 =
          writeSeg items3 A2 ((List.range H).map
            fun t => items3 (A2 + off + 2 * t)) := by
        show halveDownGo (A2 + AP / 2) items3 A2 (A2 + off) = _
        rw [halveDownGo_spec (A2 + AP / 2) items3 A2 (A2 + off) (by omega)]
        have e1 : A2 + AP / 2 - A2 = H := by omega
        rw [e1]
      have hWlen : ((List.range H).map
          fun t => items3 (A2 + off + 2 * t)).length = H := by
        simp
      have hW'sorted : SortedB cmp ((List.range H).map
          fun t => items3 (A2 + off + 2 * t)) :=
        sortedB_stride cmp items3 A2 AP (A2 + off) H (by omega)
          (fun t ht => by omega) S3
      have emo : (gcCompactStep k cmp flag level st).items =
          writeSeg (randomlyHalveDown items3 A2 AP st.randomBit).1 (A2 + H)
            ((seg (randomlyHalveDown items3 A2 AP st.randomBit).1 A2
              H).merge
              (seg (randomlyHalveDown items3 A2 AP st.randomBit).1 L PA)
              cmp) := by
        rw [eitems0, if_neg hPA0]
        exact mergeOverlap_spec _ A2 H L PA (A2 + H) cmp (le_refl _)
          (by omega)
      have hsegA : seg (randomlyHalveDown items3 A2 AP st.randomBit).1 A2
          H = (List.range H).map fun t => items3 (A2 + off + 2 * t) := by
        rw [ehd]
        have hsw := seg_writeSeg items3 A2
          ((List.range H).map fun t => items3 (A2 + off + 2 * t))
        rw [hWlen] at hsw
        exact hsw
      have hsegB : seg (randomlyHalveDown items3 A2 AP st.randomBit).1 L
          PA = seg st.items L PA := by
        apply seg_congr
        intro j hj1 hj2
        rw [ehd, writeSeg_out _ _ _ (Or.inr (by rw [hWlen]; omega))]
        exact hit3hi j (by omega)
      have hsegB_sorted : SortedB cmp (seg st.items L PA) :=
        hs.inp (level + 1) (by omega) hup2 (Or.inl (by omega))
      have hMlen : ((seg (randomlyHalveDown items3 A2 AP st.randomBit).1
          A2 H).merge
          (seg (randomlyHalveDown items3 A2 AP st.randomBit).1 L PA)
          cmp).length = H + PA := by
        rw [List.length_merge, seg_length, seg_length]
      refine ⟨?_, ?_, ?_⟩
      · intro j hj
        rw [emo, writeSeg_out _ _ _ (Or.inl (by omega)), ehd,
          writeSeg_out _ _ _ (Or.inl (by omega))]
        exact hit3lo j hj
      · intro j hj
        rw [emo, writeSeg_out _ _ _ (Or.inr (by rw [hMlen]; omega)), ehd,
          writeSeg_out _ _ _ (Or.inr (by rw [hWlen]; omega))]
        exact hit3hi j (by omega)
      · have e4 : L - H = A2 + H := by omega
        have e5 : U - (L - H) = H + PA := by omega
        rw [e5, e4, emo]
        have hsw := seg_writeSeg
          (randomlyHalveDown items3 A2 AP st.randomBit).1 (A2 + H)
          ((seg (randomlyHalveDown items3 A2 AP st.randomBit).1 A2 H).merge
            (seg (randomlyHalveDown items3 A2 AP st.randomBit).1 L PA) cmp)
        rw [hMlen] at hsw
        rw [hsw]
        apply sortedB_merge hasym hneg
        · rw [hsegA]
          exact hW'sorted
        · rw [hsegB]
          exact hsegB_sorted
  obtain ⟨hlow, hhigh, hnew⟩ := hmain
  refine ⟨?_, ?_⟩
  · intro l hl hcond
    rcases Nat.lt_or_ge l level with hll | hll
    · have eo1 : (gcCompactStep k cmp flag level st).outLevels l =
          st.outLevels l := by
        rw [eout]
        by_cases hO1 : O = 1
        · rw [if_pos hO1]
          exact upd_other _ _ (by omega)
        · rw [if_neg hO1]
          exact upd_other _ _ (by omega)
      have eo2 : (gcCompactStep k cmp flag level st).outLevels (l + 1) =
          st.outLevels (l + 1) := by
        rw [eout]
        by_cases hO1 : O = 1
        · rw [if_pos hO1]
          exact upd_other _ _ (by omega)
        · rw [if_neg hO1]
          exact upd_other _ _ (by omega)
      rw [eo1, eo2]
      have hle : st.outLevels (l + 1) ≤ OL :=
        outChain (l + 1) level (by omega) (by omega) (le_refl _)
      rw [seg_congr fun j hj1 hj2 => hlow j (by omega)]
      exact hs.out l hll hcond
    · have hleq : l = level := by omega
      rw [hleq]
      have eo1 : (gcCompactStep k cmp flag level st).outLevels level =
          OL := by
        rw [eout]
        by_cases hO1 : O = 1
        · rw [if_pos hO1]
          exact upd_other _ _ (by omega)
        · rw [if_neg hO1]
          exact upd_other _ _ (by omega)
      rw [eo1]
      by_cases hO1 : O = 1
      · have eo2 : (gcCompactStep k cmp flag level st).outLevels
            (level + 1) = OL + 1 := by
          rw [eout, if_pos hO1]
          exact upd_self _ _ _
        rw [eo2, (by omega : OL + 1 - OL = 1)]
        exact sortedB_seg_one cmp _ OL
      · have eo2 : (gcCompactStep k cmp flag level st).outLevels
            (level + 1) = OL := by
          rw [eout, if_neg hO1]
          exact upd_self _ _ _
        rw [eo2, (by omega : OL - OL = 0)]
        exact sortedB_seg_zero cmp _ OL
  · intro l hl hcnl hcond
    rcases Nat.eq_or_lt_of_le hl with hleq | hlgt
    · rw [← hleq]
      have ei1 : (gcCompactStep k cmp flag level st).inLevels (level + 1) =
          L - H := by
        rw [ein]
        exact upd_self _ _ _
      have ei2 : (gcCompactStep k cmp flag level st).inLevels (level + 2) =
          U := by
        rw [ein]
        exact upd_other _ _ (by omega)
      rw [ei1, ei2]
      exact hnew
    · have hnotop : ¬ level = st.currentNumLevels - 1 := by
        rw [ecnl] at hcnl
        by_cases htop : level = st.currentNumLevels - 1
        · rw [if_pos htop] at hcnl
          omega
        · exact htop
      have hcnl2 : l < st.currentNumLevels := by
        rw [ecnl, if_neg hnotop] at hcnl
        exact hcnl
      have ei1 : (gcCompactStep k cmp flag level st).inLevels l =
          st.inLevels l := by
        rw [ein]
        exact upd_other _ _ (by omega)
      have ei2 : (gcCompactStep k cmp flag level st).inLevels (l + 1) =
          st.inLevels (l + 1) := by
        rw [ein]
        exact upd_other _ _ (by omega)
      rw [ei1, ei2]
      have hUl : U ≤ st.inLevels l :=
        monoChain st.inLevels level st.currentNumLevels inv.monoIn
          (level + 2) l (by omega) (by omega) (by omega)
      rw [seg_congr fun j hj1 hj2 => hhigh j (by omega)]
      exact hs.inp l (by omega) hcnl2 hcond

/-- One loop iteration of `generalCompress` keeps every level sorted. -/
theorem gcStep_sorted (k : Nat) (cmp : α → α → Bool) (flag : Bool)
    (level : Nat) (st : CompressState α)
    (hasym : CmpAsym cmp) (hneg : CmpNegTrans cmp)
    (h : level < st.currentNumLevels) (inv : GCInv k level st)
    (hs : GCSort cmp flag level st) :
    GCSort cmp flag (level + 1) (gcStep k cmp flag level st) := by
  by_cases htop : level = st.currentNumLevels - 1
  · rw [gcStep_top k cmp flag level st htop]
    have hcnl1 : st.currentNumLevels = level + 1 := by omega
    set A : CompressState α := { st with inLevels :=
        (upd st.inLevels (level + 2) (st.inLevels (level + 1))) } with hA
    have eA : A.currentNumLevels = st.currentNumLevels := rfl
    have hAeq0 : A.inLevels level = st.inLevels level :=
      upd_other _ _ (by omega)
    have hAeq1 : A.inLevels (level + 1) = st.inLevels (level + 1) :=
      upd_other _ _ (by omega)
    have hA2 : A.inLevels (level + 2) = st.inLevels (level + 1) :=
      upd_self _ _ _
    have hAlt : level < A.currentNumLevels := by
      rw [eA]
      exact h
    have invA : GCInv k level A := by
      refine ⟨?_, ?_, ?_, ?_, ?_, ?_, ?_⟩
      · rw [eA]
        exact inv.hlev
      · intro i h1 h2
        rw [eA] at h2
        have hi : i = level := by omega
        rw [hi, hAeq0, hAeq1]
        exact inv.monoIn level (le_refl level) h
      · exact inv.monoOut
      · show A.outLevels level ≤ A.inLevels level
        rw [hAeq0]
        exact inv.outin
      · show A.currentItemCount =
          (A.outLevels level - A.outLevels 0) +
            (A.inLevels A.currentNumLevels - A.inLevels level)
        rw [eA, hcnl1, hAeq1, hAeq0]
        have := inv.count
        rw [hcnl1] at this
        exact this
      · rcases inv.space with hsp | hsp
        · exact Or.inl hsp
        · right
          rw [eA]
          exact hsp
      · show A.targetItemCount =
          computeTotalCapacity k A.currentNumLevels
        rw [eA]
        exact inv.tgt
    have hsA : GCSort cmp flag level A := by
      refine ⟨hs.out, ?_⟩
      intro l hl hcnl hcond
      rw [eA] at hcnl
      have hleq : l = level := by omega
      rw [hleq] at hcond ⊢
      show SortedB cmp (seg st.items (A.inLevels level)
        (A.inLevels (level + 1) - A.inLevels level))
      rw [hAeq0, hAeq1]
      exact hs.inp level (le_refl level) h hcond
    by_cases hmove : A.currentItemCount < A.targetItemCount ∨
        A.inLevels (level + 1) - A.inLevels level <
          levelCapacity k A.currentNumLevels level
    · rw [gcBranch_move k cmp flag level A hmove]
      exact gcMoveStep_sorted k cmp flag level A hAlt invA hsA
    · rw [gcBranch_compact k cmp flag level A hmove]
      push_neg at hmove
      have hcap8 : 8 ≤ levelCapacity k A.currentNumLevels level :=
        levelCapacity_ge_8 _ _ _
      refine gcCompactStep_sorted k cmp flag level A hasym hneg hAlt invA
        hsA ?_ (Or.inl ?_) (by omega)
      · rw [hAeq1, hA2]
      · rw [hAeq1, hA2]
        omega
  · rw [gcStep_notop k cmp flag level st htop]
    by_cases hmove : st.currentItemCount < st.targetItemCount ∨
        st.inLevels (level + 1) - st.inLevels level <
          levelCapacity k st.currentNumLevels level
    · rw [gcBranch_move k cmp flag level st hmove]
      exact gcMoveStep_sorted k cmp flag level st h inv hs
    · rw [gcBranch_compact k cmp flag level st hmove]
      push_neg at hmove
      have hcap8 : 8 ≤ levelCapacity k st.currentNumLevels level :=
        levelCapacity_ge_8 _ _ _
      exact gcCompactStep_sorted k cmp flag level st hasym hneg h inv hs
        (inv.monoIn (level + 1) (by omega) (by omega))
        (Or.inr (by omega)) (by omega)

/-- The whole `generalCompress` loop keeps every level sorted. -/
theorem gcLoop_sorted (k : Nat) (cmp : α → α → Bool) (flag : Bool)
    (hasym : CmpAsym cmp) (hneg : CmpNegTrans cmp) (level : Nat)
    (st : CompressState α) (inv : GCInv k level st)
    (hs : GCSort cmp flag level st) :
    GCSort cmp flag (gcLoop k cmp flag level st).currentNumLevels
      (gcLoop k cmp flag level st) := by
  revert inv hs
  induction level, st using gcLoop.induct k cmp flag with
  | case1 level st h ih =>
      intro inv hs
      have F := gcStep_inv k cmp flag level st h inv
      have hs' := gcStep_sorted k cmp flag level st hasym hneg h inv hs
      rw [gcLoop, dif_pos h]
      exact ih F.inv hs'
  | case2 level st h =>
      intro inv hs
      rw [gcLoop, dif_neg h]
      have hle : level = st.currentNumLevels := by
        have := inv.hlev
        omega
      exact ⟨fun l hl hc => hs.out l (by omega) hc,
        fun l hl hcnl hc => hs.inp l (by omega) hcnl hc⟩

structure CompressResult where
  finalNumLevels : Nat
  finalCapacity : Nat
  finalNumItems : Nat
deriving DecidableEq

/-- The result triple of `generalCompress` together with the final state of
the three buffers it mutates through pointers, and the advanced random bit
source. -/
structure CompressOutput (α : Type u) where
  result : CompressResult
  items : Nat → α
  inLevels : Nat → Nat
  outLevels : Nat → Nat
  randomBit : RandomBit

/-- `detail::generalCompress`. -/
def generalCompress (k : Nat) (cmp : α → α → Bool) (numLevelsIn : Nat)
    (items : Nat → α) (inLevels outLevels : Nat → Nat)
    (isLevelZeroSorted : Bool) (rb : RandomBit) : CompressOutput α :=
  let st0 : CompressState α :=
    ⟨items, inLevels, upd outLevels 0 0, numLevelsIn,
      inLevels numLevelsIn - inLevels 0, computeTotalCapacity k numLevelsIn,
      rb⟩
  let st := gcLoop k cmp isLevelZeroSorted 0 st0
  ⟨⟨st.currentNumLevels, st.targetItemCount, st.currentItemCount⟩,
    st.items, st.inLevels, st.outLevels, st.randomBit⟩

/-- Count-level guarantees of `generalCompress` for a monotone input
configuration: the output boundaries start at 0 and are monotone, their span
equals `finalNumItems`, the data fits the final capacity, the level count
never shrinks, the final capacity is the total capacity of the final level
count, and the total weight of the levels is preserved. -/
theorem generalCompress_facts (k : Nat) (cmp : α → α → Bool)
    (numLevelsIn : Nat) (items : Nat → α) (inL outL : Nat → Nat)
    (flag : Bool) (rb : RandomBit)
    (hmono : ∀ i, i < numLevelsIn → inL i ≤ inL (i + 1)) :
    (generalCompress k cmp numLevelsIn items inL outL flag rb).outLevels 0 =
        0 ∧
      (∀ i, i < (generalCompress k cmp numLevelsIn items inL outL flag
            rb).result.finalNumLevels →
        (generalCompress k cmp numLevelsIn items inL outL flag
            rb).outLevels i ≤
          (generalCompress k cmp numLevelsIn items inL outL flag
            rb).outLevels (i + 1)) ∧
      (generalCompress k cmp numLevelsIn items inL outL flag rb).outLevels
          (generalCompress k cmp numLevelsIn items inL outL flag
            rb).result.finalNumLevels -
          (generalCompress k cmp numLevelsIn items inL outL flag
            rb).outLevels 0 =
        (generalCompress k cmp numLevelsIn items inL outL flag
          rb).result.finalNumItems ∧
      (generalCompress k cmp numLevelsIn items inL outL flag
          rb).result.finalNumItems ≤
        (generalCompress k cmp numLevelsIn items inL outL flag
          rb).result.finalCapacity ∧
      numLevelsIn ≤ (generalCompress k cmp numLevelsIn items inL outL flag
          rb).result.finalNumLevels ∧
      (generalCompress k cmp numLevelsIn items inL outL flag
          rb).result.finalCapacity =
        computeTotalCapacity k (generalCompress k cmp numLevelsIn items inL
          outL flag rb).result.finalNumLevels ∧
      weightRange (generalCompress k cmp numLevelsIn items inL outL flag
            rb).outLevels 0
          (generalCompress k cmp numLevelsIn items inL outL flag
            rb).result.finalNumLevels =
        weightRange inL 0 numLevelsIn := by
  set st0 : CompressState α :=
    ⟨items, inL, upd outL 0 0, numLevelsIn,
      inL numLevelsIn - inL 0, computeTotalCapacity k numLevelsIn, rb⟩
    with hst0
  have inv0 : GCInv k 0 st0 := by
    refine ⟨Nat.zero_le _, ?_, ?_, ?_, ?_, Or.inr ?_, rfl⟩
    · intro i h1 h2
      exact hmono i h2
    · intro i h1
      omega
    · show upd outL 0 0 0 ≤ inL 0
      rw [upd_self]
      omega
    · show inL numLevelsIn - inL 0 =
        (upd outL 0 0 0 - upd outL 0 0 0) + (inL numLevelsIn - inL 0)
      omega
    · show (upd outL 0 0 0 - upd outL 0 0 0) + 0 ≤ capBelow k 0 numLevelsIn
      simp [capBelow]
  have E := gcLoop_inv k cmp flag 0 st0 inv0
  set stF := gcLoop k cmp flag 0 st0 with hstF
  obtain ⟨einv, ecnl, eout, ew⟩ := E
  have eout0 : stF.outLevels 0 = 0 := by
    rw [eout 0 (le_refl 0), hst0]
    show upd outL 0 0 0 = 0
    exact upd_self _ _ _
  have hcount := einv.count
  have hspace := einv.space
  have htgtF := einv.tgt
  have hcb := capBelow_self k stF.currentNumLevels
  refine ⟨eout0, ?_, ?_, ?_, ?_, ?_, ?_⟩
  · intro i hi
    exact einv.monoOut i hi
  · show stF.outLevels stF.currentNumLevels - stF.outLevels 0 =
      stF.currentItemCount
    omega
  · show stF.currentItemCount ≤ stF.targetItemCount
    omega
  · show numLevelsIn ≤ stF.currentNumLevels
    exact ecnl
  · show stF.targetItemCount =
      computeTotalCapacity k stF.currentNumLevels
    exact htgtF
  · show weightRange stF.outLevels 0 stF.currentNumLevels =
      weightRange inL 0 numLevelsIn
    rw [ew]
    rw [weightRange_empty st0.outLevels (le_refl 0)]
    simp only [Nat.zero_add]

/-- `generalCompress` keeps every output level sorted, except possibly
level 0, which stays sorted when the input flag says it was. -/
theorem generalCompress_sorted (k : Nat) (cmp : α → α → Bool)
    (numLevelsIn : Nat) (items : Nat → α) (inL outL : Nat → Nat)
    (flag : Bool) (rb : RandomBit) (hasym : CmpAsym cmp)
    (hneg : CmpNegTrans cmp)
    (hmono : ∀ i, i < numLevelsIn → inL i ≤ inL (i + 1))
    (hsort : ∀ l, l < numLevelsIn → (1 ≤ l ∨ flag = true) →
      SortedB cmp (seg items (inL l) (inL (l + 1) - inL l))) :
    ∀ l, l < (generalCompress k cmp numLevelsIn items inL outL flag
        rb).result.finalNumLevels → (1 ≤ l ∨ flag = true) →
      SortedB cmp (seg
        (generalCompress k cmp numLevelsIn items inL outL flag rb).items
        ((generalCompress k cmp numLevelsIn items inL outL flag
          rb).outLevels l)
        ((generalCompress k cmp numLevelsIn items inL outL flag
            rb).outLevels (l + 1) -
          (generalCompress k cmp numLevelsIn items inL outL flag
            rb).outLevels l)) := by
  set st0 : CompressState α :=
    ⟨items, inL, upd outL 0 0, numLevelsIn,
      inL numLevelsIn - inL 0, computeTotalCapacity k numLevelsIn, rb⟩
    with hst0
  have inv0 : GCInv k 0 st0 := by
    refine ⟨Nat.zero_le _, ?_, ?_, ?_, ?_, Or.inr ?_, rfl⟩
    · intro i h1 h2
      exact hmono i h2
    · intro i h1
      omega
    · show upd outL 0 0 0 ≤ inL 0
      rw [upd_self]
      omega
    · show inL numLevelsIn - inL 0 =
        (upd outL 0 0 0 - upd outL 0 0 0) + (inL numLevelsIn - inL 0)
      omega
    · show (upd outL 0 0 0 - upd outL 0 0 0) + 0 ≤ capBelow k 0 numLevelsIn
      simp [capBelow]
  have hs0 : GCSort cmp flag 0 st0 := by
    refine ⟨?_, ?_⟩
    · intro l hl hc
      omega
    · intro l hl hcnl hc
      exact hsort l hcnl hc
  have hfin := gcLoop_sorted k cmp flag hasym hneg 0 st0 inv0 hs0
  intro l hl hc
  exact hfin.out l hl hc

end detail

/-- Modelled from the spec: `sumSampleWeights` is declared in the header but
defined in `KllSketch.cpp` (missing from the sources); the spec's merge step
9 asserts its value is the effective weight
`sum of (levels[i+1] - levels[i]) * 2^i`. -/
def sumSampleWeights (numLevels : Nat) (levels : Nat → Nat) : Nat :=
  detail.weightRange levels 0 numLevels

/-! ### `List.getD` toolkit for boundary vectors -/

theorem getD_set_self {l : List β} {i : Nat} (v d : β) (h : i < l.length) :
    (l.set i v).getD i d = v := by
  rw [List.getD_eq_getElem?_getD, List.getElem?_set, if_pos rfl, if_pos h]
  rfl

theorem getD_set_ne {l : List β} {i j : Nat} (v d : β) (h : i ≠ j) :
    (l.set i v).getD j d = l.getD j d := by
  rw [List.getD_eq_getElem?_getD, List.getElem?_set, if_neg h,
    ← List.getD_eq_getElem?_getD]

theorem getD_map_add {l : List Nat} {i : Nat} (c : Nat) (h : i < l.length) :
    (l.map (· + c)).getD i 0 = l.getD i 0 + c := by
  rw [List.getD_eq_getElem?_getD, List.getElem?_map,
    List.getElem?_eq_getElem h, List.getD_eq_getElem?_getD,
    List.getElem?_eq_getElem h]
  rfl

theorem getD_append_left {l1 l2 : List β} {i : Nat} (d : β)
    (h : i < l1.length) : (l1 ++ l2).getD i d = l1.getD i d := by
  rw [List.getD_eq_getElem?_getD, List.getElem?_append_left h,
    ← List.getD_eq_getElem?_getD]

theorem getD_append_right {l1 l2 : List β} {i : Nat} (d : β)
    (h : l1.length ≤ i) :
    (l1 ++ l2).getD i d = l2.getD (i - l1.length) d := by
  rw [List.getD_eq_getElem?_getD, List.getElem?_append_right h,
    ← List.getD_eq_getElem?_getD]

theorem getD_range_map {g : Nat → β} {n i : Nat} (d : β) (h : i < n) :
    (((List.range n).map g).getD i d) = g i := by
  rw [List.getD_eq_getElem?_getD, List.getElem?_map, List.getElem?_range h]
  rfl

theorem getD_oob {l : List β} {i : Nat} (d : β) (h : l.length ≤ i) :
    l.getD i d = d := by
  rw [List.getD_eq_getElem?_getD, List.getElem?_eq_none h]
  rfl

theorem getD_replicate_in {n i : Nat} {a d : β} (h : i < n) :
    (List.replicate n a).getD i d = a := by
  rw [List.getD_eq_getElem?_getD, List.getElem?_replicate, if_pos h]
  rfl

/-! ## The sketch object

`KllSketch<T, Allocator, Compare>` instantiated over an element type `α`
with a strict comparator `cmp` (the allocator only affects where memory
lives and has no behavioural content).  `items_` and `levels_` are
`std::vector`s, modelled as lists; the detail functions receive the item
buffer as a store `Nat → α` (the C++ passes raw pointers) and the result is
read back over the vector's length. -/

structure KllSketch (α : Type u) where
  k : Nat
  randomBit : RandomBit
  n : Nat
  minValue : α
  maxValue : α
  items : List α
  levels : List Nat
  isLevelZeroSorted : Bool
deriving DecidableEq

namespace KllSketch

variable [Inhabited α]

/-- The constructor `KllSketch(k, allocator, seed)`. -/
def init (k seed : Nat) : KllSketch α :=
  { k := k
    randomBit := ⟨seed⟩
    n := 0
    minValue := default
    maxValue := default
    items := List.replicate k default
    levels := [k, k]
    isLevelZeroSorted := false }

/-- Modelled from the spec: `numLevels()` is declared in `KllSketch.h`
(missing from the sources); the data model has boundary indices
`levels[0..L]` for `L` levels. -/
def numLevels (s : KllSketch α) : Nat :=
  s.levels.length - 1

/-- Modelled from the spec: `getNumRetained() → |items| − levels[0]`
(`KllSketch.h` is missing from the sources). -/
def getNumRetained (s : KllSketch α) : Nat :=
  s.items.length - s.levels.getD 0 0

/-- Modelled from the spec: `safeLevelSize(lvl)` is declared in
`KllSketch.h` (missing from the sources); merge steps 5-6 use it as the
population of level `lvl`, zero for levels the sketch does not have. -/
def safeLevelSize (s : KllSketch α) (lvl : Nat) : Nat :=
  if lvl < s.numLevels then
    s.levels.getD (lvl + 1) 0 - s.levels.getD lvl 0
  else 0

/-- The item buffer as a store, as passed to the detail functions. -/
def itemsF (s : KllSketch α) : Nat → α :=
  fun i => s.items.getD i default

/-- `findLevelToCompact()`: the first level whose population reaches its
capacity.  The C++ loop has no upper bound and relies on such a level
existing; the recursion is bounded by the number of levels, which the
sketch invariant guarantees is enough (see `findLevelToCompact_spec`). -/
def findLevelToCompactGo (k nl : Nat) (levels : List Nat)
    (level fuel : Nat) : Nat :=
  match fuel with
  | 0 => level
  | fuel + 1 =>
      let pop := levels.getD (level + 1) 0 - levels.getD level 0
      let cap := detail.levelCapacity k nl level
      if cap ≤ pop then level
      else findLevelToCompactGo k nl levels (level + 1) fuel

def findLevelToCompact (s : KllSketch α) : Nat :=
  findLevelToCompactGo s.k s.numLevels s.levels 0 s.numLevels

/-- The boundary vector as a store. -/
def levelsF (s : KllSketch α) : Nat → Nat :=
  fun i => s.levels.getD i 0

/-- The effective weight of the sketch,
`sum of (levels[i+1] - levels[i]) * 2^i`. -/
def weight (s : KllSketch α) : Nat :=
  sumSampleWeights s.numLevels s.levelsF

/-- The structural invariant of the sketch (spec section 3): at least two
boundary indices, monotone boundaries whose last entry is the buffer size,
buffer size equal to the total capacity of the current level count, and
effective weight equal to the total count `n`. -/
structure Inv (s : KllSketch α) : Prop where
  klb : 8 ≤ s.k
  len2 : 2 ≤ s.levels.length
  mono : ∀ i, i < s.numLevels → s.levelsF i ≤ s.levelsF (i + 1)
  last : s.levelsF s.numLevels = s.items.length
  cap : s.items.length = detail.computeTotalCapacity s.k s.numLevels
  wgt : s.weight = s.n

theorem inv_init (k seed : Nat) (hk : 8 ≤ k) :
    Inv (init k seed : KllSketch α) := by
  have hnl : (init k seed : KllSketch α).numLevels = 1 := rfl
  refine ⟨hk, by simp [init], ?_, ?_, ?_, ?_⟩
  · intro i hi
    rw [hnl] at hi
    have : i = 0 := by omega
    subst this
    show k ≤ k
    exact le_refl k
  · show ([k, k].getD 1 0 : Nat) = (List.replicate k (default : α)).length
    simp
  · show (List.replicate k (default : α)).length =
      detail.computeTotalCapacity k 1
    rw [detail.computeTotalCapacity_one]
    simp
    omega
  · show detail.weightRange (init k seed : KllSketch α).levelsF 0 1 = 0
    rw [show (1 : Nat) = 0 + 1 from rfl,
      detail.weightRange_succ_right _ (le_refl 0),
      detail.weightRange_empty _ (le_refl 0)]
    show 0 + 2 ^ 0 * (k - k) = 0
    omega

/-- If every level below `j` is under capacity, the data below `j` is
bounded by the capacities below `j` with one slot to spare per level. -/
theorem under_cap_bound (k nl : Nat) (f : Nat → Nat) :
    ∀ j, (∀ i, i < j → f (i + 1) - f i < detail.levelCapacity k nl i) →
      f j + j ≤ f 0 + detail.capBelow k j nl := by
  intro j
  induction j with
  | zero =>
      intro _
      show f 0 + 0 ≤ f 0 + 0
      omega
  | succ m ih =>
      intro hall
      have h1 := ih fun i hi => hall i (by omega)
      have h2 := hall m (by omega)
      rw [detail.capBelow_succ]
      omega

theorem fltcGo_spec (k nl : Nat) (levels : List Nat) :
    ∀ level fuel,
      (∃ j, level ≤ j ∧ j < level + fuel ∧
        detail.levelCapacity k nl j ≤
          levels.getD (j + 1) 0 - levels.getD j 0) →
      level ≤ findLevelToCompactGo k nl levels level fuel ∧
        findLevelToCompactGo k nl levels level fuel < level + fuel ∧
        detail.levelCapacity k nl (findLevelToCompactGo k nl levels level
            fuel) ≤
          levels.getD (findLevelToCompactGo k nl levels level fuel + 1) 0 -
            levels.getD (findLevelToCompactGo k nl levels level fuel) 0 := by
  intro level fuel
  induction fuel generalizing level with
  | zero =>
      intro ⟨j, h1, h2, _⟩
      omega
  | succ m ih =>
      intro ⟨j, h1, h2, h3⟩
      have hunf : findLevelToCompactGo k nl levels level (m + 1) =
          if detail.levelCapacity k nl level ≤
              levels.getD (level + 1) 0 - levels.getD level 0 then level
          else findLevelToCompactGo k nl levels (level + 1) m := rfl
      rw [hunf]
      by_cases hfull : detail.levelCapacity k nl level ≤
          levels.getD (level + 1) 0 - levels.getD level 0
      · rw [if_pos hfull]
        exact ⟨le_refl _, by omega, hfull⟩
      · rw [if_neg hfull]
        have hj : level + 1 ≤ j := by
          rcases Nat.eq_or_lt_of_le h1 with he | hlt
          · exfalso
            rw [← he] at h3
            exact hfull h3
          · omega
        have := ih (level + 1) ⟨j, hj, by omega, h3⟩
        refine ⟨by omega, by omega, this.2.2⟩

/-- Under the invariant, when level 0 has no free slot some level is at
capacity, and `findLevelToCompact` returns such a level below the top. -/
theorem findLevelToCompact_spec (s : KllSketch α) (hInv : Inv s)
    (h0 : s.levelsF 0 = 0) :
    findLevelToCompact s < s.numLevels ∧
      detail.levelCapacity s.k s.numLevels (findLevelToCompact s) ≤
        s.levelsF (findLevelToCompact s + 1) - s.levelsF (findLevelToCompact s) := by
  have hex : ∃ j, 0 ≤ j ∧ j < 0 + s.numLevels ∧
      detail.levelCapacity s.k s.numLevels j ≤
        s.levels.getD (j + 1) 0 - s.levels.getD j 0 := by
    by_contra hne
    push_neg at hne
    have hall : ∀ i, i < s.numLevels →
        s.levelsF (i + 1) - s.levelsF i <
          detail.levelCapacity s.k s.numLevels i := by
      intro i hi
      exact hne i (by omega) (by omega)
    have hb := under_cap_bound s.k s.numLevels s.levelsF s.numLevels hall
    rw [h0, detail.capBelow_self] at hb
    have hlast := hInv.last
    have hcap := hInv.cap
    have hnl : 1 ≤ s.numLevels := by
      have := hInv.len2
      show 1 ≤ s.levels.length - 1
      omega
    omega
  obtain ⟨hA, hB, hC⟩ := fltcGo_spec s.k s.numLevels s.levels 0 s.numLevels
    hex
  have hunf : findLevelToCompact s =
      findLevelToCompactGo s.k s.numLevels s.levels 0 s.numLevels := rfl
  rw [hunf]
  exact ⟨by omega, hC⟩

/-- `addEmptyTopLevelToCompletelyFullSketch()`: grow the buffer by the
capacity of the new bottom level, shift the data to the new high end, shift
every boundary, and append a new top boundary. -/
def addEmptyTopLevelToCompletelyFullSketch (s : KllSketch α) : KllSketch α :=
  let curTotalCap := s.levels.getD (s.levels.length - 1) 0
  let deltaCap := detail.levelCapacity s.k (s.numLevels + 1) 0
  let newTotalCap := curTotalCap + deltaCap
  let itemsR := (s.items ++
    List.replicate (newTotalCap - s.items.length) default).take newTotalCap
  let f := moveBwd (fun i => itemsR.getD i default) 0 deltaCap curTotalCap
  { s with
    items := (List.range newTotalCap).map f
    levels := (s.levels.map (· + deltaCap)) ++ [newTotalCap] }

theorem addEmptyTop_facts (s : KllSketch α) (hInv : Inv s) :
    (s.addEmptyTopLevelToCompletelyFullSketch).k = s.k ∧
      (s.addEmptyTopLevelToCompletelyFullSketch).n = s.n ∧
      (s.addEmptyTopLevelToCompletelyFullSketch).randomBit = s.randomBit ∧
      (s.addEmptyTopLevelToCompletelyFullSketch).isLevelZeroSorted =
        s.isLevelZeroSorted ∧
      (s.addEmptyTopLevelToCompletelyFullSketch).numLevels =
        s.numLevels + 1 ∧
      (∀ i, i ≤ s.numLevels →
        (s.addEmptyTopLevelToCompletelyFullSketch).levelsF i =
          s.levelsF i + detail.levelCapacity s.k (s.numLevels + 1) 0) ∧
      (s.addEmptyTopLevelToCompletelyFullSketch).levelsF
          (s.numLevels + 1) =
        s.items.length + detail.levelCapacity s.k (s.numLevels + 1) 0 ∧
      (s.addEmptyTopLevelToCompletelyFullSketch).items.length =
        s.items.length + detail.levelCapacity s.k (s.numLevels + 1) 0 ∧
      Inv (s.addEmptyTopLevelToCompletelyFullSketch) := by
  have hlen := hInv.len2
  have hnl : s.numLevels = s.levels.length - 1 := rfl
  have hlast := hInv.last
  have hcap := hInv.cap
  set nl := s.numLevels with hnldef
  set δ := detail.levelCapacity s.k (nl + 1) 0 with hd
  set s' := s.addEmptyTopLevelToCompletelyFullSketch with hs'
  have hcur : s.levels.getD (s.levels.length - 1) 0 = s.items.length := hlast
  have elev : s'.levels = (s.levels.map (· + δ)) ++ [s.items.length + δ] := by
    rw [hs']
    show (s.levels.map (· + δ)) ++
      [s.levels.getD (s.levels.length - 1) 0 + δ] = _
    rw [hcur]
  have elen : s'.levels.length = s.levels.length + 1 := by
    rw [elev]
    simp
  have enl : s'.numLevels = nl + 1 := by
    show s'.levels.length - 1 = nl + 1
    rw [elen, hnl]
    omega
  have elevF : ∀ i, i ≤ nl → s'.levelsF i = s.levelsF i + δ := by
    intro i hi
    show s'.levels.getD i 0 = s.levels.getD i 0 + δ
    rw [elev, getD_append_left _ (by simp; omega),
      getD_map_add δ (by omega)]
  have elevTop : s'.levelsF (nl + 1) = s.items.length + δ := by
    show s'.levels.getD (nl + 1) 0 = _
    rw [elev, getD_append_right _ (by simp; omega)]
    have e1 : nl + 1 - (s.levels.map (· + δ)).length = 0 := by
      simp
      omega
    rw [e1]
    rfl
  have eitems : s'.items.length = s.items.length + δ := by
    rw [hs']
    show ((List.range (s.levels.getD (s.levels.length - 1) 0 + δ)).map _).length = _
    rw [hcur]
    simp
  have ek : s'.k = s.k := rfl
  refine ⟨ek, rfl, rfl, rfl, enl, elevF, elevTop, eitems, ?_⟩
  refine ⟨by rw [ek]; exact hInv.klb, by omega, ?_, ?_, ?_, ?_⟩
  · intro i hi
    rw [enl] at hi
    rcases Nat.lt_or_ge i nl with h2 | h2
    · rw [elevF i (by omega), elevF (i + 1) (by omega)]
      have := hInv.mono i h2
      omega
    · have he : i = nl := by omega
      subst he
      rw [elevF nl (le_refl _), elevTop]
      omega
  · rw [enl, elevTop, eitems]
  · rw [eitems, enl, ek, detail.computeTotalCapacity_succ, hcap]
  · show detail.weightRange s'.levelsF 0 s'.numLevels = s'.n
    rw [enl, detail.weightRange_succ_right s'.levelsF (Nat.zero_le nl)]
    rw [detail.weightRange_shift δ fun i _ hi => elevF i hi]
    rw [elevTop, elevF nl (le_refl _), hlast]
    have hw := hInv.wgt
    show detail.weightRange s.levelsF 0 nl +
      2 ^ nl * (s.items.length + δ - (s.items.length + δ)) = s.n
    have e2 : s.items.length + δ - (s.items.length + δ) = 0 := by omega
    rw [e2]
    have : detail.weightRange s.levelsF 0 nl = s.n := hw
    omega

/-- The in-place compaction of a single `level`, as performed by
`insertPosition()`: compact the level (orphan, optional sort of level 0,
halve up or halve down and merge up), adjust the boundaries, then shift the
data below the compacted level up to open free slots at the low end of
level 0. -/
def compactLevel (cmp : α → α → Bool) (level : Nat) (s1 : KllSketch α) :
    KllSketch α :=
  let rawBeg := s1.levels.getD level 0
  let rawLim := s1.levels.getD (level + 1) 0
  let popAbove := s1.levels.getD (level + 2) 0 - rawLim
  let rawPop := rawLim - rawBeg
  let oddPop := rawPop % 2
  let adjBeg := rawBeg + oddPop
  let adjPop := rawPop - oddPop
  let halfAdjPop := adjPop / 2
  let f0 := s1.itemsF
  -- Sort level zero if we wish to compact it.
  let f1 := if level = 0 ∧ s1.isLevelZeroSorted = false then
      writeSeg f0 adjBeg ((seg f0 adjBeg adjPop).mergeSort fun x y => !cmp y x)
    else f0
  let hp := if popAbove = 0 then
      detail.randomlyHalveUp f1 adjBeg adjPop s1.randomBit
    else
      let hd := detail.randomlyHalveDown f1 adjBeg adjPop s1.randomBit
      (detail.mergeOverlap hd.1 adjBeg halfAdjPop rawLim popAbove
        (adjBeg + halfAdjPop) cmp, hd.2)
  -- Adjust the boundaries of the level above.
  let levels2 := s1.levels.set (level + 1) (rawLim - halfAdjPop)
  -- The current level keeps one leftover guy, or becomes empty.
  let lv1 := levels2.getD (level + 1) 0
  let f2 := if oddPop = 1 then
      (if lv1 - 1 ≠ rawBeg then upd hp.1 (lv1 - 1) (hp.1 rawBeg) else hp.1)
    else hp.1
  let levels3 := if oddPop = 1 then levels2.set level (lv1 - 1)
    else levels2.set level lv1
  -- Shift up the data in the levels below to free space for level zero.
  let amount := rawBeg - levels3.getD 0 0
  let f3 := if 0 < level then
      moveBwd f2 (levels3.getD 0 0) (levels3.getD 0 0 + halfAdjPop) amount
    else f2
  let levels4 := if 0 < level then
      (List.range levels3.length).map fun lvl =>
        if lvl < level then levels3.getD lvl 0 + halfAdjPop
        else levels3.getD lvl 0
    else levels3
  { s1 with
    items := (List.range s1.items.length).map f3
    levels := levels4
    randomBit := hp.2 }

/-- The compaction path of `insertPosition()` (taken when level 0 has no
free slot): compact the level chosen by `findLevelToCompact`, growing the
sketch first when that level is the current top. -/
def insertPositionCompact (cmp : α → α → Bool) (s : KllSketch α) :
    KllSketch α :=
  let level := s.findLevelToCompact
  if level = s.numLevels - 1 then
    compactLevel cmp level s.addEmptyTopLevelToCompletelyFullSketch
  else
    compactLevel cmp level s

/-- Effect of `compactLevel` on the sketch state: the invariant is
maintained, the count and accuracy parameter are untouched, the buffer size
is unchanged and level 0 gains free slots at its low end. -/
theorem compactLevel_facts (cmp : α → α → Bool) (level : Nat)
    (s1 : KllSketch α) (hInv1 : Inv s1) (hl1 : level + 1 < s1.numLevels)
    (hpop8 : 8 ≤ s1.levelsF (level + 1) - s1.levelsF level) :
    Inv (compactLevel cmp level s1) ∧
      (compactLevel cmp level s1).n = s1.n ∧
      (compactLevel cmp level s1).k = s1.k ∧
      (compactLevel cmp level s1).items.length = s1.items.length ∧
      1 ≤ (compactLevel cmp level s1).levelsF 0 := by
  have hlen2 := hInv1.len2
  have hlen : s1.levels.length = s1.numLevels + 1 := by
    show s1.levels.length = s1.levels.length - 1 + 1
    omega
  have hmono1 : s1.levelsF level ≤ s1.levelsF (level + 1) :=
    hInv1.mono level (by omega)
  have hmono2 : s1.levelsF (level + 1) ≤ s1.levelsF (level + 2) :=
    hInv1.mono (level + 1) hl1
  set B := s1.levels.getD level 0 with hB
  set L := s1.levels.getD (level + 1) 0 with hL
  set O := (L - B) % 2 with hO
  set H := ((L - B) - O) / 2 with hH
  set l2 := s1.levels.set (level + 1) (L - H) with hl2
  set l3 := (if O = 1 then l2.set level (l2.getD (level + 1) 0 - 1)
    else l2.set level (l2.getD (level + 1) 0)) with hl3
  have elev : (compactLevel cmp level s1).levels =
      (if 0 < level then
        (List.range l3.length).map fun lvl =>
          if lvl < level then l3.getD lvl 0 + H else l3.getD lvl 0
      else l3) := rfl
  have hl2len : l2.length = s1.levels.length := List.length_set _ _ _
  have hl3len : l3.length = s1.levels.length := by
    rw [hl3]
    by_cases ho : O = 1
    · rw [if_pos ho, List.length_set, hl2len]
    · rw [if_neg ho, List.length_set, hl2len]
  have hl2get : l2.getD (level + 1) 0 = L - H := by
    rw [hl2]
    exact getD_set_self _ _ (by omega)
  have hl2ne : ∀ j, j ≠ level + 1 → l2.getD j 0 = s1.levels.getD j 0 := by
    intro j hj
    rw [hl2]
    exact getD_set_ne _ _ (by omega)
  have hl3l : l3.getD level 0 = (L - H) - O := by
    rw [hl3]
    by_cases ho : O = 1
    · rw [if_pos ho, getD_set_self _ _ (by omega), hl2get, ho]
    · have ho0 : O = 0 := by omega
      rw [if_neg ho, getD_set_self _ _ (by omega), hl2get, ho0]
      omega
  have hl3ne : ∀ j, j ≠ level → l3.getD j 0 = l2.getD j 0 := by
    intro j hj
    rw [hl3]
    by_cases ho : O = 1
    · rw [if_pos ho]
      exact getD_set_ne _ _ (by omega)
    · rw [if_neg ho]
      exact getD_set_ne _ _ (by omega)
  have hBL : B ≤ L := hmono1
  have hLm2 : L ≤ s1.levelsF (level + 2) := hmono2
  have hpop8b : 8 ≤ L - B := hpop8
  have hf'len : (compactLevel cmp level s1).levels.length =
      s1.levels.length := by
    rw [elev]
    by_cases hlv : 0 < level
    · rw [if_pos hlv]
      simp [hl3len]
    · rw [if_neg hlv]
      exact hl3len
  have hf'nl : (compactLevel cmp level s1).numLevels = s1.numLevels := by
    show (compactLevel cmp level s1).levels.length - 1 = _
    rw [hf'len, hlen]
    omega
  have hf'lo : ∀ i, i < level →
      (compactLevel cmp level s1).levelsF i = s1.levelsF i + H := by
    intro i hi
    show (compactLevel cmp level s1).levels.getD i 0 = _
    rw [elev, if_pos (by omega)]
    rw [getD_range_map 0 (by omega : i < l3.length)]
    rw [if_pos hi, hl3ne i (by omega), hl2ne i (by omega)]
    rfl
  have hf'l : (compactLevel cmp level s1).levelsF level = (L - H) - O := by
    show (compactLevel cmp level s1).levels.getD level 0 = _
    rw [elev]
    by_cases hlv : 0 < level
    · rw [if_pos hlv, getD_range_map 0 (by omega : level < l3.length)]
      rw [if_neg (by omega), hl3l]
    · rw [if_neg hlv, hl3l]
  have hf'l1 : (compactLevel cmp level s1).levelsF (level + 1) = L - H := by
    show (compactLevel cmp level s1).levels.getD (level + 1) 0 = _
    rw [elev]
    by_cases hlv : 0 < level
    · rw [if_pos hlv, getD_range_map 0 (by omega : level + 1 < l3.length)]
      rw [if_neg (by omega), hl3ne (level + 1) (by omega), hl2get]
    · rw [if_neg hlv, hl3ne (level + 1) (by omega), hl2get]
  have hf'hi : ∀ i, level + 2 ≤ i →
      (compactLevel cmp level s1).levelsF i = s1.levelsF i := by
    intro i hi
    show (compactLevel cmp level s1).levels.getD i 0 = s1.levels.getD i 0
    rcases Nat.lt_or_ge i s1.levels.length with hir | hir
    · rw [elev]
      by_cases hlv : 0 < level
      · rw [if_pos hlv, getD_range_map 0 (by omega : i < l3.length)]
        rw [if_neg (by omega), hl3ne i (by omega), hl2ne i (by omega)]
      · rw [if_neg hlv, hl3ne i (by omega), hl2ne i (by omega)]
    · rw [getD_oob 0 (by omega), getD_oob 0 (by omega)]
  have hBH : (compactLevel cmp level s1).levelsF level = B + H := by
    rw [hf'l]
    omega
  have eilen : (compactLevel cmp level s1).items.length =
      s1.items.length := by
    show ((List.range s1.items.length).map _).length = _
    simp
  refine ⟨⟨?_, ?_, ?_, ?_, ?_, ?_⟩, rfl, rfl, eilen, ?_⟩
  · show (compactLevel cmp level s1).k ≥ 8
    exact hInv1.klb
  · rw [hf'len]
    exact hlen2
  · intro i hi
    rw [hf'nl] at hi
    rcases Nat.lt_or_ge (i + 1) level with hz | hz
    · rw [hf'lo i (by omega), hf'lo (i + 1) (by omega)]
      have := hInv1.mono i (by omega)
      omega
    · rcases Nat.eq_or_lt_of_le hz with hz2 | hz2
      · rw [hf'lo i (by omega), ← hz2, hBH]
        have hBv : B = s1.levelsF level := hB
        have hm := hInv1.mono i (by omega)
        rw [hz2] at hBv
        omega
      · rcases Nat.lt_or_ge i (level + 1) with hz3 | hz3
        · have : i = level := by omega
          subst this
          rw [hBH, hf'l1]
          omega
        · rcases Nat.eq_or_lt_of_le hz3 with hz4 | hz4
          · rw [← hz4, hf'l1, hf'hi (level + 1 + 1) (by omega)]
            have e5 : s1.levelsF (level + 1 + 1) = s1.levelsF (level + 2) :=
              rfl
            omega
          · rw [hf'hi i (by omega), hf'hi (i + 1) (by omega)]
            exact hInv1.mono i hi
  · rw [hf'nl, hf'hi s1.numLevels (by omega), eilen]
    exact hInv1.last
  · rw [eilen, hf'nl]
    show s1.items.length =
      detail.computeTotalCapacity (compactLevel cmp level s1).k s1.numLevels
    exact hInv1.cap
  · show detail.weightRange (compactLevel cmp level s1).levelsF 0
      (compactLevel cmp level s1).numLevels = s1.n
    rw [hf'nl]
    rw [detail.weightRange_split (compactLevel cmp level s1).levelsF
      (Nat.zero_le level) (by omega : level ≤ s1.numLevels)]
    rw [detail.weightRange_shift H fun i _ hi =>
      (by rcases Nat.lt_or_ge i level with hx | hx
          · exact hf'lo i hx
          · have : i = level := by omega
            rw [this, hBH]
            rfl : (compactLevel cmp level s1).levelsF i =
              s1.levelsF i + H)]
    rw [detail.weightRange_succ_left _ (by omega : level < s1.numLevels)]
    rw [detail.weightRange_succ_left _ (by omega : level + 1 <
      s1.numLevels)]
    rw [detail.weightRange_congr (level + 2) s1.numLevels
      fun i h1 h2 => hf'hi i h1]
    rw [hf'l1, hBH, hf'hi (level + 2) (le_refl _)]
    have hwgt := hInv1.wgt
    rw [show s1.weight = detail.weightRange s1.levelsF 0 s1.numLevels
      from rfl] at hwgt
    rw [detail.weightRange_split s1.levelsF (Nat.zero_le level)
      (by omega : level ≤ s1.numLevels),
      detail.weightRange_succ_left _ (by omega : level < s1.numLevels),
      detail.weightRange_succ_left _ (by omega : level + 1 <
        s1.numLevels)] at hwgt
    rw [← hwgt]
    have e1 : L - H - (B + H) = O := by omega
    have e2 : s1.levelsF (level + 2) - (L - H) =
        (s1.levelsF (level + 2) - L) + H := by
      show s1.levels.getD (level + 2) 0 - (L - H) =
        (s1.levels.getD (level + 2) 0 - L) + H
      have hm2 : L ≤ s1.levels.getD (level + 2) 0 := hmono2
      omega
    have e3 : s1.levelsF (level + 1) - s1.levelsF level = O + 2 * H := by
      show L - B = O + 2 * H
      omega
    rw [e1, e2]
    show detail.weightRange s1.levelsF 0 level + (2 ^ level * O +
        (2 ^ (level + 1) * ((s1.levelsF (level + 2) - L) + H) +
          detail.weightRange s1.levelsF (level + 2) s1.numLevels)) =
      detail.weightRange s1.levelsF 0 level +
        (2 ^ level * (s1.levelsF (level + 1) - s1.levelsF level) +
          (2 ^ (level + 1) * (s1.levelsF (level + 2) -
            s1.levelsF (level + 1)) +
            detail.weightRange s1.levelsF (level + 2) s1.numLevels))
    rw [e3]
    have e4 : s1.levelsF (level + 2) - s1.levelsF (level + 1) =
        s1.levelsF (level + 2) - L := rfl
    rw [e4]
    have hps : (2 : Nat) ^ (level + 1) = 2 ^ level * 2 := pow_succ 2 level
    rw [hps]
    ring
  · rcases Nat.lt_or_ge 0 level with hlv | hlv
    · rw [hf'lo 0 hlv]
      omega
    · have : level = 0 := by omega
      subst this
      rw [hBH]
      omega

/-- The compaction path of `insertPosition()` maintains the invariant,
keeps `n` and `k`, and makes level 0 start at a positive index, so a free
slot exists below it. -/
theorem insertPositionCompact_facts (cmp : α → α → Bool) (s : KllSketch α)
    (hInv : Inv s) (h0 : s.levelsF 0 = 0) :
    Inv (insertPositionCompact cmp s) ∧
      (insertPositionCompact cmp s).n = s.n ∧
      (insertPositionCompact cmp s).k = s.k ∧
      1 ≤ (insertPositionCompact cmp s).levelsF 0 := by
  obtain ⟨hlt, hcap⟩ := findLevelToCompact_spec s hInv h0
  have h8 : 8 ≤ detail.levelCapacity s.k s.numLevels s.findLevelToCompact :=
    detail.levelCapacity_ge_8 _ _ _
  have e : insertPositionCompact cmp s =
      (if s.findLevelToCompact = s.numLevels - 1 then
        compactLevel cmp s.findLevelToCompact
          s.addEmptyTopLevelToCompletelyFullSketch
      else compactLevel cmp s.findLevelToCompact s) := rfl
  have hnl1 : 1 ≤ s.numLevels := by
    have := hInv.len2
    show 1 ≤ s.levels.length - 1
    omega
  rw [e]
  by_cases htop : s.findLevelToCompact = s.numLevels - 1
  · rw [if_pos htop]
    obtain ⟨hk, hn, -, -, hnl, hshift, -, -, hInv'⟩ := addEmptyTop_facts s
      hInv
    have hsh1 : s.addEmptyTopLevelToCompletelyFullSketch.levelsF
          s.findLevelToCompact =
        s.levelsF s.findLevelToCompact +
          detail.levelCapacity s.k (s.numLevels + 1) 0 :=
      hshift s.findLevelToCompact (by omega)
    have hsh2 : s.addEmptyTopLevelToCompletelyFullSketch.levelsF
          (s.findLevelToCompact + 1) =
        s.levelsF (s.findLevelToCompact + 1) +
          detail.levelCapacity s.k (s.numLevels + 1) 0 :=
      hshift (s.findLevelToCompact + 1) (by omega)
    obtain ⟨hI, hN, hK, -, hL⟩ := compactLevel_facts cmp
      s.findLevelToCompact s.addEmptyTopLevelToCompletelyFullSketch hInv'
      (by omega)
      (by rw [hsh1, hsh2]; omega)
    exact ⟨hI, by rw [hN, hn], by rw [hK, hk], hL⟩
  · rw [if_neg htop]
    obtain ⟨hI, hN, hK, -, hL⟩ := compactLevel_facts cmp
      s.findLevelToCompact s hInv (by omega) (by omega)
    exact ⟨hI, hN, hK, hL⟩

/-- `insertPosition()`: make a free slot at the low end of level 0 if there
is none, count the new element, mark level 0 unsorted, and claim the slot. -/
def insertPosition (cmp : α → α → Bool) (s : KllSketch α) :
    Nat × KllSketch α :=
  let s2 := if s.levels.getD 0 0 = 0 then insertPositionCompact cmp s else s
  let pos := s2.levels.getD 0 0 - 1
  (pos, { s2 with
    n := s2.n + 1
    isLevelZeroSorted := false
    levels := s2.levels.set 0 pos })

/-- `insertPosition()` maintains the invariant with `n` incremented by
one, keeps `k` and the buffer size, and returns an in-bounds slot. -/
theorem insertPosition_facts (cmp : α → α → Bool) (s : KllSketch α)
    (hInv : Inv s) :
    Inv (insertPosition cmp s).2 ∧
      (insertPosition cmp s).2.n = s.n + 1 ∧
      (insertPosition cmp s).2.k = s.k ∧
      (insertPosition cmp s).1 < (insertPosition cmp s).2.items.length := by
  set s2 := (if s.levels.getD 0 0 = 0 then insertPositionCompact cmp s
    else s) with hs2
  have hfacts : Inv s2 ∧ s2.n = s.n ∧ s2.k = s.k ∧ 1 ≤ s2.levelsF 0 := by
    rw [hs2]
    by_cases h0 : s.levels.getD 0 0 = 0
    · rw [if_pos h0]
      exact insertPositionCompact_facts cmp s hInv h0
    · rw [if_neg h0]
      refine ⟨hInv, rfl, rfl, ?_⟩
      show 1 ≤ s.levels.getD 0 0
      omega
  obtain ⟨hI2, hN2, hK2, hZ2⟩ := hfacts
  have e2 : (insertPosition cmp s).2 =
      { s2 with
        n := s2.n + 1
        isLevelZeroSorted := false
        levels := s2.levels.set 0 (s2.levels.getD 0 0 - 1) } := rfl
  have e1 : (insertPosition cmp s).1 = s2.levels.getD 0 0 - 1 := rfl
  have hnl1 : 1 ≤ s2.numLevels := by
    have := hI2.len2
    show 1 ≤ s2.levels.length - 1
    omega
  have hnl' : (insertPosition cmp s).2.numLevels = s2.numLevels := by
    show (insertPosition cmp s).2.levels.length - 1 = s2.levels.length - 1
    rw [e2]
    show (s2.levels.set 0 (s2.levels.getD 0 0 - 1)).length - 1 = _
    rw [List.length_set]
  have hf0 : (insertPosition cmp s).2.levelsF 0 =
      s2.levelsF 0 - 1 := by
    show (insertPosition cmp s).2.levels.getD 0 0 = s2.levels.getD 0 0 - 1
    rw [e2]
    show (s2.levels.set 0 (s2.levels.getD 0 0 - 1)).getD 0 0 = _
    exact getD_set_self _ _ (by have := hI2.len2; omega)
  have hfi : ∀ i, 1 ≤ i →
      (insertPosition cmp s).2.levelsF i = s2.levelsF i := by
    intro i hi
    show (insertPosition cmp s).2.levels.getD i 0 = s2.levels.getD i 0
    rw [e2]
    show (s2.levels.set 0 (s2.levels.getD 0 0 - 1)).getD i 0 = _
    exact getD_set_ne _ _ (by omega)
  have hitems : (insertPosition cmp s).2.items = s2.items := by
    rw [e2]
  have hm01 : s2.levelsF 0 ≤ s2.levelsF 1 := hI2.mono 0 (by omega)
  refine ⟨⟨?_, ?_, ?_, ?_, ?_, ?_⟩, ?_, ?_, ?_⟩
  · show (insertPosition cmp s).2.k ≥ 8
    rw [e2]
    exact hI2.klb
  · show 2 ≤ (insertPosition cmp s).2.levels.length
    rw [e2]
    show 2 ≤ (s2.levels.set 0 (s2.levels.getD 0 0 - 1)).length
    rw [List.length_set]
    exact hI2.len2
  · intro i hi
    rw [hnl'] at hi
    rcases Nat.eq_or_lt_of_le (Nat.zero_le i) with h0 | h0
    · rw [← h0, hf0, hfi 1 (le_refl 1)]
      rw [← h0] at hi
      have := hI2.mono 0 hi
      omega
    · rw [hfi i (by omega), hfi (i + 1) (by omega)]
      exact hI2.mono i hi
  · rw [hnl', hfi s2.numLevels (by omega), hitems]
    exact hI2.last
  · rw [hitems, hnl']
    show s2.items.length =
      detail.computeTotalCapacity (insertPosition cmp s).2.k s2.numLevels
    rw [e2]
    exact hI2.cap
  · show detail.weightRange (insertPosition cmp s).2.levelsF 0
      (insertPosition cmp s).2.numLevels = (insertPosition cmp s).2.n
    rw [hnl']
    rw [detail.weightRange_succ_left _ (by omega : 0 < s2.numLevels)]
    rw [detail.weightRange_congr 1 s2.numLevels fun i h1 h2 => hfi i h1]
    rw [hf0, hfi 1 (le_refl 1)]
    have hwgt := hI2.wgt
    rw [show s2.weight = detail.weightRange s2.levelsF 0 s2.numLevels
      from rfl] at hwgt
    rw [detail.weightRange_succ_left _ (by omega : 0 < s2.numLevels)]
      at hwgt
    have hn' : (insertPosition cmp s).2.n = s2.n + 1 := by rw [e2]
    rw [hn']
    have e01 : detail.weightRange s2.levelsF (0 + 1) s2.numLevels =
        detail.weightRange s2.levelsF 1 s2.numLevels := rfl
    rw [e01] at hwgt
    simp only [pow_zero, one_mul] at hwgt ⊢
    have e01b : s2.levelsF (0 + 1) = s2.levelsF 1 := rfl
    rw [e01b] at hwgt
    omega
  · show (insertPosition cmp s).2.n = s.n + 1
    rw [e2]
    show s2.n + 1 = s.n + 1
    rw [hN2]
  · show (insertPosition cmp s).2.k = s.k
    rw [e2]
    exact hK2
  · rw [e1, hitems]
    have hchain := detail.monoChain s2.levelsF 0 s2.numLevels
      (fun i h1 h2 => hI2.mono i h2) 0 s2.numLevels (le_refl 0)
      (Nat.zero_le _) (le_refl _)
    have hlast := hI2.last
    show s2.levels.getD 0 0 - 1 < s2.items.length
    have hz : 1 ≤ s2.levels.getD 0 0 := hZ2
    have hc2 : s2.levels.getD 0 0 ≤ s2.items.length := by
      rw [← hlast]
      exact hchain
    omega

/-- The statement `items_[insertPosition()] = v`, shared by `insert` and
the bottom-level loop of `merge`. -/
def insertValue (cmp : α → α → Bool) (t : KllSketch α) (v : α) :
    KllSketch α :=
  let p := insertPosition cmp t
  { p.2 with items := p.2.items.set p.1 v }

/-- `insert(value)`. -/
def insert (cmp : α → α → Bool) (s : KllSketch α) (value : α) :
    KllSketch α :=
  let s1 := if s.n = 0 then { s with minValue := value, maxValue := value }
    else
      { s with
        minValue := if cmp value s.minValue then value else s.minValue
        maxValue := if cmp s.maxValue value then value else s.maxValue }
  insertValue cmp s1 value

/-- `items_[insertPosition()] = v` maintains the invariant, increments
`n`, and keeps `k`. -/
theorem insertValue_facts (cmp : α → α → Bool) (t : KllSketch α) (v : α)
    (hI : Inv t) :
    Inv (insertValue cmp t v) ∧ (insertValue cmp t v).n = t.n + 1 ∧
      (insertValue cmp t v).k = t.k := by
  obtain ⟨hIp, hNp, hKp, hpos⟩ := insertPosition_facts cmp t hI
  have e : insertValue cmp t v =
      { (insertPosition cmp t).2 with
        items := (insertPosition cmp t).2.items.set
          (insertPosition cmp t).1 v } := rfl
  rw [e]
  refine ⟨⟨hIp.klb, hIp.len2, hIp.mono, ?_, ?_, hIp.wgt⟩, hNp, hKp⟩
  · show (insertPosition cmp t).2.levelsF (insertPosition cmp t).2.numLevels
      = ((insertPosition cmp t).2.items.set (insertPosition cmp t).1
        v).length
    rw [List.length_set]
    exact hIp.last
  · show ((insertPosition cmp t).2.items.set (insertPosition cmp t).1
      v).length =
      detail.computeTotalCapacity (insertPosition cmp t).2.k
        (insertPosition cmp t).2.numLevels
    rw [List.length_set]
    exact hIp.cap

/-- `insert(value)` maintains the invariant, increments `n`, and keeps
`k`. -/
theorem insert_inv (cmp : α → α → Bool) (s : KllSketch α) (value : α)
    (hInv : Inv s) :
    Inv (insert cmp s value) ∧ (insert cmp s value).n = s.n + 1 ∧
      (insert cmp s value).k = s.k := by
  set s1 := (if s.n = 0 then { s with minValue := value, maxValue := value }
    else
      { s with
        minValue := if cmp value s.minValue then value else s.minValue
        maxValue := if cmp s.maxValue value then value else s.maxValue })
    with hs1
  have hI1 : Inv s1 ∧ s1.n = s.n ∧ s1.k = s.k := by
    rw [hs1]
    by_cases h : s.n = 0
    · rw [if_pos h]
      exact ⟨⟨hInv.klb, hInv.len2, hInv.mono, hInv.last, hInv.cap,
        hInv.wgt⟩, rfl, rfl⟩
    · rw [if_neg h]
      exact ⟨⟨hInv.klb, hInv.len2, hInv.mono, hInv.last, hInv.cap,
        hInv.wgt⟩, rfl, rfl⟩
  obtain ⟨hInv1, hN1, hK1⟩ := hI1
  obtain ⟨hIv, hNv, hKv⟩ := insertValue_facts cmp s1 value hInv1
  have e : insert cmp s value = insertValue cmp s1 value := rfl
  rw [e]
  exact ⟨hIv, by rw [hNv, hN1], hKv.trans hK1⟩

/-- The values of level 0 of a sketch, as read by the bottom-level loop of
`merge` (`other.items_[j]` for `j` in `[other.levels_[0],
other.levels_[1])`). -/
def bottomLevelValues (other : KllSketch α) : List α :=
  seg other.itemsF (other.levelsF 0) (other.levelsF 1 - other.levelsF 0)

/-- One step of the `(newN, minValue, maxValue)` accumulation loop at the
head of `merge`: peers with `n_ == 0` are skipped; the first counted peer
seeds the extrema when the running count is still zero, later ones are
combined with `std::min` / `std::max` under the comparator. -/
def mergeAccStep (cmp : α → α → Bool) (acc : Nat × α × α)
    (other : KllSketch α) : Nat × α × α :=
  if other.n = 0 then acc
  else if acc.1 = 0 then (other.n, other.minValue, other.maxValue)
  else
    (acc.1 + other.n,
      (if cmp other.minValue acc.2.1 then other.minValue else acc.2.1,
        if cmp acc.2.2 other.maxValue then other.maxValue
        else acc.2.2))

/-- The accumulation loop at the head of `merge`, starting from this
sketch's own count and extrema. -/
def mergeAcc (cmp : α → α → Bool) (s : KllSketch α)
    (others : List (KllSketch α)) : Nat × α × α :=
  others.foldl (mergeAccStep cmp) (s.n, (s.minValue, s.maxValue))

/-- One merged level of the k-way merge step of `merge`: the sorted runs
of level `lvl` of this sketch and of every peer, combined into one sorted
run.  The code drains a priority queue seeded with the non-empty runs; it
is modelled as iterated two-way merging of the runs in order, which
produces a sorted run holding the same items (empty runs, skipped by the
code, are neutral for merging). -/
def mergedLevel (cmp : α → α → Bool) (s2 : KllSketch α)
    (others : List (KllSketch α)) (lvl : Nat) : List α :=
  (others.map fun other =>
      seg other.itemsF (other.levelsF lvl) (other.safeLevelSize lvl)).foldl
    (fun acc r => acc.merge r fun x y => ! cmp y x)
    (seg s2.itemsF (s2.levelsF lvl) (s2.safeLevelSize lvl))

/-- The `worklevels` entries written by `merge` before compressing:
`worklevels[0] = 0`, `worklevels[1]` is the size of this sketch's level 0,
and each merged level appends its length. -/
def workLevelsGo (cmp : α → α → Bool) (s2 : KllSketch α)
    (others : List (KllSketch α)) : Nat → Nat
  | 0 => 0
  | 1 => s2.safeLevelSize 0
  | l + 2 => workLevelsGo cmp s2 others (l + 1) +
      (mergedLevel cmp s2 others (l + 1)).length

/-- The `worklevels` array: entries beyond the written prefix keep their
zero initialisation. -/
def workLevels (cmp : α → α → Bool) (s2 : KllSketch α)
    (others : List (KllSketch α)) (prov : Nat) : Nat → Nat :=
  fun l => if l ≤ prov then workLevelsGo cmp s2 others l else 0

/-- The `workbuf` buffer populated by `merge`: level 0 of this sketch is
moved to the front, then each merged level is written at its
`worklevels` offset.  Unwritten slots keep the default value the
vector's elements are constructed with. -/
def workBuf (cmp : α → α → Bool) (s2 : KllSketch α)
    (others : List (KllSketch α)) (prov : Nat) : Nat → α :=
  (List.range (prov - 1)).foldl
    (fun g i =>
      writeSeg g (workLevelsGo cmp s2 others (i + 1))
        (mergedLevel cmp s2 others (i + 1)))
    (writeSeg (fun _ => default) 0
      (seg s2.itemsF (s2.levelsF 0) (s2.safeLevelSize 0)))

/-- The bottom-level loop of `merge`: every value of every peer's level 0
is stored through `items_[insertPosition()] = other.items_[j]`. -/
def mergeBottom (cmp : α → α → Bool) (s1 : KllSketch α)
    (others : List (KllSketch α)) : KllSketch α :=
  others.foldl
    (fun t other => (bottomLevelValues other).foldl (insertValue cmp) t)
    s1

/-- `tmpNumItems` of `merge`: the retained count plus every multi-level
peer's data above level 0 (`other.levels_.back() - other.levels_[1]`). -/
def mergeTmpNumItems (s2 : KllSketch α) (others : List (KllSketch α)) :
    Nat :=
  others.foldl
    (fun m other =>
      if 2 ≤ other.numLevels then
        m + (other.levelsF other.numLevels - other.levelsF 1)
      else m)
    s2.getNumRetained

/-- `provisionalNumLevels` of `merge`: the maximum level count over this
sketch and the multi-level peers. -/
def mergeProvNumLevels (s2 : KllSketch α) (others : List (KllSketch α)) :
    Nat :=
  others.foldl
    (fun m other =>
      if 2 ≤ other.numLevels then max m other.numLevels else m)
    s2.numLevels

/-- The higher-level branch of `merge`: compress the work buffer with
`detail::generalCompress`, resize the item buffer to the final capacity,
copy the surviving data back with the free space at the bottom, and shift
the output boundaries by the same offset. -/
def mergeCompressed (cmp : α → α → Bool) (s2 : KllSketch α)
    (others : List (KllSketch α)) (newN : Nat) : KllSketch α :=
  let provisionalNumLevels := mergeProvNumLevels s2 others
  let co := detail.generalCompress s2.k cmp provisionalNumLevels
    (workBuf cmp s2 others provisionalNumLevels)
    (workLevels cmp s2 others provisionalNumLevels) (fun _ => 0)
    s2.isLevelZeroSorted s2.randomBit
  let finalCap := co.result.finalCapacity
  let finalNumItems := co.result.finalNumItems
  let freeSpaceAtBottom := finalCap - finalNumItems
  let resized := (s2.items ++
    List.replicate (finalCap - s2.items.length) default).take finalCap
  let itemsF2 := writeSeg (fun i => resized.getD i default)
    freeSpaceAtBottom (seg co.items (co.outLevels 0) finalNumItems)
  let offset := freeSpaceAtBottom - co.outLevels 0
  { s2 with
    items := (List.range finalCap).map itemsF2
    levels := (List.range (co.result.finalNumLevels + 1)).map
      fun lvl => co.outLevels lvl + offset
    randomBit := co.randomBit
    n := newN }

/-- `merge(others)`: accumulate `newN` and the extrema over non-empty
peers; return unchanged if nothing was counted; insert every peer's level-0
values one by one; if the peers hold any higher-level data, merge and
compress the higher levels; finally set `n_ = newN`. -/
def merge (cmp : α → α → Bool) (s : KllSketch α)
    (others : List (KllSketch α)) : KllSketch α :=
  let acc := mergeAcc cmp s others
  let newN := acc.1
  if newN = s.n then s
  else
    let s1 := { s with minValue := acc.2.1, maxValue := acc.2.2 }
    let s2 := mergeBottom cmp s1 others
    if s2.getNumRetained < mergeTmpNumItems s2 others then
      mergeCompressed cmp s2 others newN
    else { s2 with n := newN }

/-- Inserting a list of values one by one maintains the invariant and adds
the list's length to `n`. -/
theorem foldl_insertValue_facts (cmp : α → α → Bool) (vs : List α) :
    ∀ t : KllSketch α, Inv t →
      Inv (vs.foldl (insertValue cmp) t) ∧
        (vs.foldl (insertValue cmp) t).n = t.n + vs.length ∧
        (vs.foldl (insertValue cmp) t).k = t.k := by
  induction vs with
  | nil => exact fun t hI => ⟨hI, rfl, rfl⟩
  | cons v vs ih =>
      intro t hI
      obtain ⟨hI1, hN1, hK1⟩ := insertValue_facts cmp t v hI
      obtain ⟨hI2, hN2, hK2⟩ := ih (insertValue cmp t v) hI1
      refine ⟨hI2, ?_, hK2.trans hK1⟩
      show (vs.foldl (insertValue cmp) (insertValue cmp t v)).n = _
      rw [hN2, hN1]
      show t.n + 1 + vs.length = t.n + (vs.length + 1)
      omega

/-- The bottom-level loop of `merge` maintains the invariant and adds every
peer's level-0 population to `n`. -/
theorem mergeBottom_facts (cmp : α → α → Bool)
    (others : List (KllSketch α)) :
    ∀ t : KllSketch α, Inv t →
      Inv (mergeBottom cmp t others) ∧
        (mergeBottom cmp t others).n =
          t.n + (others.map fun o => o.levelsF 1 - o.levelsF 0).sum ∧
        (mergeBottom cmp t others).k = t.k := by
  induction others with
  | nil => exact fun t hI => ⟨hI, rfl, rfl⟩
  | cons o os ih =>
      intro t hI
      obtain ⟨hI1, hN1, hK1⟩ :=
        foldl_insertValue_facts cmp (bottomLevelValues o) t hI
      obtain ⟨hI2, hN2, hK2⟩ :=
        ih ((bottomLevelValues o).foldl (insertValue cmp) t) hI1
      have e : mergeBottom cmp t (o :: os) =
          mergeBottom cmp ((bottomLevelValues o).foldl (insertValue cmp) t)
            os := rfl
      rw [e]
      refine ⟨hI2, ?_, hK2.trans hK1⟩
      rw [hN2, hN1]
      have el : (bottomLevelValues o).length = o.levelsF 1 - o.levelsF 0 :=
        seg_length _ _ _
      rw [el, List.map_cons, List.sum_cons]
      omega

/-- The head loop of `merge` adds the counts of all peers to the running
count. -/
theorem mergeAccStep_n (cmp : α → α → Bool)
    (others : List (KllSketch α)) :
    ∀ a : Nat × α × α,
      (others.foldl (mergeAccStep cmp) a).1 =
        a.1 + (others.map fun o => o.n).sum := by
  induction others with
  | nil => exact fun a => rfl
  | cons o os ih =>
      intro a
      have e : (o :: os).foldl (mergeAccStep cmp) a =
          os.foldl (mergeAccStep cmp) (mergeAccStep cmp a o) := rfl
      rw [e, ih (mergeAccStep cmp a o), List.map_cons, List.sum_cons]
      unfold mergeAccStep
      by_cases h0 : o.n = 0
      · rw [if_pos h0, h0]
        omega
      · rw [if_neg h0]
        by_cases ha : a.1 = 0
        · rw [if_pos ha, ha]
          show o.n + _ = 0 + (o.n + _)
          omega
        · rw [if_neg ha]
          show a.1 + o.n + _ = a.1 + (o.n + _)
          omega

theorem mergeAcc_n (cmp : α → α → Bool) (s : KllSketch α)
    (others : List (KllSketch α)) :
    (mergeAcc cmp s others).1 = s.n + (others.map fun o => o.n).sum :=
  mergeAccStep_n cmp others (s.n, (s.minValue, s.maxValue))

/-- `tmpNumItems` never falls below its starting value. -/
theorem mergeTmp_ge (others : List (KllSketch α)) :
    ∀ a : Nat,
      a ≤ others.foldl
        (fun m other =>
          if 2 ≤ other.numLevels then
            m + (other.levelsF other.numLevels - other.levelsF 1)
          else m) a := by
  induction others with
  | nil => exact fun a => le_refl a
  | cons o os ih =>
      intro a
      refine le_trans ?_ (ih _)
      show a ≤ if 2 ≤ o.numLevels then
        a + (o.levelsF o.numLevels - o.levelsF 1) else a
      by_cases h : 2 ≤ o.numLevels
      · rw [if_pos h]
        omega
      · rw [if_neg h]

/-- If `tmpNumItems` ends at its starting value, no multi-level peer holds
any data above level 0. -/
theorem mergeTmp_eq_imp (others : List (KllSketch α)) :
    ∀ a : Nat,
      others.foldl
        (fun m other =>
          if 2 ≤ other.numLevels then
            m + (other.levelsF other.numLevels - other.levelsF 1)
          else m) a ≤ a →
      ∀ o ∈ others, 2 ≤ o.numLevels →
        o.levelsF o.numLevels - o.levelsF 1 = 0 := by
  induction others with
  | nil => intro a _ o ho; exact absurd ho (List.not_mem_nil o)
  | cons p os ih =>
      intro a hle o ho h2
      have hstep : a ≤ (if 2 ≤ p.numLevels then
          a + (p.levelsF p.numLevels - p.levelsF 1) else a) := by
        by_cases h : 2 ≤ p.numLevels
        · rw [if_pos h]; omega
        · rw [if_neg h]
      have htail := mergeTmp_ge os
        (if 2 ≤ p.numLevels then
          a + (p.levelsF p.numLevels - p.levelsF 1) else a)
      have hfold : (p :: os).foldl
          (fun m other =>
            if 2 ≤ other.numLevels then
              m + (other.levelsF other.numLevels - other.levelsF 1)
            else m) a =
          os.foldl
            (fun m other =>
              if 2 ≤ other.numLevels then
                m + (other.levelsF other.numLevels - other.levelsF 1)
              else m)
            (if 2 ≤ p.numLevels then
              a + (p.levelsF p.numLevels - p.levelsF 1) else a) := rfl
      rw [hfold] at hle
      rcases List.mem_cons.mp ho with he | hm
      · subst he
        rw [if_pos h2] at hstep htail hle
        omega
      · exact ih (if 2 ≤ p.numLevels then
            a + (p.levelsF p.numLevels - p.levelsF 1) else a)
          (by omega) o hm h2

/-- `provisionalNumLevels` never falls below its starting value. -/
theorem mergeProv_ge (others : List (KllSketch α)) :
    ∀ a : Nat,
      a ≤ others.foldl
        (fun m other =>
          if 2 ≤ other.numLevels then max m other.numLevels else m) a := by
  induction others with
  | nil => exact fun a => le_refl a
  | cons o os ih =>
      intro a
      refine le_trans ?_ (ih _)
      show a ≤ if 2 ≤ o.numLevels then max a o.numLevels else a
      by_cases h : 2 ≤ o.numLevels
      · rw [if_pos h]
        exact le_max_left _ _
      · rw [if_neg h]

/-- `provisionalNumLevels` dominates the level count of every peer. -/
theorem mergeProv_ge_peer (others : List (KllSketch α)) :
    ∀ a : Nat, ∀ o ∈ others,
      o.numLevels ≤ max 1 (others.foldl
        (fun m other =>
          if 2 ≤ other.numLevels then max m other.numLevels else m) a) ∨
      o.numLevels ≤ 1 := by
  induction others with
  | nil => intro a o ho; exact absurd ho (List.not_mem_nil o)
  | cons p os ih =>
      intro a o ho
      have hfold : (p :: os).foldl
          (fun m other =>
            if 2 ≤ other.numLevels then max m other.numLevels else m) a =
          os.foldl
            (fun m other =>
              if 2 ≤ other.numLevels then max m other.numLevels else m)
            (if 2 ≤ p.numLevels then max a p.numLevels else a) := rfl
      rcases List.mem_cons.mp ho with he | hm
      · subst he
        by_cases h2 : 2 ≤ o.numLevels
        · left
          rw [hfold, if_pos h2]
          have := mergeProv_ge os (max a o.numLevels)
          have h1 : o.numLevels ≤ max a o.numLevels := le_max_right _ _
          omega
        · right
          omega
      · rcases ih (if 2 ≤ p.numLevels then max a p.numLevels else a) o hm
          with h | h
        · left
          rw [hfold]
          exact h
        · right
          exact h

theorem foldl_merge_length (le : α → α → Bool) (rs : List (List α)) :
    ∀ a : List α,
      (rs.foldl (fun acc r => acc.merge r le) a).length =
        a.length + (rs.map List.length).sum := by
  induction rs with
  | nil => exact fun a => rfl
  | cons r rs ih =>
      intro a
      have e : ((r :: rs).foldl (fun acc r => acc.merge r le) a) =
          rs.foldl (fun acc r => acc.merge r le) (a.merge r le) := rfl
      rw [e, ih (a.merge r le), List.length_merge, List.map_cons,
        List.sum_cons]
      omega

/-- A merged level holds as many items as the levels it merges. -/
theorem mergedLevel_length (cmp : α → α → Bool) (s2 : KllSketch α)
    (others : List (KllSketch α)) (lvl : Nat) :
    (mergedLevel cmp s2 others lvl).length =
      s2.safeLevelSize lvl +
        (others.map fun o => o.safeLevelSize lvl).sum := by
  unfold mergedLevel
  rw [foldl_merge_length]
  rw [seg_length, List.map_map]
  congr 1
  apply congrArg
  apply List.map_congr_left
  intro o _
  show (seg o.itemsF (o.levelsF lvl) (o.safeLevelSize lvl)).length = _
  rw [seg_length]

theorem workLevelsGo_succ (cmp : α → α → Bool) (s2 : KllSketch α)
    (others : List (KllSketch α)) (l : Nat) :
    workLevelsGo cmp s2 others (l + 2) =
      workLevelsGo cmp s2 others (l + 1) +
        (mergedLevel cmp s2 others (l + 1)).length := rfl

theorem workLevelsGo_mono (cmp : α → α → Bool) (s2 : KllSketch α)
    (others : List (KllSketch α)) :
    ∀ l, workLevelsGo cmp s2 others l ≤ workLevelsGo cmp s2 others (l + 1)
  | 0 => Nat.zero_le _
  | l + 1 => Nat.le_add_right _ _

/-- The written `worklevels` prefix is monotone. -/
theorem workLevels_mono (cmp : α → α → Bool) (s2 : KllSketch α)
    (others : List (KllSketch α)) (prov : Nat) :
    ∀ i, i < prov →
      workLevels cmp s2 others prov i ≤
        workLevels cmp s2 others prov (i + 1) := by
  intro i hi
  unfold workLevels
  rw [if_pos (by omega), if_pos (by omega)]
  exact workLevelsGo_mono cmp s2 others i

/-- The weight of one peer's levels above level 0, read off its safe level
sizes. -/
theorem peer_upper_weight (o : KllSketch α) (P : Nat) (hP1 : 1 ≤ P)
    (hP : 2 ≤ o.numLevels → o.numLevels ≤ P) :
    detail.wsum (fun l => o.safeLevelSize l) 1 P =
      detail.weightRange o.levelsF 1 o.numLevels := by
  by_cases h1 : o.numLevels ≤ 1
  · rw [detail.wsum_extend _ (le_refl 1) hP1 ?_]
    · rw [detail.wsum_empty _ (le_refl 1),
        detail.weightRange_empty _ h1]
    · intro l hl _
      unfold safeLevelSize
      rw [if_neg (by omega)]
  · have hle : o.numLevels ≤ P := hP (by omega)
    rw [detail.wsum_extend _ (by omega : 1 ≤ o.numLevels) hle ?_]
    · rw [detail.weightRange_eq_wsum]
      apply detail.wsum_congr
      intro l h1l hl
      unfold safeLevelSize
      rw [if_pos hl]
      rfl
    · intro l hl _
      unfold safeLevelSize
      rw [if_neg (by omega)]

/-- The weight carried by the `worklevels` boundaries equals this sketch's
weight plus every peer's weight above level 0. -/
theorem workLevels_weight (cmp : α → α → Bool) (s2 : KllSketch α)
    (others : List (KllSketch α)) (P : Nat) (hP2 : s2.numLevels ≤ P)
    (h1 : 1 ≤ s2.numLevels)
    (hPo : ∀ o ∈ others, 2 ≤ o.numLevels → o.numLevels ≤ P) :
    detail.weightRange (workLevels cmp s2 others P) 0 P =
      detail.weightRange s2.levelsF 0 s2.numLevels +
        (others.map fun o =>
          detail.weightRange o.levelsF 1 o.numLevels).sum := by
  have hP1 : 1 ≤ P := le_trans h1 hP2
  rw [detail.weightRange_eq_wsum]
  rw [detail.wsum_congr 0 P (?_ :
    ∀ l, 0 ≤ l → l < P →
      (workLevels cmp s2 others P (l + 1) -
        workLevels cmp s2 others P l) =
      s2.safeLevelSize l +
        (if l = 0 then 0
          else (others.map fun o => o.safeLevelSize l).sum))]
  · rw [detail.wsum_add]
    congr 1
    · rw [detail.wsum_extend (fun l => s2.safeLevelSize l) (Nat.zero_le _)
        hP2 ?_]
      · rw [detail.weightRange_eq_wsum]
        apply detail.wsum_congr
        intro l _ hl
        unfold safeLevelSize
        rw [if_pos hl]
        rfl
      · intro l hl _
        simp only [safeLevelSize]
        rw [if_neg (by omega)]
    · rw [detail.wsum_succ_left _ hP1, if_pos rfl]
      rw [detail.wsum_congr 1 P (?_ :
        ∀ l, 1 ≤ l → l < P →
          (if l = 0 then 0
            else (others.map fun o => o.safeLevelSize l).sum) =
          (others.map fun o => o.safeLevelSize l).sum)]
      · rw [detail.wsum_list others (fun o l => o.safeLevelSize l) 1 P]
        rw [List.map_congr_left fun o ho =>
          peer_upper_weight o P hP1 (hPo o ho)]
        omega
      · intro l hl _
        rw [if_neg (by omega)]
  · intro l _ hlP
    rcases Nat.eq_or_lt_of_le (Nat.zero_le l) with h0 | h0
    · rw [← h0, if_pos rfl]
      show workLevels cmp s2 others P 1 - workLevels cmp s2 others P 0 = _
      unfold workLevels
      rw [if_pos (by omega), if_pos (by omega)]
      show workLevelsGo cmp s2 others 1 - workLevelsGo cmp s2 others 0 =
        s2.safeLevelSize 0 + 0
      show s2.safeLevelSize 0 - 0 = s2.safeLevelSize 0 + 0
      omega
    · rw [if_neg (by omega)]
      unfold workLevels
      rw [if_pos (by omega), if_pos (by omega)]
      obtain ⟨m, hm⟩ : ∃ m, l = m + 1 := ⟨l - 1, by omega⟩
      rw [hm, workLevelsGo_succ, mergedLevel_length]
      omega

/-- The higher-level branch of `merge` maintains the invariant and
installs the combined count, provided the peers' level counts are covered
by `provisionalNumLevels` and the combined count matches the data. -/
theorem mergeCompressed_facts (cmp : α → α → Bool) (s2 : KllSketch α)
    (others : List (KllSketch α)) (newN : Nat) (hI2 : Inv s2)
    (hPo : ∀ o ∈ others, 2 ≤ o.numLevels →
      o.numLevels ≤ mergeProvNumLevels s2 others)
    (hw : newN = s2.n + (others.map fun o =>
      detail.weightRange o.levelsF 1 o.numLevels).sum) :
    Inv (mergeCompressed cmp s2 others newN) ∧
      (mergeCompressed cmp s2 others newN).n = newN ∧
      (mergeCompressed cmp s2 others newN).k = s2.k := by
  have h1 : 1 ≤ s2.numLevels := by
    have := hI2.len2
    show 1 ≤ s2.levels.length - 1
    omega
  set P := mergeProvNumLevels s2 others with hP
  have hP2 : s2.numLevels ≤ P := mergeProv_ge others s2.numLevels
  set co := detail.generalCompress s2.k cmp P
    (workBuf cmp s2 others P) (workLevels cmp s2 others P) (fun _ => 0)
    s2.isLevelZeroSorted s2.randomBit with hco
  obtain ⟨o0, omono, ospan, ofit, onl, ocap, owr⟩ :=
    detail.generalCompress_facts s2.k cmp P (workBuf cmp s2 others P)
      (workLevels cmp s2 others P) (fun _ => 0) s2.isLevelZeroSorted
      s2.randomBit (workLevels_mono cmp s2 others P)
  rw [← hco] at o0 omono ospan ofit onl ocap owr
  set fin := co.result.finalNumLevels with hfin
  set FNI := co.result.finalNumItems with hFNI
  set FC := co.result.finalCapacity with hFC
  have e : mergeCompressed cmp s2 others newN =
      { s2 with
        items := (List.range FC).map
          (writeSeg
            (fun i => ((s2.items ++
              List.replicate (FC - s2.items.length) default).take FC).getD
                i default)
            (FC - FNI) (seg co.items (co.outLevels 0) FNI))
        levels := (List.range (fin + 1)).map
          fun lvl => co.outLevels lvl + ((FC - FNI) - co.outLevels 0)
        randomBit := co.randomBit
        n := newN } := rfl
  have hofin : co.outLevels fin = FNI := by
    rw [o0] at ospan
    omega
  have efin1 : 1 ≤ fin := le_trans (le_trans h1 hP2) onl
  have hlen : (mergeCompressed cmp s2 others newN).levels.length =
      fin + 1 := by
    rw [e]
    show ((List.range (fin + 1)).map _).length = fin + 1
    simp
  have hnl : (mergeCompressed cmp s2 others newN).numLevels = fin := by
    show (mergeCompressed cmp s2 others newN).levels.length - 1 = fin
    rw [hlen]
    omega
  have hlf : ∀ i, i ≤ fin →
      (mergeCompressed cmp s2 others newN).levelsF i =
        co.outLevels i + ((FC - FNI) - co.outLevels 0) := by
    intro i hi
    show (mergeCompressed cmp s2 others newN).levels.getD i 0 = _
    rw [e]
    exact getD_range_map 0 (by omega)
  have hilen : (mergeCompressed cmp s2 others newN).items.length = FC := by
    rw [e]
    show ((List.range FC).map _).length = FC
    simp
  refine ⟨⟨?_, ?_, ?_, ?_, ?_, ?_⟩, ?_, ?_⟩
  · show (mergeCompressed cmp s2 others newN).k ≥ 8
    rw [e]
    exact hI2.klb
  · rw [hlen]
    omega
  · intro i hi
    rw [hnl] at hi
    rw [hlf i (by omega), hlf (i + 1) (by omega)]
    have := omono i hi
    omega
  · rw [hnl, hlf fin (le_refl fin), hilen, hofin, o0]
    omega
  · rw [hilen, hnl]
    show FC = detail.computeTotalCapacity
      (mergeCompressed cmp s2 others newN).k fin
    rw [e]
    exact ocap
  · show detail.weightRange (mergeCompressed cmp s2 others newN).levelsF 0
      (mergeCompressed cmp s2 others newN).numLevels =
      (mergeCompressed cmp s2 others newN).n
    rw [hnl]
    rw [detail.weightRange_shift ((FC - FNI) - co.outLevels 0)
      fun i h1i h2i => hlf i h2i]
    rw [owr]
    rw [workLevels_weight cmp s2 others P hP2 h1 hPo]
    have hn' : (mergeCompressed cmp s2 others newN).n = newN := by rw [e]
    rw [hn', hw]
    have hwgt := hI2.wgt
    rw [show s2.weight =
      detail.weightRange s2.levelsF 0 s2.numLevels from rfl] at hwgt
    rw [hwgt]
  · rw [e]
  · rw [e]

/-- Per-peer split of the count into level-0 population and the weight
above level 0. -/
theorem peer_n_split (o : KllSketch α) (hIo : Inv o) :
    o.n = (o.levelsF 1 - o.levelsF 0) +
      detail.weightRange o.levelsF 1 o.numLevels := by
  have hnl1 : 1 ≤ o.numLevels := by
    have := hIo.len2
    show 1 ≤ o.levels.length - 1
    omega
  have hw := hIo.wgt
  rw [show o.weight = detail.weightRange o.levelsF 0 o.numLevels
    from rfl] at hw
  rw [← hw, detail.weightRange_succ_left _ (by omega : 0 < o.numLevels)]
  have e01 : detail.weightRange o.levelsF (0 + 1) o.numLevels =
      detail.weightRange o.levelsF 1 o.numLevels := rfl
  have e01b : o.levelsF (0 + 1) = o.levelsF 1 := rfl
  rw [e01, e01b]
  simp only [pow_zero, one_mul]

/-- A peer with no data above level 0 has zero weight above level 0. -/
theorem peer_upper_zero (o : KllSketch α) (hIo : Inv o)
    (h0 : 2 ≤ o.numLevels → o.levelsF o.numLevels - o.levelsF 1 = 0) :
    detail.weightRange o.levelsF 1 o.numLevels = 0 := by
  by_cases h2 : 2 ≤ o.numLevels
  · have hsp := h0 h2
    have hchain := detail.monoChain o.levelsF 0 o.numLevels
      (fun i h1 h2 => hIo.mono i h2)
    rw [detail.weightRange_eq_wsum]
    apply detail.wsum_zero
    intro l h1l hl
    have ha : o.levelsF 1 ≤ o.levelsF l :=
      hchain 1 l (by omega) (by omega) (by omega)
    have hb : o.levelsF l ≤ o.levelsF (l + 1) :=
      hchain l (l + 1) (by omega) (by omega) (by omega)
    have hc : o.levelsF (l + 1) ≤ o.levelsF o.numLevels :=
      hchain (l + 1) o.numLevels (by omega) (by omega) (by omega)
    omega
  · exact detail.weightRange_empty _ (by omega)

/-- `merge(others)` with invariant-satisfying peers maintains the invariant,
keeps `k`, and sets `n` to the combined count. -/
theorem merge_inv (cmp : α → α → Bool) (s : KllSketch α)
    (others : List (KllSketch α)) (hI : Inv s)
    (hO : ∀ p ∈ others, Inv p) :
    Inv (merge cmp s others) ∧ (merge cmp s others).k = s.k ∧
      (merge cmp s others).n = s.n +
        (others.map fun o => o.n).sum := by
  set acc := mergeAcc cmp s others with hacc
  set s1 : KllSketch α :=
    { s with minValue := acc.2.1, maxValue := acc.2.2 } with hs1
  set s2 := mergeBottom cmp s1 others with hs2
  have emerge : merge cmp s others =
      (if acc.1 = s.n then s
       else if s2.getNumRetained < mergeTmpNumItems s2 others then
         mergeCompressed cmp s2 others acc.1
       else { s2 with n := acc.1 }) := rfl
  have haccn : acc.1 = s.n + (others.map fun o => o.n).sum :=
    mergeAcc_n cmp s others
  by_cases hnn : acc.1 = s.n
  · rw [emerge, if_pos hnn]
    refine ⟨hI, rfl, ?_⟩
    omega
  · have hI1 : Inv s1 :=
      ⟨hI.klb, hI.len2, hI.mono, hI.last, hI.cap, hI.wgt⟩
    obtain ⟨hI2, hN2, hK2⟩ := mergeBottom_facts cmp others s1 hI1
    rw [← hs2] at hI2 hN2 hK2
    have hs1n : s1.n = s.n := rfl
    have hs1k : s1.k = s.k := rfl
    have hsum : (others.map fun o => o.n).sum =
        (others.map fun o => o.levelsF 1 - o.levelsF 0).sum +
          (others.map fun o =>
            detail.weightRange o.levelsF 1 o.numLevels).sum := by
      rw [← detail.sum_map_add others (fun o => o.levelsF 1 - o.levelsF 0)
        (fun o => detail.weightRange o.levelsF 1 o.numLevels)]
      apply congrArg
      apply List.map_congr_left
      intro o ho
      exact peer_n_split o (hO o ho)
    have hn2' : acc.1 = s2.n + (others.map fun o =>
        detail.weightRange o.levelsF 1 o.numLevels).sum := by
      rw [haccn, hN2, hs1n, hsum]
      omega
    rw [emerge, if_neg hnn]
    by_cases hbig : s2.getNumRetained < mergeTmpNumItems s2 others
    · rw [if_pos hbig]
      have hPo : ∀ o ∈ others, 2 ≤ o.numLevels →
          o.numLevels ≤ mergeProvNumLevels s2 others := by
        intro o ho h2
        rcases mergeProv_ge_peer others s2.numLevels o ho with h | h
        · have hge := mergeProv_ge others s2.numLevels
          have h1 : 1 ≤ s2.numLevels := by
            have := hI2.len2
            show 1 ≤ s2.levels.length - 1
            omega
          show o.numLevels ≤ mergeProvNumLevels s2 others
          unfold mergeProvNumLevels
          omega
        · omega
      obtain ⟨hIc, hNc, hKc⟩ :=
        mergeCompressed_facts cmp s2 others acc.1 hI2 hPo hn2'
      refine ⟨hIc, ?_, ?_⟩
      · rw [hKc, hK2, hs1k]
      · rw [hNc, haccn]
    · rw [if_neg hbig]
      have hzero : ∀ o ∈ others, 2 ≤ o.numLevels →
          o.levelsF o.numLevels - o.levelsF 1 = 0 := by
        apply mergeTmp_eq_imp others s2.getNumRetained
        show mergeTmpNumItems s2 others ≤ s2.getNumRetained
        omega
      have hupper : (others.map fun o =>
          detail.weightRange o.levelsF 1 o.numLevels).sum = 0 := by
        apply List.sum_eq_zero
        intro x hx
        rw [List.mem_map] at hx
        obtain ⟨o, ho, he⟩ := hx
        rw [← he]
        exact peer_upper_zero o (hO o ho) (hzero o ho)
      refine ⟨⟨hI2.klb, hI2.len2, hI2.mono, ?_, ?_, ?_⟩, ?_, ?_⟩
      · show s2.levelsF s2.numLevels = s2.items.length
        exact hI2.last
      · show s2.items.length =
          detail.computeTotalCapacity s2.k s2.numLevels
        exact hI2.cap
      · show detail.weightRange s2.levelsF 0 s2.numLevels = acc.1
        have hwgt := hI2.wgt
        rw [show s2.weight =
          detail.weightRange s2.levelsF 0 s2.numLevels from rfl] at hwgt
        rw [hwgt, hn2', hupper]
        omega
      · show s2.k = s.k
        rw [hK2, hs1k]
      · show acc.1 = s.n + (others.map fun o => o.n).sum
        exact haccn

/-- The states reachable through the public mutating interface: a freshly
constructed sketch, an `insert`, or a `merge` with peers that themselves
satisfy the structural invariant. -/
inductive Reach (cmp : α → α → Bool) : KllSketch α → Prop where
  | init (k seed : Nat) (hk : 8 ≤ k) : Reach cmp (init k seed)
  | insert (s : KllSketch α) (v : α) : Reach cmp s →
      Reach cmp (insert cmp s v)
  | merge (s : KllSketch α) (others : List (KllSketch α)) : Reach cmp s →
      (∀ p ∈ others, Inv p) → Reach cmp (merge cmp s others)

/-- Every state reachable through the public mutating interface satisfies
the structural invariant. -/
theorem reach_inv (cmp : α → α → Bool) (s : KllSketch α)
    (h : Reach cmp s) : Inv s := by
  induction h with
  | init k seed hk => exact inv_init k seed hk
  | insert t v ht ih => exact (insert_inv cmp t v ih).1
  | merge t os ht hos ih => exact (merge_inv cmp t os ih hos).1

end KllSketch

/-- The failures `estimateQuantiles` can raise: `VELOX_USER_CHECK_GT(n_, 0)`
and the per-fraction checks `VELOX_CHECK_GE(q, 0.0)` /
`VELOX_CHECK_LE(q, 1.0)`. -/
inductive KllError where
  | EmptySketch
  | InvalidFraction
deriving DecidableEq

namespace KllSketch

variable [Inhabited α]

/-- The weight-rewriting loop of `estimateQuantiles`: replace each entry's
weight by the total weight of the entries strictly before it. -/
def cumWeights : List (α × Nat) → Nat → List (α × Nat)
  | [], _ => []
  | (x, w) :: rest, acc => (x, acc) :: cumWeights rest (acc + w)

/-- `std::lower_bound` over the entries ordered by weight: the first entry
whose weight is not less than `mw`, if any. -/
def lowerBoundW : List (α × Nat) → Nat → Option α
  | [], _ => none
  | (x, w) :: rest, mw => if mw ≤ w then some x else lowerBoundW rest mw

/-- The merged `(item, weight)` entry list built by `estimateQuantiles`:
each level contributes its items with weight `1 << level`, and every level
is merged into the accumulated entries by `std::inplace_merge` on the item
component (a stable merge, which also covers the code's skip of the merge
when the accumulated list is empty). -/
def quantileEntries (cmp : α → α → Bool) (s : KllSketch α) :
    List (α × Nat) :=
  (List.range s.numLevels).foldl
    (fun acc lvl =>
      acc.merge
        ((seg s.itemsF (s.levelsF lvl)
          (s.levelsF (lvl + 1) - s.levelsF lvl)).map fun x => (x, 2 ^ lvl))
        fun x y => ! cmp y.1 x.1)
    []

/-- The answer computed for one in-range fraction `q` by
`estimateQuantiles`: `q == 0` yields the minimum, `q == 1` the maximum,
otherwise the entry found by `std::lower_bound` on the cumulative weights
(the last entry when the search falls off the end).  `maxWeight` is the
`uint64_t` truncation of `q * totalWeight`. -/
def quantileAnswer (s : KllSketch α) (entries : List (α × Nat)) (q : ℚ) :
    α :=
  if q = 0 then s.minValue
  else if q = 1 then s.maxValue
  else
    let totalWeight := (entries.map fun e => e.2).sum
    let maxWeight := (⌊q * (totalWeight : ℚ)⌋).toNat
    match lowerBoundW (cumWeights entries 0) maxWeight with
    | some x => x
    | none => ((cumWeights entries 0).getLast?.getD (default, 0)).1

/-- The per-fraction loop of `estimateQuantiles`: each fraction is checked
to be in `[0, 1]` (`VELOX_CHECK_GE` / `VELOX_CHECK_LE`) before its answer
is produced. -/
def quantileLoop (s : KllSketch α) (entries : List (α × Nat)) :
    List ℚ → Except KllError (List α)
  | [] => .ok []
  | q :: qs =>
      if q < 0 ∨ 1 < q then .error .InvalidFraction
      else do
        let rest ← quantileLoop s entries qs
        .ok (quantileAnswer s entries q :: rest)

/-- `estimateQuantiles(fractions)`: fail on an empty sketch, sort level 0
in place if needed (marking it sorted), then answer each fraction from the
merged weighted entries.  `std::sort` of level 0 is modelled by a merge
sort under the comparator; the mutated sketch is returned alongside the
answers. -/
def estimateQuantiles (cmp : α → α → Bool) (s : KllSketch α)
    (fractions : List ℚ) :
    KllSketch α × Except KllError (List α) :=
  if s.n = 0 then (s, .error .EmptySketch)
  else
    let s1 := if s.isLevelZeroSorted then s
      else
        { s with
          items := (List.range s.items.length).map
            (writeSeg s.itemsF (s.levelsF 0)
              ((seg s.itemsF (s.levelsF 0)
                (s.levelsF 1 - s.levelsF 0)).mergeSort
                fun x y => ! cmp y x))
          isLevelZeroSorted := true }
    (s1, quantileLoop s1 (quantileEntries cmp s1) fractions)

/-- `estimateQuantile(fraction)`: `estimateQuantiles` on the singleton
range. -/
def estimateQuantile (cmp : α → α → Bool) (s : KllSketch α) (fraction : ℚ) :
    KllSketch α × Except KllError α :=
  let r := estimateQuantiles cmp s [fraction]
  (r.1, r.2.map fun l => l.getD 0 default)

/-- The per-fraction loop answers every fraction when all fractions are in
range. -/
theorem quantileLoop_ok (s : KllSketch α) (entries : List (α × Nat)) :
    ∀ fr : List ℚ, (∀ q ∈ fr, 0 ≤ q ∧ q ≤ 1) →
      quantileLoop s entries fr = .ok (fr.map (quantileAnswer s entries)) := by
  intro fr
  induction fr with
  | nil => exact fun _ => rfl
  | cons q qs ih =>
      intro hgood
      have e : quantileLoop s entries (q :: qs) =
          (if q < 0 ∨ 1 < q then .error .InvalidFraction
           else (quantileLoop s entries qs).bind fun rest =>
             .ok (quantileAnswer s entries q :: rest)) := rfl
      obtain ⟨h1, h2⟩ := hgood q (List.mem_cons_self q qs)
      rw [e, if_neg (by push_neg; constructor <;> [exact h1; exact h2]),
        ih fun p hp => hgood p (List.mem_cons_of_mem q hp)]
      rfl

/-- The per-fraction loop raises `InvalidFraction` when some fraction is
out of range. -/
theorem quantileLoop_bad (s : KllSketch α) (entries : List (α × Nat)) :
    ∀ fr : List ℚ, (∃ q ∈ fr, q < 0 ∨ 1 < q) →
      quantileLoop s entries fr = .error .InvalidFraction := by
  intro fr
  induction fr with
  | nil => rintro ⟨q, hq, -⟩; exact absurd hq (List.not_mem_nil q)
  | cons q qs ih =>
      rintro ⟨p, hp, hbad⟩
      have e : quantileLoop s entries (q :: qs) =
          (if q < 0 ∨ 1 < q then .error .InvalidFraction
           else (quantileLoop s entries qs).bind fun rest =>
             .ok (quantileAnswer s entries q :: rest)) := rfl
      rw [e]
      by_cases hq : q < 0 ∨ 1 < q
      · rw [if_pos hq]
      · rw [if_neg hq]
        rcases List.mem_cons.mp hp with he | hm
        · subst he
          exact absurd hbad hq
        · rw [ih ⟨p, hm, hbad⟩]
          rfl

/-- An empty sketch makes `estimateQuantiles` fail with `EmptySketch` and
leave the state untouched. -/
theorem estimateQuantiles_empty (cmp : α → α → Bool) (s : KllSketch α)
    (fr : List ℚ) (h : s.n = 0) :
    estimateQuantiles cmp s fr = (s, .error .EmptySketch) := by
  unfold estimateQuantiles
  rw [if_pos h]

/-- On a non-empty sketch, `estimateQuantiles` returns the sketch with
level 0 sorted and the result of the per-fraction loop. -/
theorem estimateQuantiles_nonempty (cmp : α → α → Bool) (s : KllSketch α)
    (fr : List ℚ) (h : ¬ s.n = 0) :
    (estimateQuantiles cmp s fr).1 =
        (if s.isLevelZeroSorted then s
         else
           { s with
             items := (List.range s.items.length).map
               (writeSeg s.itemsF (s.levelsF 0)
                 ((seg s.itemsF (s.levelsF 0)
                   (s.levelsF 1 - s.levelsF 0)).mergeSort
                   fun x y => ! cmp y x))
             isLevelZeroSorted := true }) ∧
      (estimateQuantiles cmp s fr).2 =
        quantileLoop (estimateQuantiles cmp s fr).1
          (quantileEntries cmp (estimateQuantiles cmp s fr).1) fr := by
  simp only [estimateQuantiles]
  rw [if_neg h]
  exact ⟨rfl, rfl⟩

/-- Sorting level 0 in `estimateQuantiles` changes nothing but the order
of the level-0 items and the sorted flag: the count, the extrema, the
boundaries and the buffer size are untouched, every level above 0 keeps
its exact contents, level 0 keeps its contents up to permutation, and the
flag ends up set. -/
theorem estimateQuantiles_frame (cmp : α → α → Bool) (s : KllSketch α)
    (fr : List ℚ) (hI : Inv s) (h : ¬ s.n = 0) :
    (estimateQuantiles cmp s fr).1.n = s.n ∧
      (estimateQuantiles cmp s fr).1.minValue = s.minValue ∧
      (estimateQuantiles cmp s fr).1.maxValue = s.maxValue ∧
      (estimateQuantiles cmp s fr).1.levels = s.levels ∧
      (estimateQuantiles cmp s fr).1.items.length = s.items.length ∧
      (estimateQuantiles cmp s fr).1.isLevelZeroSorted = true ∧
      (∀ lvl, 1 ≤ lvl →
        seg (estimateQuantiles cmp s fr).1.itemsF (s.levelsF lvl)
            (s.levelsF (lvl + 1) - s.levelsF lvl) =
          seg s.itemsF (s.levelsF lvl)
            (s.levelsF (lvl + 1) - s.levelsF lvl)) ∧
      (seg (estimateQuantiles cmp s fr).1.itemsF (s.levelsF 0)
          (s.levelsF 1 - s.levelsF 0)).Perm
        (seg s.itemsF (s.levelsF 0) (s.levelsF 1 - s.levelsF 0)) := by
  obtain ⟨e1, -⟩ := estimateQuantiles_nonempty cmp s fr h
  have hnl1 : 1 ≤ s.numLevels := by
    have := hI.len2
    show 1 ≤ s.levels.length - 1
    omega
  have hchain := detail.monoChain s.levelsF 0 s.numLevels
    (fun i h1 h2 => hI.mono i h2)
  have hlast := hI.last
  by_cases hf : s.isLevelZeroSorted
  · rw [if_pos hf] at e1
    rw [e1]
    exact ⟨rfl, rfl, rfl, rfl, rfl, hf, fun lvl _ => rfl, List.Perm.refl _⟩
  · rw [if_neg hf] at e1
    set L := ((seg s.itemsF (s.levelsF 0)
      (s.levelsF 1 - s.levelsF 0)).mergeSort fun x y => ! cmp y x) with hL
    have hLlen : L.length = s.levelsF 1 - s.levelsF 0 := by
      rw [hL, List.length_mergeSort, seg_length]
    have h01 : s.levelsF 0 ≤ s.levelsF 1 :=
      hchain 0 1 (le_refl 0) (by omega) (by omega)
    have h1len : s.levelsF 1 ≤ s.items.length := by
      rw [← hlast]
      exact hchain 1 s.numLevels (by omega) (by omega) (le_refl _)
    have hitems : (estimateQuantiles cmp s fr).1.items =
        (List.range s.items.length).map
          (writeSeg s.itemsF (s.levelsF 0) L) := by
      rw [e1]
    have hfitem : ∀ i, i < s.items.length →
        (estimateQuantiles cmp s fr).1.itemsF i =
          writeSeg s.itemsF (s.levelsF 0) L i := by
      intro i hi
      show (estimateQuantiles cmp s fr).1.items.getD i default = _
      rw [hitems]
      exact getD_range_map default hi
    refine ⟨by rw [e1], by rw [e1], by rw [e1], by rw [e1],
      by rw [hitems]; simp, by rw [e1], ?_, ?_⟩
    · intro lvl hlvl
      rcases Nat.lt_or_ge lvl s.numLevels with hin | hout
      · have hup : s.levelsF (lvl + 1) ≤ s.items.length := by
          rw [← hlast]
          exact hchain (lvl + 1) s.numLevels (by omega) (by omega)
            (le_refl _)
        have hlo : s.levelsF 1 ≤ s.levelsF lvl :=
          hchain 1 lvl (by omega) hlvl (by omega)
        apply seg_congr
        intro j hj1 hj2
        rw [hfitem j (by omega)]
        apply writeSeg_out
        right
        rw [hLlen]
        omega
      · have hz : s.levelsF (lvl + 1) - s.levelsF lvl = 0 := by
          have : s.levelsF (lvl + 1) = 0 := by
            show s.levels.getD (lvl + 1) 0 = 0
            apply getD_oob
            have := hI.len2
            show s.levels.length ≤ lvl + 1
            have : s.numLevels = s.levels.length - 1 := rfl
            omega
          omega
        rw [hz, seg_zero, seg_zero]
    · have e0 : seg (estimateQuantiles cmp s fr).1.itemsF (s.levelsF 0)
          (s.levelsF 1 - s.levelsF 0) = L := by
        rw [show s.levelsF 1 - s.levelsF 0 = L.length from hLlen.symm]
        rw [seg_congr fun j hj1 hj2 =>
          hfitem j (by rw [hLlen] at hj2; omega)]
        exact seg_writeSeg s.itemsF (s.levelsF 0) L
      rw [e0, hL]
      exact List.mergeSort_perm _ _

/-- Sorting level 0 does not change the extrema. -/
theorem estimateQuantiles_minmax (cmp : α → α → Bool) (s : KllSketch α)
    (fr : List ℚ) (h : ¬ s.n = 0) :
    (estimateQuantiles cmp s fr).1.minValue = s.minValue ∧
      (estimateQuantiles cmp s fr).1.maxValue = s.maxValue := by
  obtain ⟨e1, -⟩ := estimateQuantiles_nonempty cmp s fr h
  by_cases hf : s.isLevelZeroSorted
  · rw [if_pos hf] at e1
    rw [e1]
    exact ⟨rfl, rfl⟩
  · rw [if_neg hf] at e1
    rw [e1]
    exact ⟨rfl, rfl⟩

/-- On a non-empty sketch, `estimateQuantile(0)` answers the stored
minimum. -/
theorem estimateQuantile_zero (cmp : α → α → Bool) (s : KllSketch α)
    (h : ¬ s.n = 0) :
    (estimateQuantile cmp s 0).2 = .ok s.minValue := by
  obtain ⟨-, e2⟩ := estimateQuantiles_nonempty cmp s [(0 : ℚ)] h
  obtain ⟨hmin, -⟩ := estimateQuantiles_minmax cmp s [(0 : ℚ)] h
  show ((estimateQuantiles cmp s [(0 : ℚ)]).2.map fun l => l.getD 0 default)
    = .ok s.minValue
  have hgood : ∀ q ∈ [(0 : ℚ)], 0 ≤ q ∧ q ≤ 1 := by
    intro q hq
    rw [List.mem_singleton] at hq
    subst hq
    norm_num
  rw [e2, quantileLoop_ok _ _ [(0 : ℚ)] hgood]
  show Except.ok (([(0 : ℚ)].map _).getD 0 default) = _
  rw [List.map_cons, List.map_nil]
  show Except.ok (quantileAnswer (estimateQuantiles cmp s [(0 : ℚ)]).1
    (quantileEntries cmp (estimateQuantiles cmp s [(0 : ℚ)]).1) 0) = _
  unfold quantileAnswer
  rw [if_pos rfl, hmin]

/-- On a non-empty sketch, `estimateQuantile(1)` answers the stored
maximum. -/
theorem estimateQuantile_one (cmp : α → α → Bool) (s : KllSketch α)
    (h : ¬ s.n = 0) :
    (estimateQuantile cmp s 1).2 = .ok s.maxValue := by
  obtain ⟨-, e2⟩ := estimateQuantiles_nonempty cmp s [(1 : ℚ)] h
  obtain ⟨-, hmax⟩ := estimateQuantiles_minmax cmp s [(1 : ℚ)] h
  show ((estimateQuantiles cmp s [(1 : ℚ)]).2.map fun l => l.getD 0 default)
    = .ok s.maxValue
  have hgood : ∀ q ∈ [(1 : ℚ)], 0 ≤ q ∧ q ≤ 1 := by
    intro q hq
    rw [List.mem_singleton] at hq
    subst hq
    norm_num
  rw [e2, quantileLoop_ok _ _ [(1 : ℚ)] hgood]
  show Except.ok (([(1 : ℚ)].map _).getD 0 default) = _
  rw [List.map_cons, List.map_nil]
  show Except.ok (quantileAnswer (estimateQuantiles cmp s [(1 : ℚ)]).1
    (quantileEntries cmp (estimateQuantiles cmp s [(1 : ℚ)]).1) 1) = _
  unfold quantileAnswer
  rw [if_neg (by norm_num), if_pos rfl, hmax]

/-- The exact failure behaviour of `estimateQuantiles`: `EmptySketch`
exactly on an empty sketch, `InvalidFraction` exactly on a non-empty
sketch with some out-of-range fraction, success exactly on a non-empty
sketch with all fractions in range. -/
theorem estimateQuantiles_errors (cmp : α → α → Bool) (s : KllSketch α)
    (fr : List ℚ) :
    ((estimateQuantiles cmp s fr).2 = .error .EmptySketch ↔ s.n = 0) ∧
      ((estimateQuantiles cmp s fr).2 = .error .InvalidFraction ↔
        (¬ s.n = 0 ∧ ∃ q ∈ fr, q < 0 ∨ 1 < q)) ∧
      ((∃ l, (estimateQuantiles cmp s fr).2 = .ok l) ↔
        (¬ s.n = 0 ∧ ∀ q ∈ fr, 0 ≤ q ∧ q ≤ 1)) := by
  by_cases h : s.n = 0
  · rw [estimateQuantiles_empty cmp s fr h]
    refine ⟨⟨fun _ => h, fun _ => rfl⟩, ⟨fun hc => ?_, fun hc => ?_⟩,
      ⟨fun hc => ?_, fun hc => ?_⟩⟩
    · exact absurd (Except.error.inj hc) (by intro hx; cases hx)
    · exact absurd h hc.1
    · obtain ⟨l, hl⟩ := hc
      exact absurd hl (by intro hx; cases hx)
    · exact absurd h hc.1
  · obtain ⟨-, e2⟩ := estimateQuantiles_nonempty cmp s fr h
    by_cases hall : ∀ q ∈ fr, 0 ≤ q ∧ q ≤ 1
    · rw [e2, quantileLoop_ok _ _ fr hall]
      refine ⟨⟨fun hc => ?_, fun hc => absurd hc h⟩,
        ⟨fun hc => ?_, fun hc => ?_⟩, ⟨fun _ => ⟨h, hall⟩, fun _ =>
          ⟨fr.map (quantileAnswer _ _), rfl⟩⟩⟩
      · exact absurd hc (by intro hx; cases hx)
      · exact absurd hc (by intro hx; cases hx)
      · obtain ⟨q, hq, hbad⟩ := hc.2
        obtain ⟨h1, h2⟩ := hall q hq
        rcases hbad with hb | hb
        · exact absurd h1 (by intro h1; exact absurd hb (by
            push_neg
            exact h1))
        · exact absurd h2 (by intro h2; exact absurd hb (by
            push_neg
            exact h2))
    · have hex : ∃ q ∈ fr, q < 0 ∨ 1 < q := by
        push_neg at hall
        obtain ⟨q, hq, hbad⟩ := hall
        refine ⟨q, hq, ?_⟩
        by_cases h1 : 0 ≤ q
        · right
          exact hbad h1
        · left
          push_neg at h1
          exact h1
      rw [e2, quantileLoop_bad _ _ fr hex]
      refine ⟨⟨fun hc => ?_, fun hc => absurd hc h⟩,
        ⟨fun _ => ⟨h, hex⟩, fun _ => rfl⟩, ⟨fun hc => ?_, fun hc => ?_⟩⟩
      · exact absurd (Except.error.inj hc) (by intro hx; cases hx)
      · obtain ⟨l, hl⟩ := hc
        exact absurd hl (by intro hx; cases hx)
      · exact absurd hall (by intro hall; exact hall hc.2)

/-- Skipped peers leave the head accumulation of `merge` untouched. -/
theorem mergeAccStep_skip (cmp : α → α → Bool)
    (others : List (KllSketch α)) (h : ∀ p ∈ others, p.n = 0) :
    ∀ a : Nat × α × α, others.foldl (mergeAccStep cmp) a = a := by
  induction others with
  | nil => exact fun a => rfl
  | cons o os ih =>
      intro a
      have e : (o :: os).foldl (mergeAccStep cmp) a =
          os.foldl (mergeAccStep cmp) (mergeAccStep cmp a o) := rfl
      have h0 : o.n = 0 := h o (List.mem_cons_self o os)
      have estep : mergeAccStep cmp a o = a := by
        unfold mergeAccStep
        rw [if_pos h0]
      rw [e, estep]
      exact ih (fun p hp => h p (List.mem_cons_of_mem o hp)) a

/-- `merge` on a combined count equal to the current one returns without
touching anything. -/
theorem merge_noop (cmp : α → α → Bool) (s : KllSketch α)
    (others : List (KllSketch α)) (h : (mergeAcc cmp s others).1 = s.n) :
    merge cmp s others = s := by
  simp only [merge]
  rw [if_pos h]

/-- None of the compaction steps touches the extrema. -/
theorem insertPositionCompact_minmax (cmp : α → α → Bool)
    (s : KllSketch α) :
    (insertPositionCompact cmp s).minValue = s.minValue ∧
      (insertPositionCompact cmp s).maxValue = s.maxValue := by
  have e : insertPositionCompact cmp s =
      (if s.findLevelToCompact = s.numLevels - 1 then
        compactLevel cmp s.findLevelToCompact
          s.addEmptyTopLevelToCompletelyFullSketch
      else compactLevel cmp s.findLevelToCompact s) := rfl
  rw [e]
  by_cases htop : s.findLevelToCompact = s.numLevels - 1
  · rw [if_pos htop]
    exact ⟨rfl, rfl⟩
  · rw [if_neg htop]
    exact ⟨rfl, rfl⟩

/-- `insertPosition` does not touch the extrema. -/
theorem insertPosition_minmax (cmp : α → α → Bool) (s : KllSketch α) :
    (insertPosition cmp s).2.minValue = s.minValue ∧
      (insertPosition cmp s).2.maxValue = s.maxValue := by
  have e2 : (insertPosition cmp s).2.minValue =
      (if s.levels.getD 0 0 = 0 then insertPositionCompact cmp s
        else s).minValue := rfl
  have e3 : (insertPosition cmp s).2.maxValue =
      (if s.levels.getD 0 0 = 0 then insertPositionCompact cmp s
        else s).maxValue := rfl
  rw [e2, e3]
  by_cases h0 : s.levels.getD 0 0 = 0
  · rw [if_pos h0]
    exact insertPositionCompact_minmax cmp s
  · rw [if_neg h0]
    exact ⟨rfl, rfl⟩

/-- The extrema after `insert(value)`: seeded by the first insertion,
then combined with `std::min` / `std::max` under the comparator. -/
theorem insert_minmax (cmp : α → α → Bool) (s : KllSketch α) (v : α) :
    (insert cmp s v).minValue =
        (if s.n = 0 then v else
          if cmp v s.minValue then v else s.minValue) ∧
      (insert cmp s v).maxValue =
        (if s.n = 0 then v else
          if cmp s.maxValue v then v else s.maxValue) := by
  set S1 := (if s.n = 0 then { s with minValue := v, maxValue := v }
    else
      { s with
        minValue := if cmp v s.minValue then v else s.minValue
        maxValue := if cmp s.maxValue v then v else s.maxValue })
    with hS1
  have hm : (insert cmp s v).minValue = S1.minValue :=
    (insertPosition_minmax cmp S1).1
  have hx : (insert cmp s v).maxValue = S1.maxValue :=
    (insertPosition_minmax cmp S1).2
  refine ⟨hm.trans ?_, hx.trans ?_⟩
  · rw [hS1]
    by_cases h : s.n = 0
    · rw [if_pos h, if_pos h]
    · rw [if_neg h, if_neg h]
  · rw [hS1]
    by_cases h : s.n = 0
    · rw [if_pos h, if_pos h]
    · rw [if_neg h, if_neg h]

/-- A whole sequence of `insert` calls, in order. -/
def insertAll (cmp : α → α → Bool) (s : KllSketch α) (vs : List α) :
    KllSketch α :=
  vs.foldl (insert cmp) s

/-- Inserting a sequence into a non-empty valid sketch folds the extrema
with `std::min` / `std::max` under the comparator. -/
theorem insertAll_minmax (cmp : α → α → Bool) (vs : List α) :
    ∀ t : KllSketch α, Inv t → 1 ≤ t.n →
      Inv (insertAll cmp t vs) ∧ 1 ≤ (insertAll cmp t vs).n ∧
        (insertAll cmp t vs).minValue =
          vs.foldl (fun m x => if cmp x m then x else m) t.minValue ∧
        (insertAll cmp t vs).maxValue =
          vs.foldl (fun m x => if cmp m x then x else m) t.maxValue := by
  induction vs with
  | nil => exact fun t hI hn => ⟨hI, hn, rfl, rfl⟩
  | cons v vs ih =>
      intro t hI hn
      obtain ⟨hI1, hN1, -⟩ := insert_inv cmp t v hI
      obtain ⟨hmin, hmax⟩ := insert_minmax cmp t v
      rw [if_neg (by omega)] at hmin hmax
      obtain ⟨hI2, hn2, hmin2, hmax2⟩ := ih (insert cmp t v) hI1
        (by omega)
      have e : insertAll cmp t (v :: vs) =
          insertAll cmp (insert cmp t v) vs := rfl
      rw [e]
      refine ⟨hI2, hn2, ?_, ?_⟩
      · rw [hmin2, hmin]
        rfl
      · rw [hmax2, hmax]
        rfl

end KllSketch

/-! ## The claims -/

namespace detail

/-- The documented precondition of `mergeOverlap`, checked by its two
debug assertions. -/
def mergeOverlapPre (startA lenA startB startC : Nat) : Prop :=
  startA + lenA ≤ startC ∧ startC + lenA ≤ startB

end detail

namespace KllSketch

variable [Inhabited α]

/-- C1: for every sequence of `insert` and `merge` operations on a sketch,
after each public call returns, the sum over all levels `i` of
`(levels[i+1] - levels[i]) * 2^i` equals the total count `n`. -/
theorem spec_C1 (cmp : α → α → Bool) (s : KllSketch α)
    (h : Reach cmp s) :
    Kll.sumSampleWeights s.numLevels s.levelsF = s.n :=
  (reach_inv cmp s h).wgt

theorem spec_C1_witness :
    Kll.sumSampleWeights
        (insert (fun a b : Nat => decide (a < b)) (init 8 0) 5).numLevels
        (insert (fun a b : Nat => decide (a < b)) (init 8 0) 5).levelsF =
      (insert (fun a b : Nat => decide (a < b)) (init 8 0) 5).n :=
  spec_C1 (fun a b : Nat => decide (a < b))
    (insert (fun a b : Nat => decide (a < b)) (init 8 0) 5)
    (Reach.insert (init 8 0) 5 (Reach.init 8 0 (by decide)))

/-- C3: for every sequence of `insert` and `merge` operations, after each
public call returns, the level-boundary vector is monotone non-decreasing
and its last entry equals the size of the items buffer. -/
theorem spec_C3 (cmp : α → α → Bool) (s : KllSketch α)
    (h : Reach cmp s) :
    (∀ i, i < s.numLevels → s.levelsF i ≤ s.levelsF (i + 1)) ∧
      s.levelsF s.numLevels = s.items.length :=
  ⟨(reach_inv cmp s h).mono, (reach_inv cmp s h).last⟩

theorem spec_C3_witness :
    (∀ i, i < (merge (fun a b : Nat => decide (a < b)) (init 8 0)
        [init 9 1]).numLevels →
      (merge (fun a b : Nat => decide (a < b)) (init 8 0)
          [init 9 1]).levelsF i ≤
        (merge (fun a b : Nat => decide (a < b)) (init 8 0)
            [init 9 1]).levelsF (i + 1)) ∧
      (merge (fun a b : Nat => decide (a < b)) (init 8 0)
          [init 9 1]).levelsF
          (merge (fun a b : Nat => decide (a < b)) (init 8 0)
            [init 9 1]).numLevels =
        (merge (fun a b : Nat => decide (a < b)) (init 8 0)
          [init 9 1]).items.length :=
  spec_C3 (fun a b : Nat => decide (a < b))
    (merge (fun a b : Nat => decide (a < b)) (init 8 0) [init 9 1])
    (Reach.merge (init 8 0) [init 9 1] (Reach.init 8 0 (by decide))
      (by
        intro p hp
        rw [List.mem_singleton] at hp
        rw [hp]
        exact inv_init 9 1 (by decide)))

/-- C5: at both call sites of `mergeOverlap` — the compaction branch of
`generalCompress` and the compaction in `insertPosition` — the documented
preconditions `startA + lenA ≤ startC` and `startC + lenA ≤ startB` hold,
with equality: both sites pass `startA = adjBeg`, `lenA = halfAdjPop`,
`startC = adjBeg + halfAdjPop` and `startB = rawLim = adjBeg + adjPop`
with `halfAdjPop = adjPop / 2`, so the two debug assertions in
`mergeOverlap` never fire.  The monotonicity of the surrounding boundary
vectors (`rawBeg ≤ rawLim`) is all that is needed. -/
theorem spec_C5 (st : detail.CompressState α) (level : Nat)
    (hm : st.inLevels level ≤ st.inLevels (level + 1))
    (s1 : KllSketch α) (lvl : Nat)
    (hm1 : s1.levelsF lvl ≤ s1.levelsF (lvl + 1)) :
    (let rawBeg := st.inLevels level
     let rawLim := st.inLevels (level + 1)
     let rawPop := rawLim - rawBeg
     let oddPop := rawPop % 2
     let adjBeg := rawBeg + oddPop
     let adjPop := rawPop - oddPop
     let halfAdjPop := adjPop / 2
     detail.mergeOverlapPre adjBeg halfAdjPop rawLim
         (adjBeg + halfAdjPop) ∧
       adjBeg + halfAdjPop = adjBeg + halfAdjPop ∧
       adjBeg + halfAdjPop + halfAdjPop = rawLim ∧
       rawLim = adjBeg + adjPop) ∧
    (let rawBeg := s1.levels.getD lvl 0
     let rawLim := s1.levels.getD (lvl + 1) 0
     let rawPop := rawLim - rawBeg
     let oddPop := rawPop % 2
     let adjBeg := rawBeg + oddPop
     let adjPop := rawPop - oddPop
     let halfAdjPop := adjPop / 2
     detail.mergeOverlapPre adjBeg halfAdjPop rawLim
         (adjBeg + halfAdjPop) ∧
       adjBeg + halfAdjPop = adjBeg + halfAdjPop ∧
       adjBeg + halfAdjPop + halfAdjPop = rawLim ∧
       rawLim = adjBeg + adjPop) := by
  constructor
  · refine ⟨⟨by omega, ?_⟩, rfl, ?_, ?_⟩ <;> omega
  · have hm1' : s1.levels.getD lvl 0 ≤ s1.levels.getD (lvl + 1) 0 := hm1
    refine ⟨⟨by omega, ?_⟩, rfl, ?_, ?_⟩ <;> omega

theorem spec_C5_witness :
    detail.mergeOverlapPre (0 + 5 % 2 : Nat)
        ((5 - 5 % 2) / 2) 5 (0 + 5 % 2 + (5 - 5 % 2) / 2) := by
  have h := spec_C5 (α := Nat)
    (⟨fun _ => default, fun i => min (5 * i) 5, fun _ => 0, 1, 5, 8, ⟨0⟩⟩ :
      detail.CompressState Nat) 0 (by decide) (init 8 0) 0 (by decide)
  have h1 := h.1.1
  simp only [show (min (5 * 0) 5 : Nat) = 0 from rfl,
    show (min (5 * 1) 5 : Nat) = 5 from rfl] at h1
  exact h1

/-- C9: if the combined count of all peers folded with the current `n`
equals the current `n` — equivalently, every peer passed to `merge` has
`n == 0` — then `merge` is a no-op: the whole state, including `n`, the
extrema, the buffers and the PRNG, is returned unchanged. -/
theorem spec_C9 (cmp : α → α → Bool) (s : KllSketch α)
    (others : List (KllSketch α)) :
    ((mergeAcc cmp s others).1 = s.n ↔ ∀ p ∈ others, p.n = 0) ∧
      ((mergeAcc cmp s others).1 = s.n → merge cmp s others = s) := by
  constructor
  · rw [mergeAcc_n cmp s others]
    constructor
    · intro h p hp
      have hz : (others.map fun o => o.n).sum = 0 := by omega
      rw [List.sum_eq_zero_iff] at hz
      exact hz p.n (List.mem_map_of_mem _ hp)
    · intro h
      have hz : (others.map fun o => o.n).sum = 0 := by
        apply List.sum_eq_zero
        intro x hx
        rw [List.mem_map] at hx
        obtain ⟨p, hp, he⟩ := hx
        rw [← he]
        exact h p hp
      omega
  · exact merge_noop cmp s others

theorem spec_C9_witness :
    merge (fun a b : Nat => decide (a < b)) (init 8 0)
        [init 8 1, init 10 2] = init 8 0 :=
  (spec_C9 (fun a b : Nat => decide (a < b)) (init 8 0)
    [init 8 1, init 10 2]).2 (by decide)

/-- Mapping a function over an `Except` preserves which error it is. -/
theorem except_map_error {ε : Type} {β : Type u} {γ : Type v}
    (g : β → γ) (x : Except ε β) (e : ε) :
    x.map g = .error e ↔ x = .error e := by
  cases x <;> simp [Except.map]

/-- Mapping a function over an `Except` preserves success. -/
theorem except_map_ok {ε : Type} {β : Type u} {γ : Type v}
    (g : β → γ) (x : Except ε β) :
    (∃ y, x.map g = .ok y) ↔ ∃ b, x = .ok b := by
  cases x <;> simp [Except.map]

/-- C8: two sketches constructed with the same `k` and the same seed, fed
the identical sequence of inserted values in the same order, have
identical internal state after every step — the embedding of the
construction and of `insert` is a pure function of `(k, seed)` and the
input prefix. -/
theorem spec_C8 (cmp : α → α → Bool) (k seed k2 seed2 : Nat)
    (s t : KllSketch α) (hs : s = init k seed) (ht : t = init k2 seed2)
    (hk : k = k2) (hseed : seed = seed2) (vs : List α) :
    ∀ m : Nat, insertAll cmp s (vs.take m) = insertAll cmp t (vs.take m) := by
  subst hk
  subst hseed
  subst hs
  subst ht
  exact fun m => rfl

theorem spec_C8_witness :
    insertAll (fun a b : Nat => decide (a < b)) (init 8 7)
        ([5, 3, 9].take 2) =
      insertAll (fun a b : Nat => decide (a < b)) (init 8 7)
        ([5, 3, 9].take 2) :=
  spec_C8 (fun a b : Nat => decide (a < b)) 8 7 8 7 (init 8 7) (init 8 7)
    rfl rfl rfl rfl [5, 3, 9] 2

/-- C7: for every sketch built by inserting a non-empty sequence of
values, `estimateQuantile(0)` returns the minimum of all inserted values
and `estimateQuantile(1)` the maximum, under the comparator. -/
theorem spec_C7 (cmp : α → α → Bool) (k seed : Nat) (hk : 8 ≤ k)
    (v : α) (vs : List α) :
    (estimateQuantile cmp (insertAll cmp (init k seed) (v :: vs)) 0).2 =
        .ok (vs.foldl (fun m x => if cmp x m then x else m) v) ∧
      (estimateQuantile cmp (insertAll cmp (init k seed) (v :: vs)) 1).2 =
        .ok (vs.foldl (fun m x => if cmp m x then x else m) v) := by
  have hI0 : Inv (init k seed : KllSketch α) := inv_init k seed hk
  obtain ⟨hI1, hN1, -⟩ := insert_inv cmp (init k seed) v hI0
  obtain ⟨hmin1, hmax1⟩ := insert_minmax cmp (init k seed) v
  have hn0 : (init k seed : KllSketch α).n = 0 := rfl
  rw [if_pos hn0] at hmin1 hmax1
  have hn0' : (init k seed : KllSketch α).n = 0 := rfl
  rw [hn0'] at hN1
  obtain ⟨hI2, hn2, hmin2, hmax2⟩ := insertAll_minmax cmp vs
    (insert cmp (init k seed) v) hI1 (by omega)
  have e : insertAll cmp (init k seed) (v :: vs) =
      insertAll cmp (insert cmp (init k seed) v) vs := rfl
  rw [e]
  have hnz : ¬ (insertAll cmp (insert cmp (init k seed) v) vs).n = 0 := by
    omega
  constructor
  · rw [estimateQuantile_zero cmp _ hnz, hmin2, hmin1]
  · rw [estimateQuantile_one cmp _ hnz, hmax2, hmax1]

theorem spec_C7_witness :
    (estimateQuantile (fun a b : Nat => decide (a < b))
        (insertAll (fun a b : Nat => decide (a < b)) (init 8 0)
          [5, 3, 7]) 0).2 =
        .ok ([3, 7].foldl
          (fun m x => if decide (x < m) then x else m) 5) ∧
      (estimateQuantile (fun a b : Nat => decide (a < b))
          (insertAll (fun a b : Nat => decide (a < b)) (init 8 0)
            [5, 3, 7]) 1).2 =
        .ok ([3, 7].foldl
          (fun m x => if decide (m < x) then x else m) 5) :=
  spec_C7 (fun a b : Nat => decide (a < b)) 8 0 (by decide) 5 [3, 7]

/-- C6 (amended): `estimateQuantile` and `estimateQuantiles` fail with
`EmptySketch` exactly when `n == 0`; they fail with `InvalidFraction`
exactly when the sketch is non-empty and some queried fraction is outside
`[0, 1]` (on an empty sketch the `EmptySketch` check fires first, even if
a fraction is also out of range); for `n > 0` and all fractions in
`[0, 1]` they succeed. -/
theorem spec_C6 (cmp : α → α → Bool) (s : KllSketch α) (fr : List ℚ)
    (q : ℚ) :
    ((estimateQuantiles cmp s fr).2 = .error .EmptySketch ↔ s.n = 0) ∧
      ((estimateQuantiles cmp s fr).2 = .error .InvalidFraction ↔
        (¬ s.n = 0 ∧ ∃ p ∈ fr, p < 0 ∨ 1 < p)) ∧
      ((∃ l, (estimateQuantiles cmp s fr).2 = .ok l) ↔
        (¬ s.n = 0 ∧ ∀ p ∈ fr, 0 ≤ p ∧ p ≤ 1)) ∧
      ((estimateQuantile cmp s q).2 = .error .EmptySketch ↔ s.n = 0) ∧
      ((estimateQuantile cmp s q).2 = .error .InvalidFraction ↔
        (¬ s.n = 0 ∧ (q < 0 ∨ 1 < q))) ∧
      ((∃ x, (estimateQuantile cmp s q).2 = .ok x) ↔
        (¬ s.n = 0 ∧ (0 ≤ q ∧ q ≤ 1))) := by
  obtain ⟨b1, b2, b3⟩ := estimateQuantiles_errors cmp s fr
  obtain ⟨c1, c2, c3⟩ := estimateQuantiles_errors cmp s [q]
  have e1 : (estimateQuantile cmp s q).2 =
      (estimateQuantiles cmp s [q]).2.map fun l => l.getD 0 default := rfl
  have hsing1 : (∃ p ∈ [q], p < 0 ∨ 1 < p) ↔ (q < 0 ∨ 1 < q) := by
    simp
  have hsing2 : (∀ p ∈ [q], 0 ≤ p ∧ p ≤ 1) ↔ (0 ≤ q ∧ q ≤ 1) := by
    simp
  refine ⟨b1, b2, b3, ?_, ?_, ?_⟩
  · rw [e1, except_map_error]
    exact c1
  · rw [e1, except_map_error, c2, hsing1]
  · rw [e1, except_map_ok, c3, hsing2]

theorem spec_C6_cex :
    ¬ ((estimateQuantiles (fun a b : Nat => decide (a < b)) (init 8 0)
          [(2 : ℚ)]).2 = .error .InvalidFraction ↔
        ∃ p ∈ [(2 : ℚ)], p < 0 ∨ 1 < p) := by
  intro hiff
  have h2 := hiff.mpr ⟨2, List.mem_singleton.mpr rfl,
    Or.inr (by norm_num)⟩
  rw [estimateQuantiles_empty (fun a b : Nat => decide (a < b)) (init 8 0)
    [(2 : ℚ)] rfl] at h2
  simp at h2

theorem spec_C6_witness :
    ∃ l, (estimateQuantiles (fun a b : Nat => decide (a < b))
        (insert (fun a b : Nat => decide (a < b)) (init 8 0) 5)
        [(1 : ℚ) / 2]).2 = .ok l :=
  (spec_C6 (fun a b : Nat => decide (a < b))
      (insert (fun a b : Nat => decide (a < b)) (init 8 0) 5)
      [(1 : ℚ) / 2] 0).2.2.1.mpr
    ⟨by decide, by
      intro p hp
      rw [List.mem_singleton] at hp
      rw [hp]
      norm_num⟩

/-- C10: for every valid sketch with `n > 0` and fractions all within
`[0, 1]`, `estimateQuantiles` leaves `n`, the extrema, the boundary
vector and the buffer size unchanged, leaves every level above 0 exactly
as it was and level 0 unchanged as a multiset (it is only permuted into
sorted order), and leaves the level-0-sorted flag set. -/
theorem spec_C10 (cmp : α → α → Bool) (s : KllSketch α) (fr : List ℚ)
    (hI : Inv s) (hn : ¬ s.n = 0)
    (hfr : ∀ q ∈ fr, 0 ≤ q ∧ q ≤ 1) :
    (estimateQuantiles cmp s fr).1.n = s.n ∧
      (estimateQuantiles cmp s fr).1.minValue = s.minValue ∧
      (estimateQuantiles cmp s fr).1.maxValue = s.maxValue ∧
      (estimateQuantiles cmp s fr).1.levels = s.levels ∧
      (estimateQuantiles cmp s fr).1.items.length = s.items.length ∧
      (estimateQuantiles cmp s fr).1.isLevelZeroSorted = true ∧
      (∀ lvl, 1 ≤ lvl →
        seg (estimateQuantiles cmp s fr).1.itemsF (s.levelsF lvl)
            (s.levelsF (lvl + 1) - s.levelsF lvl) =
          seg s.itemsF (s.levelsF lvl)
            (s.levelsF (lvl + 1) - s.levelsF lvl)) ∧
      (seg (estimateQuantiles cmp s fr).1.itemsF (s.levelsF 0)
          (s.levelsF 1 - s.levelsF 0)).Perm
        (seg s.itemsF (s.levelsF 0) (s.levelsF 1 - s.levelsF 0)) :=
  estimateQuantiles_frame cmp s fr hI hn

theorem spec_C10_witness :
    (estimateQuantiles (fun a b : Nat => decide (a < b))
          (insert (fun a b : Nat => decide (a < b)) (init 8 0) 5)
          [(1 : ℚ) / 2]).1.n =
        (insert (fun a b : Nat => decide (a < b)) (init 8 0) 5).n ∧
      (estimateQuantiles (fun a b : Nat => decide (a < b))
          (insert (fun a b : Nat => decide (a < b)) (init 8 0) 5)
          [(1 : ℚ) / 2]).1.isLevelZeroSorted = true :=
  ⟨(spec_C10 (fun a b : Nat => decide (a < b))
      (insert (fun a b : Nat => decide (a < b)) (init 8 0) 5)
      [(1 : ℚ) / 2]
      ((insert_inv (fun a b : Nat => decide (a < b)) (init 8 0) 5
        (inv_init 8 0 (by decide))).1)
      (by decide)
      (by
        intro q hq
        rw [List.mem_singleton] at hq
        rw [hq]
        norm_num)).1,
    (spec_C10 (fun a b : Nat => decide (a < b))
      (insert (fun a b : Nat => decide (a < b)) (init 8 0) 5)
      [(1 : ℚ) / 2]
      ((insert_inv (fun a b : Nat => decide (a < b)) (init 8 0) 5
        (inv_init 8 0 (by decide))).1)
      (by decide)
      (by
        intro q hq
        rw [List.mem_singleton] at hq
        rw [hq]
        norm_num)).2.2.2.2.2.1⟩

/-- C2 (amended): for every input configuration with `numLevelsIn ≥ 1`,
monotone input boundaries and every level except possibly level 0 sorted
(level 0 sorted when the flag says so), under a strict-weak-order
comparator `generalCompress` guarantees
`outLevels[finalNumLevels] - outLevels[0] == finalNumItems`, every output
level except possibly level 0 is sorted, and if the `isLevelZeroSorted`
input flag was true then output level 0 is sorted as well.  (The converse
direction of the original claim — level 0 unsorted whenever the flag was
false — does not hold; see the counterexample.) -/
theorem spec_C2 (k : Nat) (cmp : α → α → Bool) (numLevelsIn : Nat)
    (items : Nat → α) (inL outL : Nat → Nat) (flag : Bool)
    (rb : RandomBit) (hasym : CmpAsym cmp) (hneg : CmpNegTrans cmp)
    (h1 : 1 ≤ numLevelsIn)
    (hmono : ∀ i, i < numLevelsIn → inL i ≤ inL (i + 1))
    (hsort : ∀ l, l < numLevelsIn → (1 ≤ l ∨ flag = true) →
      SortedB cmp (seg items (inL l) (inL (l + 1) - inL l))) :
    (detail.generalCompress k cmp numLevelsIn items inL outL flag
          rb).outLevels
        (detail.generalCompress k cmp numLevelsIn items inL outL flag
          rb).result.finalNumLevels -
      (detail.generalCompress k cmp numLevelsIn items inL outL flag
        rb).outLevels 0 =
      (detail.generalCompress k cmp numLevelsIn items inL outL flag
        rb).result.finalNumItems ∧
    (∀ l, l < (detail.generalCompress k cmp numLevelsIn items inL outL
        flag rb).result.finalNumLevels → (1 ≤ l ∨ flag = true) →
      SortedB cmp (seg
        (detail.generalCompress k cmp numLevelsIn items inL outL flag
          rb).items
        ((detail.generalCompress k cmp numLevelsIn items inL outL flag
          rb).outLevels l)
        ((detail.generalCompress k cmp numLevelsIn items inL outL flag
            rb).outLevels (l + 1) -
          (detail.generalCompress k cmp numLevelsIn items inL outL flag
            rb).outLevels l))) := by
  obtain ⟨-, -, hspan, -, -, -, -⟩ :=
    detail.generalCompress_facts k cmp numLevelsIn items inL outL flag rb
      hmono
  exact ⟨hspan, detail.generalCompress_sorted k cmp numLevelsIn items inL
    outL flag rb hasym hneg hmono hsort⟩

theorem spec_C2_cex :
    ¬ (SortedB (fun a b : Nat => decide (a < b))
        (seg (detail.generalCompress 8 (fun a b : Nat => decide (a < b)) 1
            (fun _ => (0 : Nat)) (fun i => min i 1) (fun _ => 0) false
            ⟨0⟩).items
          ((detail.generalCompress 8 (fun a b : Nat => decide (a < b)) 1
            (fun _ => (0 : Nat)) (fun i => min i 1) (fun _ => 0) false
            ⟨0⟩).outLevels 0)
          ((detail.generalCompress 8 (fun a b : Nat => decide (a < b)) 1
              (fun _ => (0 : Nat)) (fun i => min i 1) (fun _ => 0) false
              ⟨0⟩).outLevels 1 -
            (detail.generalCompress 8 (fun a b : Nat => decide (a < b)) 1
              (fun _ => (0 : Nat)) (fun i => min i 1) (fun _ => 0) false
              ⟨0⟩).outLevels 0)) ↔ false = true) := by
  simp only [detail.generalCompress]
  rw [detail.gcLoop, dif_pos (by decide), detail.gcLoop,
    dif_neg (by decide)]
  decide

theorem spec_C2_witness :
    (detail.generalCompress 8 (fun a b : Nat => decide (a < b)) 1
          (fun _ => (0 : Nat)) (fun i => min i 1) (fun _ => 0) true
          ⟨0⟩).outLevels
        (detail.generalCompress 8 (fun a b : Nat => decide (a < b)) 1
          (fun _ => (0 : Nat)) (fun i => min i 1) (fun _ => 0) true
          ⟨0⟩).result.finalNumLevels -
      (detail.generalCompress 8 (fun a b : Nat => decide (a < b)) 1
        (fun _ => (0 : Nat)) (fun i => min i 1) (fun _ => 0) true
        ⟨0⟩).outLevels 0 =
      (detail.generalCompress 8 (fun a b : Nat => decide (a < b)) 1
        (fun _ => (0 : Nat)) (fun i => min i 1) (fun _ => 0) true
        ⟨0⟩).result.finalNumItems :=
  (spec_C2 8 (fun a b : Nat => decide (a < b)) 1 (fun _ => (0 : Nat))
    (fun i => min i 1) (fun _ => 0) true ⟨0⟩
    (by
      intro x y hxy
      simp only [decide_eq_true_eq] at hxy
      simp only [decide_eq_false_iff_not]
      omega)
    (by
      intro x y z hxy hyz
      simp only [decide_eq_false_iff_not] at *
      omega)
    (by decide)
    (by
      intro i hi
      have : i = 0 := by omega
      rw [this]
      decide)
    (by
      intro l hl hc
      have : l = 0 := by omega
      rw [this]
      decide)).1

/-- C4 (amended): under the documented preconditions and a
strict-weak-order comparator, `mergeOverlap` on sorted sub-ranges `A` and
`B` writes into `buf[startC..startC+lenA+lenB)` exactly the stable merge
of `B` and `A`: the output is sorted and is a permutation of `A ++ B`,
and among elements comparing equal, elements of `B` precede elements of
`A` (the code takes from `A` only when its element is strictly smaller,
so ties go to `B` — not to `A` as the original claim states; see the
counterexample). -/
theorem spec_C4 (f : Nat → α) (startA lenA startB lenB startC : Nat)
    (cmp : α → α → Bool) (hasym : CmpAsym cmp) (hneg : CmpNegTrans cmp)
    (h1 : startA + lenA ≤ startC) (h2 : startC + lenA ≤ startB)
    (hA : SortedB cmp (seg f startA lenA))
    (hB : SortedB cmp (seg f startB lenB)) :
    detail.mergeOverlap f startA lenA startB lenB startC cmp =
        writeSeg f startC ((seg f startB lenB).merge (seg f startA lenA)
          fun x y => ! cmp y x) ∧
      SortedB cmp (seg
        (detail.mergeOverlap f startA lenA startB lenB startC cmp) startC
        (lenA + lenB)) ∧
      (seg (detail.mergeOverlap f startA lenA startB lenB startC cmp)
          startC (lenA + lenB)).Perm
        (seg f startA lenA ++ seg f startB lenB) := by
  have hspec := detail.mergeOverlap_spec f startA lenA startB lenB startC
    cmp h1 h2
  have hlen : ((seg f startA lenA).merge (seg f startB lenB) cmp).length =
      lenA + lenB := by
    rw [List.length_merge, seg_length, seg_length]
  have hseg : seg (detail.mergeOverlap f startA lenA startB lenB startC
      cmp) startC (lenA + lenB) =
      (seg f startA lenA).merge (seg f startB lenB) cmp := by
    rw [hspec]
    have hsw := seg_writeSeg f startC
      ((seg f startA lenA).merge (seg f startB lenB) cmp)
    rw [hlen] at hsw
    exact hsw
  refine ⟨?_, ?_, ?_⟩
  · rw [hspec, merge_swap]
  · rw [hseg]
    exact sortedB_merge hasym hneg hA hB
  · rw [hseg]
    exact merge_perm cmp _ _

theorem spec_C4_cex :
    ¬ ((detail.mergeOverlap
          (fun i => if i = 0 then ((5, 0) : Nat × Nat)
            else if i = 2 then (5, 1) else (0, 0))
          0 1 2 1 1 (fun x y => decide (x.1 < y.1))) 1 =
        (writeSeg
          (fun i => if i = 0 then ((5, 0) : Nat × Nat)
            else if i = 2 then (5, 1) else (0, 0))
          1 ((seg (fun i => if i = 0 then ((5, 0) : Nat × Nat)
              else if i = 2 then (5, 1) else (0, 0)) 0 1).merge
            (seg (fun i => if i = 0 then ((5, 0) : Nat × Nat)
              else if i = 2 then (5, 1) else (0, 0)) 2 1)
            fun x y => ! decide (y.1 < x.1))) 1) := by
  rw [detail.mergeOverlap_spec
    (fun i => if i = 0 then ((5, 0) : Nat × Nat)
      else if i = 2 then (5, 1) else (0, 0))
    0 1 2 1 1 (fun x y => decide (x.1 < y.1)) (by omega) (by omega)]
  have eA : seg (fun i => if i = 0 then ((5, 0) : Nat × Nat)
      else if i = 2 then (5, 1) else (0, 0)) 0 1 = [(5, 0)] := by decide
  have eB : seg (fun i => if i = 0 then ((5, 0) : Nat × Nat)
      else if i = 2 then (5, 1) else (0, 0)) 2 1 = [(5, 1)] := by decide
  rw [eA, eB, List.cons_merge_cons, List.cons_merge_cons]
  norm_num
  decide

theorem spec_C4_witness :
    detail.mergeOverlap (fun i : Nat => (i : Nat)) 0 1 2 1 1
        (fun a b : Nat => decide (a < b)) =
      writeSeg (fun i : Nat => (i : Nat)) 1
        ((seg (fun i : Nat => (i : Nat)) 2 1).merge
          (seg (fun i : Nat => (i : Nat)) 0 1)
          fun x y => ! decide (y < x)) :=
  (spec_C4 (fun i : Nat => (i : Nat)) 0 1 2 1 1
    (fun a b : Nat => decide (a < b))
    (by
      intro x y hxy
      simp only [decide_eq_true_eq] at hxy
      simp only [decide_eq_false_iff_not]
      omega)
    (by
      intro x y z hxy hyz
      simp only [decide_eq_false_iff_not] at *
      omega)
    (by omega) (by omega) (by decide) (by decide)).1

end KllSketch

end Kll